import Mathlib

/-!
# Verification of `ui/confview.go` (wireguard-windows)

A shallow embedding of the configuration view: the field rows
(`labelTextLine`), the two section views (`interfaceView`, `peerView`), the
reconciler `ConfView.setConfiguration` and the thread dispatcher
`ConfView.SetConfiguration`, followed by the properties proved about them.

Conventions of the embedding

* The package `conf` is not part of this file's source. Its types and the
  functions the view calls on them are collected in `ConfSig` and every
  definition is parametric in it.
* Widgets of the `walk` toolkit are records of the properties the view reads
  or writes. A group box is identified by a number; the `peerView` built in
  group box `g` is addressed by the same number `g`, so pointer identity of
  peer sections is identity of these numbers.
* A Go map is an association list with one entry per key. The order in which
  `range` visits a map is not fixed by Go; it is a parameter (`MapOrders`).
* Every toolkit call that changes the widget tree, the title or the
  suspension state is recorded in a log of `Event`s.
-/

namespace ui

/-! ## Collaborators -/

/-- The part of package `conf` used by the view: the types of keys, address
ranges, DNS addresses, endpoints and handshake times, with the methods called
on them. `NewPrivateKeyFromString` returns `none` where the Go function returns
a non-nil error. Byte counters (`conf.Bytes`) are unsigned numbers. -/
structure ConfSig where
  Key : Type
  IPCidr : Type
  IP : Type
  Endpoint : Type
  HandshakeTime : Type
  KeyDecEq : DecidableEq Key
  KeyString : Key → String
  KeyIsZero : Key → Bool
  KeyPublic : Key → Key
  NewPrivateKeyFromString : String → Option Key
  IPCidrString : IPCidr → String
  IPString : IP → String
  EndpointIsEmpty : Endpoint → Bool
  EndpointString : Endpoint → String
  HandshakeTimeIsEmpty : HandshakeTime → Bool
  HandshakeTimeString : HandshakeTime → String
  BytesString : Nat → String

instance instDecidableEqKey (σ : ConfSig) : DecidableEq σ.Key := σ.KeyDecEq

/-- The record `conf.Interface`; `ListenPort` and `Mtu` are unsigned. -/
structure Interface (σ : ConfSig) where
  PrivateKey : σ.Key
  Addresses : List σ.IPCidr
  ListenPort : Nat
  Mtu : Nat
  Dns : List σ.IP

/-- The record `conf.Peer`; keepalive and byte counters are unsigned. -/
structure Peer (σ : ConfSig) where
  PublicKey : σ.Key
  PresharedKey : σ.Key
  AllowedIPs : List σ.IPCidr
  Endpoint : σ.Endpoint
  PersistentKeepalive : Nat
  RxBytes : Nat
  TxBytes : Nat
  LastHandshakeTime : σ.HandshakeTime

/-- The record `conf.Config`: one snapshot. -/
structure Config (σ : ConfSig) where
  Name : String
  Interface : Interface σ
  Peers : List (Peer σ)

/-- Decimal rendering, `strconv.Itoa` on a non-negative number. -/
def Itoa (n : Nat) : String := Nat.repr n

/-- The function `strings.Join`. -/
def Join (elems : List String) (sep : String) : String := sep.intercalate elems

/-! ## Toolkit widgets -/

/-- A `walk.TextLabel`: the container it was created in, its text and whether
it is visible. -/
structure TextLabel where
  parent : Nat
  text : String
  visible : Bool

/-- A `walk.LineEdit`: container, text, visibility, read-only flag and the
selection range reported by `TextSelection`. The two ends of the range are
character positions counted from the start of the text (what `EM_GETSEL`
reports), so they are natural numbers. -/
structure LineEdit where
  parent : Nat
  text : String
  visible : Bool
  readOnly : Bool
  selStart : Nat
  selEnd : Nat

/-- The constructor `walk.NewTextLabel(parent)`: an empty, visible label. -/
def NewTextLabel (parent : Nat) : TextLabel :=
  { parent := parent, text := "", visible := true }

/-- The constructor `walk.NewLineEdit(parent)`: an empty, visible, editable
line with the caret at 0. -/
def NewLineEdit (parent : Nat) : LineEdit :=
  { parent := parent, text := "", visible := true, readOnly := false, selStart := 0, selEnd := 0 }

def TextLabel.SetText (l : TextLabel) (t : String) : TextLabel := { l with text := t }

def TextLabel.SetVisible (l : TextLabel) (b : Bool) : TextLabel := { l with visible := b }

def LineEdit.Text (e : LineEdit) : String := e.text

def LineEdit.TextSelection (e : LineEdit) : Nat × Nat := (e.selStart, e.selEnd)

/-- The setter `SetText`: replacing the text of a line edit puts the caret back
at 0, which is why `show` reads the selection before and sets it again after. -/
def LineEdit.SetText (e : LineEdit) (t : String) : LineEdit :=
  { e with text := t, selStart := 0, selEnd := 0 }

def LineEdit.SetVisible (e : LineEdit) (b : Bool) : LineEdit := { e with visible := b }

def LineEdit.SetReadOnly (e : LineEdit) (b : Bool) : LineEdit := { e with readOnly := b }

/-- The setter `SetTextSelection(start, end)` (the message `EM_SETSEL`): an
edit control bounds both positions by its current text, so a range that
reaches past the end of the text is cut at the end, and it reports the lower
of the two positions as the start of the selection. The length of the text is
counted in characters. The source passes only positions it has read with
`TextSelection`, so the arguments are character positions too. -/
def LineEdit.SetTextSelection (e : LineEdit) (s t : Nat) : LineEdit :=
  let a := min s e.text.length
  let b := min t e.text.length
  { e with selStart := min a b, selEnd := max a b }

/-- The selection range of a line edit lies within its text: the start is not
after the end and the end is not after the last character. -/
def LineEdit.SelectionWithin (e : LineEdit) : Prop :=
  e.selStart ≤ e.selEnd ∧ e.selEnd ≤ e.text.length

instance instDecidableSelectionWithin (e : LineEdit) : Decidable e.SelectionWithin := by
  unfold LineEdit.SelectionWithin
  exact inferInstance

/-! ## Field rows -/

/-- One field row: `type labelTextLine struct`. -/
structure labelTextLine where
  label : TextLabel
  text : LineEdit

/-- The method `(lt *labelTextLine) show(text string)`. -/
def labelTextLine.show (lt : labelTextLine) (text : String) : labelTextLine :=
  let se := lt.text.TextSelection
  let lt := { lt with text := lt.text.SetText text }
  let lt := { lt with label := lt.label.SetVisible true }
  let lt := { lt with text := lt.text.SetVisible true }
  { lt with text := lt.text.SetTextSelection se.1 se.2 }

/-- A row whose value widget holds an eight-character text with characters 2
to 5 selected. -/
def selectedRow : labelTextLine :=
  { label := NewTextLabel 0
    text := ((NewLineEdit 0).SetText "abcdefgh").SetTextSelection 2 5 }

/-- The method `(lt *labelTextLine) hide()`. -/
def labelTextLine.hide (lt : labelTextLine) : labelTextLine :=
  let lt := { lt with text := lt.text.SetText "" }
  let lt := { lt with label := lt.label.SetVisible false }
  { lt with text := lt.text.SetVisible false }

/-- The function `newLabelTextLine(fieldName, parent)`. Alignment, window
style and brush are styling only and are not recorded; the handler attached to
`FocusedChanged` runs on a later user event, not inside any call of the view. -/
def newLabelTextLine (fieldName : String) (parent : Nat) : labelTextLine :=
  let label := NewTextLabel parent
  let label := label.SetText (fieldName ++ ":")
  let label := label.SetVisible false
  let text := NewLineEdit parent
  let text := text.SetReadOnly true
  let text := text.SetVisible false
  { label := label, text := text }

/-- What a row displays: visibility of the label, visibility of the value and
the value text. -/
def labelTextLine.display (lt : labelTextLine) : Bool × Bool × String :=
  (lt.label.visible, lt.text.visible, lt.text.Text)

/-- A row is shown with content `t`: both widgets visible, value text `t`. -/
def labelTextLine.Shows (lt : labelTextLine) (t : String) : Prop :=
  lt.display = (true, true, t)

/-- A row is hidden: both widgets invisible and the value text empty. -/
def labelTextLine.Hidden (lt : labelTextLine) : Prop :=
  lt.display = (false, false, "")

/-! ## Section views -/

/-- The interface section: `type interfaceView struct`. -/
structure interfaceView where
  publicKey : labelTextLine
  listenPort : labelTextLine
  mtu : labelTextLine
  addresses : labelTextLine
  dns : labelTextLine

/-- A peer section: `type peerView struct`. -/
structure peerView where
  publicKey : labelTextLine
  presharedKey : labelTextLine
  allowedIPs : labelTextLine
  endpoint : labelTextLine
  persistentKeepalive : labelTextLine
  latestHandshake : labelTextLine
  transfer : labelTextLine

/-- The function `newInterfaceView(parent)`; grid placement is layout only. -/
def newInterfaceView (parent : Nat) : interfaceView :=
  { publicKey := newLabelTextLine "Public key" parent
    listenPort := newLabelTextLine "Listen port" parent
    mtu := newLabelTextLine "MTU" parent
    addresses := newLabelTextLine "Addresses" parent
    dns := newLabelTextLine "DNS servers" parent }

/-- The function `newPeerView(parent)`; grid placement is layout only. -/
def newPeerView (parent : Nat) : peerView :=
  { publicKey := newLabelTextLine "Public key" parent
    presharedKey := newLabelTextLine "Preshared key" parent
    allowedIPs := newLabelTextLine "Allowed IPs" parent
    endpoint := newLabelTextLine "Endpoint" parent
    persistentKeepalive := newLabelTextLine "Persistent keepalive" parent
    latestHandshake := newLabelTextLine "Latest handshake" parent
    transfer := newLabelTextLine "Transfer" parent }

/-- The method `(iv *interfaceView) apply(c *conf.Interface)`. -/
def interfaceView.apply (σ : ConfSig) (iv : interfaceView) (c : Interface σ) : interfaceView :=
  let iv := { iv with publicKey := iv.publicKey.show (σ.KeyString (σ.KeyPublic c.PrivateKey)) }
  let iv :=
    if c.ListenPort > 0 then { iv with listenPort := iv.listenPort.show (Itoa c.ListenPort) }
    else { iv with listenPort := iv.listenPort.hide }
  let iv :=
    if c.Mtu > 0 then { iv with mtu := iv.mtu.show (Itoa c.Mtu) }
    else { iv with mtu := iv.mtu.hide }
  let iv :=
    if c.Addresses.length > 0 then
      let addrStrings := c.Addresses.map σ.IPCidrString
      { iv with addresses := iv.addresses.show (Join addrStrings ", ") }
    else { iv with addresses := iv.addresses.hide }
  if c.Dns.length > 0 then
    let addrStrings := c.Dns.map σ.IPString
    { iv with dns := iv.dns.show (Join addrStrings ", ") }
  else { iv with dns := iv.dns.hide }

/-- The method `(pv *peerView) apply(c *conf.Peer)`. -/
def peerView.apply (σ : ConfSig) (pv : peerView) (c : Peer σ) : peerView :=
  let pv := { pv with publicKey := pv.publicKey.show (σ.KeyString c.PublicKey) }
  let pv :=
    if !σ.KeyIsZero c.PresharedKey then { pv with presharedKey := pv.presharedKey.show "enabled" }
    else { pv with presharedKey := pv.presharedKey.hide }
  let pv :=
    if c.AllowedIPs.length > 0 then
      let addrStrings := c.AllowedIPs.map σ.IPCidrString
      { pv with allowedIPs := pv.allowedIPs.show (Join addrStrings ", ") }
    else { pv with allowedIPs := pv.allowedIPs.hide }
  let pv :=
    if !σ.EndpointIsEmpty c.Endpoint then
      { pv with endpoint := pv.endpoint.show (σ.EndpointString c.Endpoint) }
    else { pv with endpoint := pv.endpoint.hide }
  let pv :=
    if c.PersistentKeepalive > 0 then
      { pv with persistentKeepalive := pv.persistentKeepalive.show (Itoa c.PersistentKeepalive) }
    else { pv with persistentKeepalive := pv.persistentKeepalive.hide }
  let pv :=
    if !σ.HandshakeTimeIsEmpty c.LastHandshakeTime then
      { pv with latestHandshake := pv.latestHandshake.show (σ.HandshakeTimeString c.LastHandshakeTime) }
    else { pv with latestHandshake := pv.latestHandshake.hide }
  if c.RxBytes > 0 ∨ c.TxBytes > 0 then
    { pv with transfer :=
        pv.transfer.show (σ.BytesString c.RxBytes ++ " received, " ++ σ.BytesString c.TxBytes ++ " sent") }
  else { pv with transfer := pv.transfer.hide }

/-- What an interface section displays, row by row in field order. -/
def interfaceView.display (iv : interfaceView) : List (Bool × Bool × String) :=
  [iv.publicKey.display, iv.listenPort.display, iv.mtu.display, iv.addresses.display,
   iv.dns.display]

/-- What a peer section displays, row by row in field order. -/
def peerView.display (pv : peerView) : List (Bool × Bool × String) :=
  [pv.publicKey.display, pv.presharedKey.display, pv.allowedIPs.display, pv.endpoint.display,
   pv.persistentKeepalive.display, pv.latestHandshake.display, pv.transfer.display]

/-! ## Go maps -/

section GoMap

variable {K V : Type} [DecidableEq K]

/-- The map read `m[k]`: `none` where Go yields the zero value (a nil pointer). -/
def mapGet : List (K × V) → K → Option V
  | [], _ => none
  | (a, v) :: m, k => if a = k then some v else mapGet m k

/-- The builtin `delete(m, k)`. -/
def mapDelete (m : List (K × V)) (k : K) : List (K × V) :=
  m.filter (fun e => decide (e.1 ≠ k))

/-- The map write `m[k] = v`. -/
def mapSet (m : List (K × V)) (k : K) (v : V) : List (K × V) :=
  mapDelete m k ++ [(k, v)]

end GoMap

/-- The orders in which the two `range` loops over maps visit their entries:
for every map some rearrangement of its entries. -/
structure MapOrders (σ : ConfSig) where
  peers : List (σ.Key × Nat) → List (σ.Key × Nat)
  peers_perm : ∀ m, (peers m).Perm m
  inverse : List (Nat × Bool) → List (Nat × Bool)
  inverse_perm : ∀ m, (inverse m).Perm m

/-- Visiting the entries in the order they are stored. -/
def MapOrders.stored (σ : ConfSig) : MapOrders σ :=
  { peers := fun m => m
    peers_perm := fun m => List.Perm.refl m
    inverse := fun m => m
    inverse_perm := fun m => List.Perm.refl m }

/-- Visiting the entries in the reverse of the order they are stored. -/
def MapOrders.reversed (σ : ConfSig) : MapOrders σ :=
  { peers := fun m => m.reverse
    peers_perm := fun m => List.reverse_perm m
    inverse := fun m => m.reverse
    inverse_perm := fun m => List.reverse_perm m }

/-! ## The configuration view -/

/-- A toolkit call or map update performed by the view. Group boxes and peer
sections are named by their number, the `SetTitle` of a group box carries the
number of that box. -/
inductive Event (σ : ConfSig) where
  | SetSuspended (b : Bool)
  | SetTitle (g : Nat) (title : String)
  | newPaddedGroupGrid (g : Nat)
  | newPeerView (g : Nat)
  | insert (k : σ.Key) (pv : Nat)
  | delete (k : σ.Key)
  | Remove (g : Nat)
  | Dispose (g : Nat)
  | SendMessage (msg wParam lParam : Nat)
  | CallWindowProc (msg wParam lParam : Nat)

/-- A `walk.GroupBox`: its number and its title. -/
structure GroupBox where
  id : Nat
  title : String

/-- The view: `type ConfView struct`. Of the embedded scroll view the list of
child group boxes, the suspension flag and the disposed boxes are kept;
`nextId` is the next unused box number, `views` the peer section each pointer
addresses (the content at a number not yet handed out is never read). -/
structure ConfView (σ : ConfSig) where
  children : List Nat
  suspended : Bool
  disposed : List Nat
  nextId : Nat
  name : GroupBox
  interfaze : interfaceView
  peers : List (σ.Key × Nat)
  views : Nat → peerView
  originalWndProc : Nat → Nat → Nat → Nat
  creatingThread : Nat

/-- The constructor `NewConfView(parent)` run on thread `thread`, every toolkit
constructor succeeding; `prevWndProc` is the window procedure that
`SetWindowLongPtr` replaces and returns. The interface group box is box 0. -/
def NewConfView (σ : ConfSig) (thread : Nat) (prevWndProc : Nat → Nat → Nat → Nat) :
    ConfView σ :=
  { children := [0]
    suspended := false
    disposed := []
    nextId := 1
    name := { id := 0, title := "" }
    interfaze := newInterfaceView 0
    peers := []
    views := fun g => newPeerView g
    originalWndProc := prevWndProc
    creatingThread := thread }

/-- The receiver together with the local variable `hasSuspended` of
`setConfiguration` and the log of the call so far. -/
structure Run (σ : ConfSig) where
  cv : ConfView σ
  hasSuspended : Bool
  log : List (Event σ)

variable {σ : ConfSig}

/-- The closure `suspend` of `setConfiguration`. -/
def Run.suspend (r : Run σ) : Run σ :=
  if !r.hasSuspended then
    { cv := { r.cv with suspended := true }
      hasSuspended := true
      log := r.log ++ [Event.SetSuspended true] }
  else r

/-- The deferred function of `setConfiguration`. -/
def Run.resume (r : Run σ) : Run σ :=
  if r.hasSuspended then
    { r with cv := { r.cv with suspended := false }, log := r.log ++ [Event.SetSuspended false] }
  else r

/-- The pointer write `*pv = v`. -/
def setView (views : Nat → peerView) (pv : Nat) (v : peerView) : Nat → peerView :=
  fun q => if q = pv then v else views q

/-- Then-branch of the loop over `c.Peers`: the key is mapped to `pv`. -/
def peerUpdate (r : Run σ) (inverse : List (Nat × Bool)) (pv : Nat) (peer : Peer σ) :
    Run σ × List (Nat × Bool) :=
  let r := { r with cv := { r.cv with views := setView r.cv.views pv ((r.cv.views pv).apply σ peer) } }
  (r, mapSet inverse pv false)

/-- Else-branch of the loop over `c.Peers`: the key is not mapped. The call
`newPaddedGroupGrid(cv)` succeeds and its group box becomes the last child of
the scroll view; margins, layout and spacer are layout only. -/
def peerCreate (r : Run σ) (inverse : List (Nat × Bool)) (peer : Peer σ) :
    Run σ × List (Nat × Bool) :=
  let r := r.suspend
  let group := r.cv.nextId
  let r := { r with cv := { r.cv with nextId := group + 1, children := r.cv.children ++ [group] }
                    log := r.log ++ [Event.newPaddedGroupGrid group] }
  let r := { r with log := r.log ++ [Event.SetTitle group "Peer"] }
  let pv := group
  let r := { r with cv := { r.cv with views := setView r.cv.views pv (newPeerView group) }
                    log := r.log ++ [Event.newPeerView group] }
  let r := { r with cv := { r.cv with views := setView r.cv.views pv ((r.cv.views pv).apply σ peer) } }
  let r := { r with cv := { r.cv with peers := mapSet r.cv.peers peer.PublicKey pv }
                    log := r.log ++ [Event.insert peer.PublicKey pv] }
  (r, inverse)

/-- Body of the loop `for _, peer := range c.Peers`. -/
def peerStep (st : Run σ × List (Nat × Bool)) (peer : Peer σ) : Run σ × List (Nat × Bool) :=
  match mapGet st.1.cv.peers peer.PublicKey with
  | some pv => peerUpdate st.1 st.2 pv peer
  | none => peerCreate st.1 st.2 peer

/-- The removal of one stale section, after its key text has parsed to `k`. -/
def removeSection (r : Run σ) (pv : Nat) (k : σ.Key) : Run σ :=
  let r := r.suspend
  let r := { r with cv := { r.cv with peers := mapDelete r.cv.peers k }
                    log := r.log ++ [Event.delete k] }
  let groupBox := (r.cv.views pv).publicKey.label.parent
  let r := { r with cv := { r.cv with children := r.cv.children.erase groupBox }
                    log := r.log ++ [Event.Remove groupBox] }
  { r with cv := { r.cv with disposed := r.cv.disposed ++ [groupBox] }
           log := r.log ++ [Event.Dispose groupBox] }

/-- Body of the loop `for pv, remove := range inverse`. -/
def removeStep (r : Run σ) (e : Nat × Bool) : Run σ :=
  if !e.2 then r
  else
    match σ.NewPrivateKeyFromString (r.cv.views e.1).publicKey.text.Text with
    | none => r
    | some k => removeSection r e.1 k

/-- The map `inverse` as first built: every mapped section marked `true`. -/
def buildInverse (entries : List (σ.Key × Nat)) : List (Nat × Bool) :=
  entries.foldl (fun inverse e => mapSet inverse e.2 true) []

/-- Title update and interface section: the statements of `setConfiguration`
before the peer loop. -/
def applyHeader (r : Run σ) (c : Config σ) : Run σ :=
  let title := "Interface: " ++ c.Name
  let r :=
    if r.cv.name.title ≠ title then
      { r with cv := { r.cv with name := { r.cv.name with title := title } }
               log := r.log ++ [Event.SetTitle r.cv.name.id title] }
    else r
  { r with cv := { r.cv with interfaze := r.cv.interfaze.apply σ c.Interface } }

/-- The method `(cv *ConfView) setConfiguration(c *conf.Config)`: the view
after the call and the log of the call. -/
def setConfiguration (ord : MapOrders σ) (cv : ConfView σ) (c : Config σ) :
    ConfView σ × List (Event σ) :=
  let r : Run σ := { cv := cv, hasSuspended := false, log := [] }
  let r := applyHeader r c
  let inverse := buildInverse (ord.peers r.cv.peers)
  let st := c.Peers.foldl peerStep (r, inverse)
  let r := (ord.inverse st.2).foldl removeStep st.1
  let r := r.resume
  (r.cv, r.log)

/-! ## Thread dispatch -/

/-- The Win32 constant `WM_APP`. -/
def WM_APP : Nat := 0x8000

/-- The constant `crossThreadUpdate`. -/
def crossThreadUpdate : Nat := WM_APP + 17

/-- The window procedure `crossThreadMessageHijack`. `mem` is the memory the
pointer in `wParam` is read from. The result is the view afterwards, the log
and the value returned to the sender. -/
def crossThreadMessageHijack (ord : MapOrders σ) (mem : Nat → Config σ) (cv : ConfView σ)
    (msg wParam lParam : Nat) : ConfView σ × List (Event σ) × Nat :=
  if msg = crossThreadUpdate then
    let out := setConfiguration ord cv (mem wParam)
    (out.1, out.2, 0)
  else
    (cv, [Event.CallWindowProc msg wParam lParam], cv.originalWndProc msg wParam lParam)

/-- The function a thread enters in one stretch of a call of
`SetConfiguration`: `cv.setConfiguration(c)` called by `SetConfiguration`
itself (line 252), `cv.SendMessage(msg, wParam, lParam)` (line 254), or the
window procedure `crossThreadMessageHijack` entered for a message. -/
inductive Code where
  | setConfiguration (c : Nat)
  | SendMessage (msg wParam lParam : Nat)
  | crossThreadMessageHijack (msg wParam lParam : Nat)
deriving DecidableEq

/-- Whether the code of a stretch runs `setConfiguration`: the direct call
does, and so does the window procedure when the message is
`crossThreadUpdate`; sending a message does not. -/
def Code.runsSetConfiguration : Code → Bool
  | Code.setConfiguration _ => true
  | Code.SendMessage _ _ _ => false
  | Code.crossThreadMessageHijack msg _ _ => decide (msg = crossThreadUpdate)

/-- One stretch of a call: the thread that executes it, the function it
enters, the view when the stretch begins and when it ends, and the toolkit
calls the thread makes in it. Row updates are not logged, so what a thread
does to the title, the rows and `cv.peers` is read off `before` and `after`. -/
structure Stretch (σ : ConfSig) where
  thread : Nat
  code : Code
  before : ConfView σ
  after : ConfView σ
  log : List (Event σ)

/-- The log of a stretch, each entry with the thread of the stretch. -/
def Stretch.tagged (s : Stretch σ) : List (Nat × Event σ) :=
  s.log.map (fun e => (s.thread, e))

/-- The stretches follow one another on the view: the first begins with `cv`
and each next one begins with the view the one before ended with. -/
def Chained : ConfView σ → List (Stretch σ) → Prop
  | _, [] => True
  | cv, s :: rest => s.before = cv ∧ Chained s.after rest

/-- The view after the last stretch. -/
def finalView (cv : ConfView σ) (l : List (Stretch σ)) : ConfView σ :=
  l.foldl (fun _ s => s.after) cv

/-- The toolkit call `cv.SendMessage(msg, wParam, lParam)` made on thread
`caller`, following the Win32 contract of `SendMessage`: the caller sends the
message and touches nothing of the view; the message is handed to the window
procedure of the window, which runs on the thread that created the window,
and the caller continues only when that procedure has returned. The result
is the two stretches and the value the window procedure returns. -/
def ConfView.SendMessage (ord : MapOrders σ) (mem : Nat → Config σ) (cv : ConfView σ)
    (caller : Nat) (msg wParam lParam : Nat) : List (Stretch σ) × Nat :=
  let out := crossThreadMessageHijack ord mem cv msg wParam lParam
  ([{ thread := caller
      code := Code.SendMessage msg wParam lParam
      before := cv
      after := cv
      log := [Event.SendMessage msg wParam lParam] },
    { thread := cv.creatingThread
      code := Code.crossThreadMessageHijack msg wParam lParam
      before := cv
      after := out.1
      log := out.2.1 }],
   out.2.2)

/-- The method `(cv *ConfView) SetConfiguration(c *conf.Config)` called on
thread `thread` with the snapshot at address `c`, thread by thread: on the
creating thread the caller runs `cv.setConfiguration(c)`; on another thread
the only statement the caller executes is
`cv.SendMessage(crossThreadUpdate, c, 0)`. -/
def SetConfigurationStretches (ord : MapOrders σ) (mem : Nat → Config σ) (cv : ConfView σ)
    (thread : Nat) (c : Nat) : List (Stretch σ) :=
  if cv.creatingThread = thread then
    [{ thread := thread
       code := Code.setConfiguration c
       before := cv
       after := (setConfiguration ord cv (mem c)).1
       log := (setConfiguration ord cv (mem c)).2 }]
  else
    (ConfView.SendMessage ord mem cv thread crossThreadUpdate c 0).1

/-- The method `(cv *ConfView) SetConfiguration(c *conf.Config)` called on
thread `thread` with the snapshot at address `c`: the view when the call
returns and the log of its stretches, each entry with the thread that
performed it. -/
def SetConfiguration (ord : MapOrders σ) (mem : Nat → Config σ) (cv : ConfView σ)
    (thread : Nat) (c : Nat) : ConfView σ × List (Nat × Event σ) :=
  let l := SetConfigurationStretches ord mem cv thread c
  (finalView cv l, (l.map Stretch.tagged).flatten)

/-- The views reachable from `NewConfView` by calls of `setConfiguration`. -/
inductive Reachable : ConfView σ → Prop where
  | init (thread : Nat) (prevWndProc : Nat → Nat → Nat → Nat) :
      Reachable (NewConfView σ thread prevWndProc)
  | step (ord : MapOrders σ) (cv : ConfView σ) (c : Config σ) :
      Reachable cv → Reachable (setConfiguration ord cv c).1

/-! ## A concrete collaborator for worked examples -/

/-- An instance of the collaborator signature: keys, addresses, endpoints and
times are strings that print as themselves, the empty string is the zero
key, the empty endpoint and the empty time, and byte counts print in decimal
followed by a unit. -/
def textSig : ConfSig :=
  { Key := String
    IPCidr := String
    IP := String
    Endpoint := String
    HandshakeTime := String
    KeyDecEq := fun a b => inferInstanceAs (Decidable (a = b))
    KeyString := fun k => k
    KeyIsZero := fun k => k == ""
    KeyPublic := fun k => "pub:" ++ k
    NewPrivateKeyFromString := fun s => some s
    IPCidrString := fun a => a
    IPString := fun a => a
    EndpointIsEmpty := fun e => e == ""
    EndpointString := fun e => e
    HandshakeTimeIsEmpty := fun t => t == ""
    HandshakeTimeString := fun t => t
    BytesString := fun n => Nat.repr n ++ " B" }

/-- A peer of `textSig` with the given key and byte counters and nothing else set. -/
def textPeer (key : String) (rx tx : Nat) : Peer textSig :=
  { PublicKey := key, PresharedKey := "", AllowedIPs := [], Endpoint := "",
    PersistentKeepalive := 0, RxBytes := rx, TxBytes := tx, LastHandshakeTime := "" }

/-- A snapshot of `textSig` with the given name and peers and an interface
with nothing optional set. -/
def textConfig (name : String) (peers : List (Peer textSig)) : Config textSig :=
  { Name := name
    Interface := { PrivateKey := "priv", Addresses := [], ListenPort := 0, Mtu := 0, Dns := [] }
    Peers := peers }

/-! ## Predicates used in the statements -/

/-- The call `SetSuspended(true)`. -/
def Event.isSuspend : Event σ → Bool
  | Event.SetSuspended true => true
  | _ => false

/-- The call `SetSuspended(false)`. -/
def Event.isResume : Event σ → Bool
  | Event.SetSuspended false => true
  | _ => false

/-- The log keeps one `SetSuspended(true)` exactly when `hasSuspended` is set
and no `SetSuspended(false)`. -/
def Run.LogOK (r : Run σ) : Prop :=
  r.log.countP Event.isSuspend = (if r.hasSuspended then 1 else 0) ∧
  r.log.countP Event.isResume = 0

/-- The key codec of package `conf` reads back what it prints:
`NewPrivateKeyFromString` applied to `Key.String()` gives the key. -/
def RoundTrip (σ : ConfSig) : Prop :=
  ∀ k : σ.Key, σ.NewPrivateKeyFromString (σ.KeyString k) = some k

/-- Consistency of the map `cv.peers` with what is displayed: the map has one
entry per key; the section a key is mapped to shows that key in its
public-key row, sits in the group box of its own number, was handed out
before `nextId` and is a child of the scroll view; the children are distinct
and handed out before `nextId`. -/
structure Consistent (cv : ConfView σ) : Prop where
  keys_nodup : (cv.peers.map Prod.fst).Nodup
  shown : ∀ k pv, mapGet cv.peers k = some pv →
    (cv.views pv).publicKey.Shows (σ.KeyString k)
  parent : ∀ k pv, mapGet cv.peers k = some pv → (cv.views pv).publicKey.label.parent = pv
  fresh : ∀ k pv, mapGet cv.peers k = some pv → pv < cv.nextId
  child : ∀ k pv, mapGet cv.peers k = some pv → pv ∈ cv.children
  children_nodup : cv.children.Nodup
  children_fresh : ∀ g ∈ cv.children, g < cv.nextId

/-- The public keys of a list of peers, in order. -/
def keysOf (ps : List (Peer σ)) : List σ.Key := ps.map Peer.PublicKey

/-- The last peer of a list that carries key `k`. -/
def lastWithKey (ps : List (Peer σ)) (k : σ.Key) : Option (Peer σ) :=
  (ps.filter (fun p => decide (p.PublicKey = k))).getLast?

/-- The loop over `inverse` removes section `pv` under key `k`: the entry of
`pv` is marked `true` and the text of its public-key row parses to `k`. -/
def Removes (views : Nat → peerView) (es : List (Nat × Bool)) (pv : Nat) (k : σ.Key) : Prop :=
  (pv, true) ∈ es ∧ σ.NewPrivateKeyFromString (views pv).publicKey.text.Text = some k

/-- The group box of a section, reached in the source through the parents of
the label of its public-key row
(`pv.publicKey.label.Parent().AsContainerBase().Parent()`). -/
def groupBoxOf (v : peerView) : Nat := v.publicKey.label.parent

/-- The run and the map `inverse` of `setConfiguration` when the loop over
`c.Peers` has ended. -/
def peersPhase (ord : MapOrders σ) (cv : ConfView σ) (c : Config σ) :
    Run σ × List (Nat × Bool) :=
  let r := applyHeader { cv := cv, hasSuspended := false, log := [] } c
  c.Peers.foldl peerStep (r, buildInverse (ord.peers r.cv.peers))

/-- The run of `setConfiguration` when the loop over `inverse` has ended,
before the deferred function. -/
def removalPhase (ord : MapOrders σ) (cv : ConfView σ) (c : Config σ) : Run σ :=
  (ord.inverse (peersPhase ord cv c).2).foldl removeStep (peersPhase ord cv c).1

/-- A view of `textSig` as constructed on thread 1. -/
def textView : ConfView textSig := NewConfView textSig 1 (fun _ _ _ => 0)

/-- A snapshot named "wg0" with peers "A", "B" (tx 100) and "C". -/
def snapshotABC : Config textSig :=
  textConfig "wg0" [textPeer "A" 0 0, textPeer "B" 0 100, textPeer "C" 0 0]

/-- A snapshot named "wg0" with peers "B", "C" (rx 5) and "D". -/
def snapshotBCD : Config textSig :=
  textConfig "wg0" [textPeer "B" 0 0, textPeer "C" 5 0, textPeer "D" 0 0]

/-- The view `textView` after `setConfiguration(snapshotABC)`. -/
def textViewABC : ConfView textSig :=
  (setConfiguration (MapOrders.stored textSig) textView snapshotABC).1

/-- Fire-and-forget dispatch as the specification words it: a call of
`SetConfiguration` from a thread other than the creating one only posts the
snapshot and returns, so that up to its return nothing has been performed by
the thread that owns the view. -/
def FireAndForget (ord : MapOrders σ) (mem : Nat → Config σ) (cv : ConfView σ)
    (thread : Nat) (c : Nat) : Prop :=
  thread ≠ cv.creatingThread →
    ∀ e ∈ (SetConfiguration ord mem cv thread c).2, e.1 ≠ cv.creatingThread

/-- One call on a field row: `show(text)` or `hide()`. -/
inductive RowOp where
  | show (text : String)
  | hide

/-- A row after one call. -/
def RowOp.run (lt : labelTextLine) : RowOp → labelTextLine
  | RowOp.show text => lt.show text
  | RowOp.hide => lt.hide

/-- A row after a finite sequence of calls, first call first. -/
def runOps (lt : labelTextLine) (ops : List RowOp) : labelTextLine :=
  ops.foldl RowOp.run lt

/-- The field-row invariant: label and value are visible together, and a row
that is not visible has empty content. -/
def RowInvariant (lt : labelTextLine) : Prop :=
  lt.label.visible = lt.text.visible ∧ (lt.text.visible = false → lt.text.Text = "")

/-- A window-message call: `SendMessage` or `CallWindowProc`. -/
def Event.isWindowCall : Event σ → Bool
  | Event.SendMessage _ _ _ => true
  | Event.CallWindowProc _ _ _ => true
  | _ => false

/-- A structural change: creation of a group box or section, a map insertion
or deletion, the detaching or the disposal of a group box. -/
def Event.isStructural : Event σ → Bool
  | Event.newPaddedGroupGrid _ => true
  | Event.newPeerView _ => true
  | Event.insert _ _ => true
  | Event.delete _ => true
  | Event.Remove _ => true
  | Event.Dispose _ => true
  | _ => false

/-- The call `SetTitle` on group box `g`. -/
def Event.isSetTitleOf (g : Nat) : Event σ → Bool
  | Event.SetTitle g' _ => decide (g' = g)
  | _ => false

/-- The map write `cv.peers[k] = pv` for key `k`. -/
def Event.isInsertOf (k : σ.Key) : Event σ → Bool
  | Event.insert k' _ => decide (k' = k)
  | _ => false

/-- Neither a structural change nor a suspension call. -/
def Event.isQuiet (e : Event σ) : Bool :=
  !e.isStructural && !e.isSuspend && !e.isResume

/-- The shape of the log of a run with respect to suspension: while
`hasSuspended` is not set the log is quiet; once it is set the log is a quiet
part, then `SetSuspended(true)`, then a part with a structural change and
without any suspension call. -/
def Batched (hasSuspended : Bool) (log : List (Event σ)) : Prop :=
  if hasSuspended then
    ∃ pre mid, log = pre ++ Event.SetSuspended true :: mid ∧
      (∀ e ∈ pre, e.isQuiet = true) ∧
      (∀ e ∈ mid, e.isSuspend = false ∧ e.isResume = false) ∧
      ∃ e ∈ mid, e.isStructural = true
  else ∀ e ∈ log, e.isQuiet = true

/-- The map/display invariant: `cv.peers` has one entry per key; the section a
key is mapped to shows the string of that key in its visible public-key row;
distinct keys are mapped to distinct sections; every mapped section was
handed out before `nextId`. -/
structure MapDisplay (cv : ConfView σ) : Prop where
  keys_nodup : (cv.peers.map Prod.fst).Nodup
  shown : ∀ k pv, mapGet cv.peers k = some pv →
    (cv.views pv).publicKey.Shows (σ.KeyString k)
  injective : ∀ k k' pv, mapGet cv.peers k = some pv → mapGet cv.peers k' = some pv → k = k'
  fresh : ∀ k pv, mapGet cv.peers k = some pv → pv < cv.nextId

/-- A snapshot named "wg0" in which key "A" occurs twice, last with tx 7. -/
def snapshotABA : Config textSig :=
  textConfig "wg0" [textPeer "A" 0 0, textPeer "B" 1 0, textPeer "A" 0 7]

/-- The key codec reads back no other key than the one printed: where
`NewPrivateKeyFromString` accepts the string of a key, it returns that key.
It may reject the string. -/
def PartialRoundTrip (σ : ConfSig) : Prop :=
  ∀ k k' : σ.Key, σ.NewPrivateKeyFromString (σ.KeyString k) = some k' → k' = k

/-- The collaborator `textSig` with a key parser that accepts only strings of
one character. -/
def strictSig : ConfSig :=
  { textSig with NewPrivateKeyFromString := fun s => if s.length = 1 then some s else none }

/-- A peer of `strictSig` with the given key and nothing else set. -/
def strictPeer (key : String) : Peer strictSig :=
  { PublicKey := key, PresharedKey := "", AllowedIPs := [], Endpoint := "",
    PersistentKeepalive := 0, RxBytes := 0, TxBytes := 0, LastHandshakeTime := "" }

/-- A view of `strictSig` with a section for key "A", which parses, and a
section for key "xx", which does not: the state after the creation branch of
the peer loop has run for the two keys on a new view. -/
def strictView : ConfView strictSig :=
  (peerCreate
    (peerCreate { cv := NewConfView strictSig 1 (fun _ _ _ => 0), hasSuspended := false, log := [] }
      [] (strictPeer "A")).1 [] (strictPeer "xx")).1.cv

/-- A snapshot of `strictSig` named "wg0" without peers. -/
def strictEmpty : Config strictSig :=
  { Name := "wg0"
    Interface := { PrivateKey := "priv", Addresses := [], ListenPort := 0, Mtu := 0, Dns := [] }
    Peers := [] }

/-! ## Construction with toolkit calls that fail -/

/-- Which toolkit calls made during a construction fail (return a non-nil
error). -/
structure Failures where
  NewScrollView : Bool
  NewGroupBox : Bool
  SetLayout : Bool
  NewHSpacerFixed : Bool
  NewTextLabel : Bool
  NewLineEdit : Bool

/-- How a call of `newPaddedGroupGrid` ends. The fields `group` and `err` are
the named results `group` and `err` at the end of the call (`none` for nil);
`disposed` tells whether the deferred function disposed the group box that had
been created; `panics` tells whether the call ends in a panic, in which case
the caller receives neither result. -/
structure PaddedGroup where
  group : Option Nat
  err : Option String
  disposed : Bool
  panics : Bool

/-- The function `newPaddedGroupGrid(parent)` under the failures `f`, `g` being
the number a created group box gets. When `walk.NewGroupBox` fails, the
function returns `nil, err` before the deferred function is registered. When
`SetLayout` or `walk.NewHSpacerFixed` fails, `return nil, err` first sets the
named result `group` to nil and then runs the deferred function, which finds
`err != nil` and calls `group.Dispose()` on the nil group: the call panics and
the box that was created is not disposed. -/
def newPaddedGroupGrid (f : Failures) (g : Nat) : PaddedGroup :=
  if f.NewGroupBox then
    { group := none, err := some "NewGroupBox", disposed := false, panics := false }
  else if f.SetLayout then
    { group := none, err := some "SetLayout", disposed := false, panics := true }
  else if f.NewHSpacerFixed then
    { group := none, err := some "NewHSpacerFixed", disposed := false, panics := true }
  else { group := some g, err := none, disposed := false, panics := false }

/-- The error results `newLabelTextLine` receives from `walk.NewTextLabel` and
`walk.NewLineEdit`; it assigns both to the blank identifier and has no error
result of its own. -/
def newLabelTextLineDiscarded (f : Failures) : List (Option String) :=
  [if f.NewTextLabel then some "NewTextLabel" else none,
   if f.NewLineEdit then some "NewLineEdit" else none]

/-- The error results `NewConfView` receives, in call order: from
`walk.NewScrollView`, from `newPaddedGroupGrid` and, through
`newInterfaceView`, from the five calls of `newLabelTextLine`. Each is
assigned to the blank identifier. When `newPaddedGroupGrid` panics,
`NewConfView` receives nothing from it and runs no further. -/
def NewConfViewDiscarded (f : Failures) : List (Option String) :=
  if (newPaddedGroupGrid f 0).panics then
    [if f.NewScrollView then some "NewScrollView" else none]
  else
    [if f.NewScrollView then some "NewScrollView" else none, (newPaddedGroupGrid f 0).err] ++
      (List.replicate 5 (newLabelTextLineDiscarded f)).flatten

/-- The error `NewConfView` returns under the failures `f` when it returns:
its only return statement is `return cv, nil`. (On a nil widget the toolkit
may end the call by a panic instead, which returns no error either.) -/
def NewConfViewError (f : Failures) : Option String :=
  let _discarded := NewConfViewDiscarded f
  none

/-- The failures in which only `walk.NewGroupBox` fails. -/
def groupBoxFails : Failures :=
  { NewScrollView := false, NewGroupBox := true, SetLayout := false, NewHSpacerFixed := false,
    NewTextLabel := false, NewLineEdit := false }

/-! ## Field rows and section views: what `apply` leaves in each row -/

theorem show_Shows (lt : labelTextLine) (t : String) : (lt.show t).Shows t := rfl

theorem hide_Hidden (lt : labelTextLine) : lt.hide.Hidden := rfl

theorem interfaceView_apply_publicKey (iv : interfaceView) (c : Interface σ) :
    (iv.apply σ c).publicKey = iv.publicKey.show (σ.KeyString (σ.KeyPublic c.PrivateKey)) := by
  unfold interfaceView.apply
  split_ifs <;> rfl

theorem interfaceView_apply_listenPort (iv : interfaceView) (c : Interface σ) :
    (iv.apply σ c).listenPort =
      if c.ListenPort > 0 then iv.listenPort.show (Itoa c.ListenPort) else iv.listenPort.hide := by
  unfold interfaceView.apply
  split_ifs <;> rfl

theorem interfaceView_apply_mtu (iv : interfaceView) (c : Interface σ) :
    (iv.apply σ c).mtu = if c.Mtu > 0 then iv.mtu.show (Itoa c.Mtu) else iv.mtu.hide := by
  unfold interfaceView.apply
  split_ifs <;> rfl

theorem interfaceView_apply_addresses (iv : interfaceView) (c : Interface σ) :
    (iv.apply σ c).addresses =
      if c.Addresses.length > 0 then
        iv.addresses.show (Join (c.Addresses.map σ.IPCidrString) ", ")
      else iv.addresses.hide := by
  unfold interfaceView.apply
  split_ifs <;> rfl

theorem interfaceView_apply_dns (iv : interfaceView) (c : Interface σ) :
    (iv.apply σ c).dns =
      if c.Dns.length > 0 then iv.dns.show (Join (c.Dns.map σ.IPString) ", ")
      else iv.dns.hide := by
  unfold interfaceView.apply
  split_ifs <;> rfl

theorem peerView_apply_publicKey (pv : peerView) (c : Peer σ) :
    (pv.apply σ c).publicKey = pv.publicKey.show (σ.KeyString c.PublicKey) := by
  unfold peerView.apply
  split_ifs <;> rfl

theorem peerView_apply_presharedKey (pv : peerView) (c : Peer σ) :
    (pv.apply σ c).presharedKey =
      if !σ.KeyIsZero c.PresharedKey then pv.presharedKey.show "enabled"
      else pv.presharedKey.hide := by
  unfold peerView.apply
  split_ifs <;> rfl

theorem peerView_apply_allowedIPs (pv : peerView) (c : Peer σ) :
    (pv.apply σ c).allowedIPs =
      if c.AllowedIPs.length > 0 then
        pv.allowedIPs.show (Join (c.AllowedIPs.map σ.IPCidrString) ", ")
      else pv.allowedIPs.hide := by
  unfold peerView.apply
  split_ifs <;> rfl

theorem peerView_apply_endpoint (pv : peerView) (c : Peer σ) :
    (pv.apply σ c).endpoint =
      if !σ.EndpointIsEmpty c.Endpoint then pv.endpoint.show (σ.EndpointString c.Endpoint)
      else pv.endpoint.hide := by
  unfold peerView.apply
  split_ifs <;> rfl

theorem peerView_apply_persistentKeepalive (pv : peerView) (c : Peer σ) :
    (pv.apply σ c).persistentKeepalive =
      if c.PersistentKeepalive > 0 then
        pv.persistentKeepalive.show (Itoa c.PersistentKeepalive)
      else pv.persistentKeepalive.hide := by
  unfold peerView.apply
  split_ifs <;> rfl

theorem peerView_apply_latestHandshake (pv : peerView) (c : Peer σ) :
    (pv.apply σ c).latestHandshake =
      if !σ.HandshakeTimeIsEmpty c.LastHandshakeTime then
        pv.latestHandshake.show (σ.HandshakeTimeString c.LastHandshakeTime)
      else pv.latestHandshake.hide := by
  unfold peerView.apply
  split_ifs <;> rfl

theorem peerView_apply_transfer (pv : peerView) (c : Peer σ) :
    (pv.apply σ c).transfer =
      if c.RxBytes > 0 ∨ c.TxBytes > 0 then
        pv.transfer.show
          (σ.BytesString c.RxBytes ++ " received, " ++ σ.BytesString c.TxBytes ++ " sent")
      else pv.transfer.hide := by
  unfold peerView.apply
  split_ifs <;> rfl

/-- The display of a row after `show` or `hide` does not depend on the row
it is applied to. -/
theorem show_display (lt lt' : labelTextLine) (t : String) :
    (lt.show t).display = (lt'.show t).display := rfl

theorem hide_display (lt lt' : labelTextLine) : lt.hide.display = lt'.hide.display := rfl

/-- What a peer section displays after `apply` is fixed by the peer record. -/
theorem peerView_apply_display (pv pv' : peerView) (c : Peer σ) :
    (pv.apply σ c).display = (pv'.apply σ c).display := by
  simp only [peerView.display, peerView_apply_publicKey, peerView_apply_presharedKey,
    peerView_apply_allowedIPs, peerView_apply_endpoint, peerView_apply_persistentKeepalive,
    peerView_apply_latestHandshake, peerView_apply_transfer]
  split_ifs <;> rfl

/-- What the interface section displays after `apply` is fixed by the record. -/
theorem interfaceView_apply_display (iv iv' : interfaceView) (c : Interface σ) :
    (iv.apply σ c).display = (iv'.apply σ c).display := by
  simp only [interfaceView.display, interfaceView_apply_publicKey,
    interfaceView_apply_listenPort, interfaceView_apply_mtu, interfaceView_apply_addresses,
    interfaceView_apply_dns]
  split_ifs <;> rfl

/-- `apply` leaves every label in the group box it was created in. -/
theorem peerView_apply_parent (pv : peerView) (c : Peer σ) :
    (pv.apply σ c).publicKey.label.parent = pv.publicKey.label.parent := by
  rw [peerView_apply_publicKey]
  rfl

/-- C6: after `interfaceView.apply(c)` the public-key row shows the string of
the public half of the private key; the listen-port row is shown with the
decimal port when the port is positive and hidden with empty content
otherwise; the same for the MTU; the addresses row is shown with the address
strings joined by ", " in list order when the list is non-empty and hidden
with empty content otherwise; the same for the DNS servers. With port 0, MTU
0 and no addresses or DNS servers only the public-key row is visible. -/
theorem interfaceView_apply_rows (σ : ConfSig) (iv : interfaceView) (c : Interface σ) :
    (iv.apply σ c).publicKey.Shows (σ.KeyString (σ.KeyPublic c.PrivateKey)) ∧
    (if 0 < c.ListenPort then (iv.apply σ c).listenPort.Shows (Itoa c.ListenPort)
      else (iv.apply σ c).listenPort.Hidden) ∧
    (if 0 < c.Mtu then (iv.apply σ c).mtu.Shows (Itoa c.Mtu)
      else (iv.apply σ c).mtu.Hidden) ∧
    (if 0 < c.Addresses.length then
        (iv.apply σ c).addresses.Shows (Join (c.Addresses.map σ.IPCidrString) ", ")
      else (iv.apply σ c).addresses.Hidden) ∧
    (if 0 < c.Dns.length then (iv.apply σ c).dns.Shows (Join (c.Dns.map σ.IPString) ", ")
      else (iv.apply σ c).dns.Hidden) ∧
    (c.ListenPort = 0 ∧ c.Mtu = 0 ∧ c.Addresses = [] ∧ c.Dns = [] →
      (iv.apply σ c).display =
        [(true, true, σ.KeyString (σ.KeyPublic c.PrivateKey)), (false, false, ""),
         (false, false, ""), (false, false, ""), (false, false, "")]) := by
  refine ⟨?_, ?_, ?_, ?_, ?_, ?_⟩
  · rw [interfaceView_apply_publicKey]; exact show_Shows _ _
  · rw [interfaceView_apply_listenPort]
    split_ifs
    · exact show_Shows _ _
    · exact hide_Hidden _
  · rw [interfaceView_apply_mtu]
    split_ifs
    · exact show_Shows _ _
    · exact hide_Hidden _
  · rw [interfaceView_apply_addresses]
    split_ifs
    · exact show_Shows _ _
    · exact hide_Hidden _
  · rw [interfaceView_apply_dns]
    split_ifs
    · exact show_Shows _ _
    · exact hide_Hidden _
  · rintro ⟨hp, hm, ha, hd⟩
    simp only [interfaceView.display, interfaceView_apply_publicKey,
      interfaceView_apply_listenPort, interfaceView_apply_mtu, interfaceView_apply_addresses,
      interfaceView_apply_dns, hp, hm, ha, hd]
    rfl

/-- C6, worked example: an interface with port 51820, MTU 0, two addresses and
no DNS server. -/
theorem interfaceView_apply_rows_example :
    ((newInterfaceView 0).apply textSig
      { PrivateKey := "k", Addresses := ["10.0.0.1/24", "fd00::1/64"], ListenPort := 51820,
        Mtu := 0, Dns := [] }).display =
      [(true, true, "pub:k"), (true, true, "51820"), (false, false, ""),
       (true, true, "10.0.0.1/24, fd00::1/64"), (false, false, "")] := by
  decide

/-- C7: after `peerView.apply(p)` the public-key row shows the key string;
the allowed-IPs row is shown with the strings joined by ", " when the list is
non-empty; the endpoint row is shown when the endpoint is not empty; the
keepalive row is shown with the decimal value when it is positive; the
handshake row is shown when the time is not empty; the transfer row is shown
with `rx ++ " received, " ++ tx ++ " sent"` when a counter is positive; a row
that is not shown is hidden with empty content. With both counters 0 the
transfer row is hidden, with rx 0 and tx 100 it is shown. -/
theorem peerView_apply_rows (σ : ConfSig) (pv : peerView) (p : Peer σ) :
    (pv.apply σ p).publicKey.Shows (σ.KeyString p.PublicKey) ∧
    (if 0 < p.AllowedIPs.length then
        (pv.apply σ p).allowedIPs.Shows (Join (p.AllowedIPs.map σ.IPCidrString) ", ")
      else (pv.apply σ p).allowedIPs.Hidden) ∧
    (if σ.EndpointIsEmpty p.Endpoint = false then
        (pv.apply σ p).endpoint.Shows (σ.EndpointString p.Endpoint)
      else (pv.apply σ p).endpoint.Hidden) ∧
    (if 0 < p.PersistentKeepalive then
        (pv.apply σ p).persistentKeepalive.Shows (Itoa p.PersistentKeepalive)
      else (pv.apply σ p).persistentKeepalive.Hidden) ∧
    (if σ.HandshakeTimeIsEmpty p.LastHandshakeTime = false then
        (pv.apply σ p).latestHandshake.Shows (σ.HandshakeTimeString p.LastHandshakeTime)
      else (pv.apply σ p).latestHandshake.Hidden) ∧
    (if 0 < p.RxBytes ∨ 0 < p.TxBytes then
        (pv.apply σ p).transfer.Shows
          (σ.BytesString p.RxBytes ++ " received, " ++ σ.BytesString p.TxBytes ++ " sent")
      else (pv.apply σ p).transfer.Hidden) ∧
    (p.RxBytes = 0 ∧ p.TxBytes = 0 → (pv.apply σ p).transfer.Hidden) ∧
    (p.RxBytes = 0 ∧ p.TxBytes = 100 →
      (pv.apply σ p).transfer.Shows
        (σ.BytesString 0 ++ " received, " ++ σ.BytesString 100 ++ " sent")) := by
  refine ⟨?_, ?_, ?_, ?_, ?_, ?_, ?_, ?_⟩
  · rw [peerView_apply_publicKey]; exact show_Shows _ _
  · rw [peerView_apply_allowedIPs]
    split_ifs
    · exact show_Shows _ _
    · exact hide_Hidden _
  · rw [peerView_apply_endpoint]
    cases h : σ.EndpointIsEmpty p.Endpoint
    · exact show_Shows _ _
    · exact hide_Hidden _
  · rw [peerView_apply_persistentKeepalive]
    split_ifs
    · exact show_Shows _ _
    · exact hide_Hidden _
  · rw [peerView_apply_latestHandshake]
    cases h : σ.HandshakeTimeIsEmpty p.LastHandshakeTime
    · exact show_Shows _ _
    · exact hide_Hidden _
  · rw [peerView_apply_transfer]
    split_ifs
    · exact show_Shows _ _
    · exact hide_Hidden _
  · rintro ⟨hr, ht⟩
    rw [peerView_apply_transfer, hr, ht]
    exact hide_Hidden _
  · rintro ⟨hr, ht⟩
    rw [peerView_apply_transfer, hr, ht]
    exact show_Shows _ _

/-- C7, worked example: a peer with rx 0 and tx 100 and nothing else set. -/
theorem peerView_apply_rows_example :
    ((newPeerView 1).apply textSig (textPeer "A" 0 100)).display =
      [(true, true, "A"), (false, false, ""), (false, false, ""), (false, false, ""),
       (false, false, ""), (false, false, ""), (true, true, "0 B received, 100 B sent")] := by
  decide

/-- C8: two peer records that differ only in the value of a non-zero
preshared key leave a peer section in the same state, and for every record the
preshared-key row shows the literal "enabled" when the key is not zero and is
hidden with empty content when it is zero. -/
theorem presharedKey_not_rendered (σ : ConfSig) (pv : peerView) (p q : Peer σ)
    (hp : σ.KeyIsZero p.PresharedKey = false) (hq : σ.KeyIsZero q.PresharedKey = false)
    (hrest : q = { p with PresharedKey := q.PresharedKey }) :
    pv.apply σ p = pv.apply σ q ∧
    (∀ r : Peer σ,
      if σ.KeyIsZero r.PresharedKey = false then (pv.apply σ r).presharedKey.Shows "enabled"
      else (pv.apply σ r).presharedKey.Hidden) := by
  constructor
  · rw [hrest]
    unfold peerView.apply
    simp only [hp, hq]
  · intro r
    rw [peerView_apply_presharedKey]
    cases h : σ.KeyIsZero r.PresharedKey
    · exact show_Shows _ _
    · exact hide_Hidden _

/-- C8, witness: two peers of `textSig` with preshared keys "s1" and "s2". -/
theorem presharedKey_not_rendered_witness :
    (newPeerView 1).apply textSig { textPeer "A" 3 4 with PresharedKey := "s1" } =
      (newPeerView 1).apply textSig { textPeer "A" 3 4 with PresharedKey := "s2" } ∧
    (∀ r : Peer textSig,
      if textSig.KeyIsZero r.PresharedKey = false then
        ((newPeerView 1).apply textSig r).presharedKey.Shows "enabled"
      else ((newPeerView 1).apply textSig r).presharedKey.Hidden) :=
  presharedKey_not_rendered textSig (newPeerView 1)
    { textPeer "A" 3 4 with PresharedKey := "s1" } { textPeer "A" 3 4 with PresharedKey := "s2" }
    (by decide) (by decide) rfl


/-! ## The suspension closure -/

theorem suspend_cv (r : Run σ) :
    r.suspend.cv = { r.cv with suspended := r.suspend.cv.suspended } := by
  unfold Run.suspend
  split_ifs <;> rfl

@[simp] theorem suspend_peers (r : Run σ) : r.suspend.cv.peers = r.cv.peers := by
  rw [suspend_cv]

@[simp] theorem suspend_views (r : Run σ) : r.suspend.cv.views = r.cv.views := by
  rw [suspend_cv]

@[simp] theorem suspend_nextId (r : Run σ) : r.suspend.cv.nextId = r.cv.nextId := by
  rw [suspend_cv]

@[simp] theorem suspend_children (r : Run σ) : r.suspend.cv.children = r.cv.children := by
  rw [suspend_cv]

@[simp] theorem suspend_disposed (r : Run σ) : r.suspend.cv.disposed = r.cv.disposed := by
  rw [suspend_cv]

@[simp] theorem suspend_name (r : Run σ) : r.suspend.cv.name = r.cv.name := by
  rw [suspend_cv]

@[simp] theorem suspend_interfaze (r : Run σ) : r.suspend.cv.interfaze = r.cv.interfaze := by
  rw [suspend_cv]

@[simp] theorem suspend_hasSuspended (r : Run σ) : r.suspend.hasSuspended = true := by
  unfold Run.suspend
  split_ifs with h
  · rfl
  · simpa using h

theorem suspend_LogOK (r : Run σ) (h : r.LogOK) : r.suspend.LogOK := by
  unfold Run.suspend
  cases hs : r.hasSuspended
  · obtain ⟨h1, h2⟩ := h
    simp only [hs, Bool.false_eq_true, if_false] at h1
    simp [Run.LogOK, List.countP_append, h1, h2, Event.isSuspend, Event.isResume]
  · simpa [hs] using h

/-! ## The log of one call: suspension events -/

theorem peerStep_LogOK (st : Run σ × List (Nat × Bool)) (p : Peer σ) (h : st.1.LogOK) :
    (peerStep st p).1.LogOK := by
  unfold peerStep
  split
  · exact h
  · have hs := suspend_LogOK st.1 h
    obtain ⟨h1, h2⟩ := hs
    simp only [suspend_hasSuspended, if_true] at h1
    simp [peerCreate, Run.LogOK, List.countP_append, h1, h2, Event.isSuspend, Event.isResume]

theorem peerStep_hasSuspended (st : Run σ × List (Nat × Bool)) (p : Peer σ)
    (h : st.1.hasSuspended = true) : (peerStep st p).1.hasSuspended = true := by
  unfold peerStep
  split
  · exact h
  · simp [peerCreate]

theorem peerLoop_LogOK (ps : List (Peer σ)) (st : Run σ × List (Nat × Bool))
    (h : st.1.LogOK) : (ps.foldl peerStep st).1.LogOK := by
  induction ps generalizing st with
  | nil => exact h
  | cons p ps ih => exact ih _ (peerStep_LogOK st p h)

theorem peerLoop_hasSuspended (ps : List (Peer σ)) (st : Run σ × List (Nat × Bool))
    (h : st.1.hasSuspended = true) : (ps.foldl peerStep st).1.hasSuspended = true := by
  induction ps generalizing st with
  | nil => exact h
  | cons p ps ih => exact ih _ (peerStep_hasSuspended st p h)

theorem removeStep_LogOK (r : Run σ) (e : Nat × Bool) (h : r.LogOK) :
    (removeStep r e).LogOK := by
  unfold removeStep
  split_ifs
  · exact h
  · split
    · exact h
    · have hs := suspend_LogOK r h
      obtain ⟨h1, h2⟩ := hs
      simp only [suspend_hasSuspended, if_true] at h1
      simp [removeSection, Run.LogOK, List.countP_append, h1, h2, Event.isSuspend,
        Event.isResume]

theorem removeStep_hasSuspended (r : Run σ) (e : Nat × Bool) (h : r.hasSuspended = true) :
    (removeStep r e).hasSuspended = true := by
  unfold removeStep
  split_ifs
  · exact h
  · split
    · exact h
    · simp [removeSection]

theorem removeLoop_LogOK (es : List (Nat × Bool)) (r : Run σ) (h : r.LogOK) :
    (es.foldl removeStep r).LogOK := by
  induction es generalizing r with
  | nil => exact h
  | cons e es ih => exact ih _ (removeStep_LogOK r e h)

theorem removeLoop_hasSuspended (es : List (Nat × Bool)) (r : Run σ)
    (h : r.hasSuspended = true) : (es.foldl removeStep r).hasSuspended = true := by
  induction es generalizing r with
  | nil => exact h
  | cons e es ih => exact ih _ (removeStep_hasSuspended r e h)

theorem applyHeader_LogOK (cv : ConfView σ) (c : Config σ) :
    (applyHeader { cv := cv, hasSuspended := false, log := [] } c).LogOK := by
  simp only [applyHeader]
  split_ifs <;> simp [Run.LogOK, Event.isSuspend, Event.isResume]

/-- Counting the suspension calls in the log of a run that ends with the
deferred function. -/
theorem resume_counts (r : Run σ) (h : r.LogOK) :
    r.resume.log.countP Event.isSuspend ≤ 1 ∧
    (r.resume.log.countP Event.isSuspend = 1 →
      r.resume.log.countP Event.isResume = 1 ∧
      r.resume.log.getLast? = some (Event.SetSuspended false)) ∧
    (r.resume.log.countP Event.isSuspend = 0 → r.resume.log.countP Event.isResume = 0) ∧
    (r.resume.log.countP Event.isSuspend = if r.hasSuspended then 1 else 0) := by
  obtain ⟨h1, h2⟩ := h
  unfold Run.resume
  cases hs : r.hasSuspended
  · simp only [hs, Bool.false_eq_true, if_false] at h1
    simp [h1, h2]
  · simp only [hs, if_true] at h1
    simp [List.countP_append, h1, h2, Event.isSuspend, Event.isResume]


/-! ## Go maps: reads after writes -/

section GoMapLemmas

variable {K V : Type} [DecidableEq K]

theorem mapGet_append (m n : List (K × V)) (k : K) :
    mapGet (m ++ n) k = (mapGet m k).or (mapGet n k) := by
  induction m with
  | nil => simp [mapGet]
  | cons e m ih =>
    obtain ⟨a, v⟩ := e
    by_cases h : a = k
    · simp [mapGet, h]
    · simp [mapGet, h, ih]

theorem mapGet_mapDelete (m : List (K × V)) (k k' : K) :
    mapGet (mapDelete m k) k' = if k = k' then none else mapGet m k' := by
  induction m with
  | nil => simp [mapGet, mapDelete]
  | cons e m ih =>
    obtain ⟨a, v⟩ := e
    unfold mapDelete at ih ⊢
    by_cases h : a = k
    · subst h
      by_cases h' : a = k'
      · simp [h'] at ih ⊢
        simpa [h'] using ih
      · simp [List.filter_cons, mapGet, h'] at ih ⊢
        simpa [h'] using ih
    · by_cases h' : k = k'
      · subst h'
        simp [List.filter_cons, mapGet, h] at ih ⊢
        simpa using ih
      · simp only [List.filter_cons, h, ne_eq, not_false_eq_true, decide_True, if_true, mapGet,
          h', if_false] at ih ⊢
        rw [ih]

theorem mapGet_mapSet (m : List (K × V)) (k k' : K) (v : V) :
    mapGet (mapSet m k v) k' = if k = k' then some v else mapGet m k' := by
  unfold mapSet
  rw [mapGet_append, mapGet_mapDelete]
  by_cases h : k = k'
  · simp [h, mapGet]
  · simp [h, mapGet]

theorem mapGet_mem (m : List (K × V)) (k : K) (v : V) (h : mapGet m k = some v) :
    (k, v) ∈ m := by
  induction m with
  | nil => simp [mapGet] at h
  | cons e m ih =>
    obtain ⟨a, w⟩ := e
    by_cases ha : a = k
    · simp [mapGet, ha] at h
      simp [ha, h]
    · simp only [mapGet, ha, if_false] at h
      exact List.mem_cons_of_mem _ (ih h)

theorem mapGet_none_iff (m : List (K × V)) (k : K) :
    mapGet m k = none ↔ k ∉ m.map Prod.fst := by
  induction m with
  | nil => simp [mapGet]
  | cons e m ih =>
    obtain ⟨a, w⟩ := e
    by_cases ha : a = k
    · simp [mapGet, ha]
    · simp only [mapGet, ha, if_false, ih, List.map_cons, List.mem_cons]
      constructor
      · rintro h (h' | h')
        · exact ha h'.symm
        · exact h h'
      · intro h h'
        exact h (Or.inr h')

theorem mem_mapGet (m : List (K × V)) (hm : (m.map Prod.fst).Nodup) (k : K) (v : V)
    (h : (k, v) ∈ m) : mapGet m k = some v := by
  induction m with
  | nil => simp at h
  | cons e m ih =>
    obtain ⟨a, w⟩ := e
    simp only [List.map_cons, List.nodup_cons] at hm
    rcases List.mem_cons.1 h with h | h
    · simp only [Prod.mk.injEq] at h
      simp [mapGet, h.1, h.2]
    · have hne : a ≠ k := by
        rintro rfl
        exact hm.1 (List.mem_map.2 ⟨(a, v), h, rfl⟩)
      simp only [mapGet, hne, if_false]
      exact ih hm.2 h

theorem mapDelete_nodup (m : List (K × V)) (k : K) (hm : (m.map Prod.fst).Nodup) :
    ((mapDelete m k).map Prod.fst).Nodup := by
  unfold mapDelete
  exact hm.sublist ((List.filter_sublist m).map Prod.fst)

theorem mapSet_nodup (m : List (K × V)) (k : K) (v : V) (hm : (m.map Prod.fst).Nodup) :
    ((mapSet m k v).map Prod.fst).Nodup := by
  unfold mapSet
  rw [List.map_append, List.nodup_append]
  refine ⟨mapDelete_nodup m k hm, by simp, ?_⟩
  intro a ha hb
  simp only [List.map_cons, List.map_nil, List.mem_singleton] at hb
  subst hb
  have := (mapGet_none_iff (mapDelete m a) a).1 (by rw [mapGet_mapDelete]; simp)
  exact this ha

end GoMapLemmas

/-! ## The map `inverse` as first built -/

theorem buildInverse_fold (es : List (σ.Key × Nat)) (inv : List (Nat × Bool)) (pv : Nat) :
    mapGet (es.foldl (fun inverse e => mapSet inverse e.2 true) inv) pv =
      if pv ∈ es.map Prod.snd then some true else mapGet inv pv := by
  induction es generalizing inv with
  | nil => simp
  | cons e es ih =>
    rw [List.foldl_cons, ih, mapGet_mapSet]
    by_cases h : pv ∈ es.map Prod.snd
    · simp [h]
    · by_cases h' : e.2 = pv
      · simp [h']
      · have h'' : ¬ pv = e.2 := fun x => h' x.symm
        simp [h, h', h'']

theorem buildInverse_fold_nodup (es : List (σ.Key × Nat)) (inv : List (Nat × Bool))
    (h : (inv.map Prod.fst).Nodup) :
    ((es.foldl (fun inverse e => mapSet inverse e.2 true) inv).map Prod.fst).Nodup := by
  induction es generalizing inv with
  | nil => exact h
  | cons e es ih => exact ih _ (mapSet_nodup inv e.2 true h)

theorem mapGet_buildInverse (es : List (σ.Key × Nat)) (pv : Nat) :
    mapGet (buildInverse es) pv = if pv ∈ es.map Prod.snd then some true else none := by
  unfold buildInverse
  rw [buildInverse_fold]
  rfl

theorem buildInverse_nodup (es : List (σ.Key × Nat)) :
    ((buildInverse es).map Prod.fst).Nodup :=
  buildInverse_fold_nodup es [] (by simp)

/-! ## One step of the loop over the peers -/

theorem peerStep_found (st : Run σ × List (Nat × Bool)) (p : Peer σ) (pv : Nat)
    (h : mapGet st.1.cv.peers p.PublicKey = some pv) :
    peerStep st p = peerUpdate st.1 st.2 pv p := by
  unfold peerStep
  rw [h]

theorem peerStep_new (st : Run σ × List (Nat × Bool)) (p : Peer σ)
    (h : mapGet st.1.cv.peers p.PublicKey = none) :
    peerStep st p = peerCreate st.1 st.2 p := by
  unfold peerStep
  rw [h]

@[simp] theorem peerUpdate_peers (r : Run σ) (inv : List (Nat × Bool)) (pv : Nat) (p : Peer σ) :
    (peerUpdate r inv pv p).1.cv.peers = r.cv.peers := rfl

@[simp] theorem peerUpdate_nextId (r : Run σ) (inv : List (Nat × Bool)) (pv : Nat) (p : Peer σ) :
    (peerUpdate r inv pv p).1.cv.nextId = r.cv.nextId := rfl

@[simp] theorem peerUpdate_children (r : Run σ) (inv : List (Nat × Bool)) (pv : Nat)
    (p : Peer σ) : (peerUpdate r inv pv p).1.cv.children = r.cv.children := rfl

@[simp] theorem peerUpdate_log (r : Run σ) (inv : List (Nat × Bool)) (pv : Nat) (p : Peer σ) :
    (peerUpdate r inv pv p).1.log = r.log := rfl

@[simp] theorem peerUpdate_views (r : Run σ) (inv : List (Nat × Bool)) (pv : Nat) (p : Peer σ)
    (q : Nat) :
    (peerUpdate r inv pv p).1.cv.views q =
      if q = pv then (r.cv.views pv).apply σ p else r.cv.views q := rfl

@[simp] theorem peerUpdate_inverse (r : Run σ) (inv : List (Nat × Bool)) (pv : Nat)
    (p : Peer σ) : (peerUpdate r inv pv p).2 = mapSet inv pv false := rfl

@[simp] theorem peerCreate_peers (r : Run σ) (inv : List (Nat × Bool)) (p : Peer σ) :
    (peerCreate r inv p).1.cv.peers = mapSet r.cv.peers p.PublicKey r.cv.nextId := by
  simp [peerCreate]

@[simp] theorem peerCreate_nextId (r : Run σ) (inv : List (Nat × Bool)) (p : Peer σ) :
    (peerCreate r inv p).1.cv.nextId = r.cv.nextId + 1 := by
  simp [peerCreate]

@[simp] theorem peerCreate_children (r : Run σ) (inv : List (Nat × Bool)) (p : Peer σ) :
    (peerCreate r inv p).1.cv.children = r.cv.children ++ [r.cv.nextId] := by
  simp [peerCreate]

@[simp] theorem peerCreate_views (r : Run σ) (inv : List (Nat × Bool)) (p : Peer σ) (q : Nat) :
    (peerCreate r inv p).1.cv.views q =
      if q = r.cv.nextId then (newPeerView r.cv.nextId).apply σ p else r.cv.views q := by
  simp only [peerCreate, setView, suspend_nextId, suspend_views, if_true]
  split_ifs <;> rfl

@[simp] theorem peerCreate_inverse (r : Run σ) (inv : List (Nat × Bool)) (p : Peer σ) :
    (peerCreate r inv p).2 = inv := rfl

@[simp] theorem peerCreate_hasSuspended (r : Run σ) (inv : List (Nat × Bool)) (p : Peer σ) :
    (peerCreate r inv p).1.hasSuspended = true := by
  simp [peerCreate]

theorem peerCreate_log (r : Run σ) (inv : List (Nat × Bool)) (p : Peer σ) :
    (peerCreate r inv p).1.log =
      r.suspend.log ++
        [Event.newPaddedGroupGrid r.cv.nextId, Event.SetTitle r.cv.nextId "Peer",
         Event.newPeerView r.cv.nextId, Event.insert p.PublicKey r.cv.nextId] := by
  simp [peerCreate]

theorem suspend_log (r : Run σ) :
    r.suspend.log = if r.hasSuspended then r.log else r.log ++ [Event.SetSuspended true] := by
  unfold Run.suspend
  cases r.hasSuspended <;> rfl

/-! ## The loop over the peers: the map `cv.peers` -/

theorem peerStep_get_some (st : Run σ × List (Nat × Bool)) (p : Peer σ) (k : σ.Key) (pv : Nat)
    (h : mapGet st.1.cv.peers k = some pv) : mapGet (peerStep st p).1.cv.peers k = some pv := by
  cases hp : mapGet st.1.cv.peers p.PublicKey with
  | some q => rw [peerStep_found st p q hp]; exact h
  | none =>
    rw [peerStep_new st p hp, peerCreate_peers, mapGet_mapSet]
    have : p.PublicKey ≠ k := by
      rintro rfl
      rw [hp] at h
      exact Option.noConfusion h
    simp [this, h]

theorem peerLoop_get_some (ps : List (Peer σ)) (st : Run σ × List (Nat × Bool)) (k : σ.Key)
    (pv : Nat) (h : mapGet st.1.cv.peers k = some pv) :
    mapGet (ps.foldl peerStep st).1.cv.peers k = some pv := by
  induction ps generalizing st with
  | nil => exact h
  | cons p ps ih => exact ih _ (peerStep_get_some st p k pv h)

theorem peerStep_nextId_le (st : Run σ × List (Nat × Bool)) (p : Peer σ) :
    st.1.cv.nextId ≤ (peerStep st p).1.cv.nextId := by
  cases hp : mapGet st.1.cv.peers p.PublicKey with
  | some q => rw [peerStep_found st p q hp]; exact le_refl _
  | none => rw [peerStep_new st p hp, peerCreate_nextId]; exact Nat.le_succ _

theorem peerLoop_nextId_le (ps : List (Peer σ)) (st : Run σ × List (Nat × Bool)) :
    st.1.cv.nextId ≤ (ps.foldl peerStep st).1.cv.nextId := by
  induction ps generalizing st with
  | nil => exact le_refl _
  | cons p ps ih => exact le_trans (peerStep_nextId_le st p) (ih _)

theorem peerStep_get_key (st : Run σ × List (Nat × Bool)) (p : Peer σ) :
    ∃ pv, mapGet (peerStep st p).1.cv.peers p.PublicKey = some pv := by
  cases hp : mapGet st.1.cv.peers p.PublicKey with
  | some q => exact ⟨q, by rw [peerStep_found st p q hp]; exact hp⟩
  | none => exact ⟨st.1.cv.nextId, by rw [peerStep_new st p hp, peerCreate_peers, mapGet_mapSet]; simp⟩

/-- Every key of the list is mapped after the loop. -/
theorem peerLoop_get_key (ps : List (Peer σ)) (st : Run σ × List (Nat × Bool)) (k : σ.Key)
    (hk : k ∈ keysOf ps) : ∃ pv, mapGet (ps.foldl peerStep st).1.cv.peers k = some pv := by
  induction ps generalizing st with
  | nil => simp [keysOf] at hk
  | cons p ps ih =>
    simp only [keysOf, List.map_cons, List.mem_cons] at hk
    rcases hk with rfl | hk
    · obtain ⟨pv, hpv⟩ := peerStep_get_key st p
      exact ⟨pv, peerLoop_get_some ps _ _ pv hpv⟩
    · exact ih _ hk

/-- A key mapped after the loop was mapped before to the same section, or is a
key of the list that was not mapped and got a section handed out in the loop. -/
theorem peerLoop_get_cases (ps : List (Peer σ)) (st : Run σ × List (Nat × Bool)) (k : σ.Key)
    (pv : Nat) (h : mapGet (ps.foldl peerStep st).1.cv.peers k = some pv) :
    mapGet st.1.cv.peers k = some pv ∨
    (mapGet st.1.cv.peers k = none ∧ k ∈ keysOf ps ∧ st.1.cv.nextId ≤ pv ∧
      pv < (ps.foldl peerStep st).1.cv.nextId) := by
  induction ps generalizing st with
  | nil => exact Or.inl h
  | cons p ps ih =>
    rw [List.foldl_cons] at h ⊢
    have hle := peerStep_nextId_le st p
    have hle' := peerLoop_nextId_le ps (peerStep st p)
    rcases ih _ h with h1 | ⟨h1, h2, h3, h4⟩
    · cases hp : mapGet st.1.cv.peers p.PublicKey with
      | some q =>
        rw [peerStep_found st p q hp] at h1
        exact Or.inl h1
      | none =>
        rw [peerStep_new st p hp, peerCreate_peers, mapGet_mapSet] at h1
        by_cases hk : p.PublicKey = k
        · simp only [hk, if_true, Option.some.injEq] at h1
          right
          refine ⟨hk ▸ hp, by simp [keysOf, hk], by omega, ?_⟩
          have : (peerStep st p).1.cv.nextId = st.1.cv.nextId + 1 := by
            rw [peerStep_new st p hp, peerCreate_nextId]
          omega
        · simp only [hk, if_false] at h1
          exact Or.inl h1
    · right
      refine ⟨?_, by simp [keysOf] at h2 ⊢; exact Or.inr h2, by omega, h4⟩
      cases hk : mapGet st.1.cv.peers k with
      | none => rfl
      | some q =>
        rw [peerStep_get_some st p k q hk] at h1
        exact Option.noConfusion h1

/-! ## The loop over the peers: sections that are not touched -/

/-- A section that no key of the list is mapped to keeps its state. -/
theorem peerLoop_views_frame (ps : List (Peer σ)) (st : Run σ × List (Nat × Bool)) (pv : Nat)
    (hfresh : pv < st.1.cv.nextId)
    (hno : ∀ k ∈ keysOf ps, mapGet st.1.cv.peers k ≠ some pv) :
    (ps.foldl peerStep st).1.cv.views pv = st.1.cv.views pv := by
  induction ps generalizing st with
  | nil => rfl
  | cons p ps ih =>
    rw [List.foldl_cons]
    have hp0 : mapGet st.1.cv.peers p.PublicKey ≠ some pv := hno _ (by simp [keysOf])
    cases hp : mapGet st.1.cv.peers p.PublicKey with
    | some q =>
      have hq : pv ≠ q := by
        rintro rfl
        exact hp0 hp
      rw [ih (peerStep st p)]
      · rw [peerStep_found st p q hp, peerUpdate_views]
        simp [hq]
      · rw [peerStep_found st p q hp]; exact hfresh
      · intro k hk
        rw [peerStep_found st p q hp]
        exact hno k (by simp [keysOf] at hk ⊢; exact Or.inr hk)
    | none =>
      have hq : pv ≠ st.1.cv.nextId := Nat.ne_of_lt hfresh
      rw [ih (peerStep st p)]
      · rw [peerStep_new st p hp, peerCreate_views]
        simp [hq]
      · rw [peerStep_new st p hp, peerCreate_nextId]; omega
      · intro k hk
        rw [peerStep_new st p hp, peerCreate_peers, mapGet_mapSet]
        by_cases hkp : p.PublicKey = k
        · simp only [hkp, if_true, ne_eq, Option.some.injEq]
          exact fun h => hq h.symm
        · simp only [hkp, if_false]
          exact hno k (by simp [keysOf] at hk ⊢; exact Or.inr hk)

/-! ## The loop over the peers: the map `inverse` -/

theorem peerStep_inverse_nodup (st : Run σ × List (Nat × Bool)) (p : Peer σ)
    (h : (st.2.map Prod.fst).Nodup) : ((peerStep st p).2.map Prod.fst).Nodup := by
  cases hp : mapGet st.1.cv.peers p.PublicKey with
  | some q => rw [peerStep_found st p q hp]; exact mapSet_nodup _ _ _ h
  | none => rw [peerStep_new st p hp]; exact h

theorem peerLoop_inverse_nodup (ps : List (Peer σ)) (st : Run σ × List (Nat × Bool))
    (h : (st.2.map Prod.fst).Nodup) : ((ps.foldl peerStep st).2.map Prod.fst).Nodup := by
  induction ps generalizing st with
  | nil => exact h
  | cons p ps ih => exact ih _ (peerStep_inverse_nodup st p h)

/-- After the loop a section is still marked for removal exactly when it was
marked before and no key of the list is mapped to it. -/
theorem peerLoop_inverse_true (ps : List (Peer σ)) (st : Run σ × List (Nat × Bool)) (pv : Nat)
    (hfresh : ∀ q, mapGet st.2 q = some true → q < st.1.cv.nextId) :
    mapGet (ps.foldl peerStep st).2 pv = some true ↔
      mapGet st.2 pv = some true ∧ ∀ k ∈ keysOf ps, mapGet st.1.cv.peers k ≠ some pv := by
  induction ps generalizing st with
  | nil => simp [keysOf]
  | cons p ps ih =>
    rw [List.foldl_cons]
    cases hp : mapGet st.1.cv.peers p.PublicKey with
    | some q =>
      rw [ih (peerStep st p)]
      · rw [peerStep_found st p q hp, peerUpdate_inverse, peerUpdate_peers, mapGet_mapSet]
        simp only [keysOf, List.map_cons, List.mem_cons, forall_eq_or_imp, hp, ne_eq,
          Option.some.injEq]
        by_cases hq : q = pv
        · simp [hq]
        · simp [hq]
      · intro q' hq'
        rw [peerStep_found st p q hp, peerUpdate_inverse, mapGet_mapSet] at hq'
        rw [peerStep_found st p q hp]
        by_cases hqq : q = q'
        · simp [hqq] at hq'
        · simp only [hqq, if_false] at hq'
          exact hfresh q' hq'
    | none =>
      rw [ih (peerStep st p)]
      · rw [peerStep_new st p hp, peerCreate_inverse, peerCreate_peers]
        simp only [keysOf, List.map_cons, List.mem_cons, forall_eq_or_imp, hp, ne_eq,
          not_false_eq_true, true_and, reduceCtorEq]
        constructor
        · rintro ⟨h1, h2⟩
          refine ⟨h1, fun k hk => ?_⟩
          have := h2 k hk
          rw [mapGet_mapSet] at this
          by_cases hkp : p.PublicKey = k
          · rw [← hkp, hp]; exact fun h => Option.noConfusion h
          · simpa [hkp] using this
        · rintro ⟨h1, h2⟩
          refine ⟨h1, fun k hk => ?_⟩
          rw [mapGet_mapSet]
          by_cases hkp : p.PublicKey = k
          · simp only [hkp, if_true, Option.some.injEq]
            exact fun h => Nat.lt_irrefl _ (h ▸ hfresh pv h1)
          · simpa [hkp] using h2 k hk
      · intro q' hq'
        rw [peerStep_new st p hp] at hq' ⊢
        rw [peerCreate_nextId]
        exact Nat.lt_succ_of_lt (hfresh q' hq')

/-! ## Consistency of map and display -/

theorem Shows_text (lt : labelTextLine) (t : String) (h : lt.Shows t) : lt.text.Text = t := by
  unfold labelTextLine.Shows labelTextLine.display at h
  exact (Prod.mk.inj (Prod.mk.inj h).2).2

theorem KeyString_injective (hrt : RoundTrip σ) (k k' : σ.Key)
    (h : σ.KeyString k = σ.KeyString k') : k = k' := by
  have h1 := hrt k
  rw [h, hrt k'] at h1
  exact (Option.some.inj h1).symm

/-- Under consistency two keys mapped to the same section are equal. -/
theorem Consistent.injective {cv : ConfView σ} (hc : Consistent cv) (hrt : RoundTrip σ)
    (k k' : σ.Key) (pv : Nat) (h : mapGet cv.peers k = some pv)
    (h' : mapGet cv.peers k' = some pv) : k = k' := by
  apply KeyString_injective hrt
  rw [← Shows_text _ _ (hc.shown k pv h), ← Shows_text _ _ (hc.shown k' pv h')]

theorem NewConfView_Consistent (thread : Nat) (prevWndProc : Nat → Nat → Nat → Nat) :
    Consistent (NewConfView σ thread prevWndProc) where
  keys_nodup := by simp [NewConfView]
  shown := by intro k pv h; simp [NewConfView, mapGet] at h
  parent := by intro k pv h; simp [NewConfView, mapGet] at h
  fresh := by intro k pv h; simp [NewConfView, mapGet] at h
  child := by intro k pv h; simp [NewConfView, mapGet] at h
  children_nodup := by simp [NewConfView]
  children_fresh := by simp [NewConfView]

theorem peerView_apply_Shows (pv : peerView) (p : Peer σ) :
    (pv.apply σ p).publicKey.Shows (σ.KeyString p.PublicKey) := by
  rw [peerView_apply_publicKey]
  exact show_Shows _ _

theorem peerUpdate_Consistent (hrt : RoundTrip σ) (r : Run σ) (inv : List (Nat × Bool))
    (q : Nat) (p : Peer σ) (hq : mapGet r.cv.peers p.PublicKey = some q)
    (hc : Consistent r.cv) : Consistent (peerUpdate r inv q p).1.cv where
  keys_nodup := hc.keys_nodup
  shown := by
    intro k pv h
    rw [peerUpdate_peers] at h
    rw [peerUpdate_views]
    by_cases hpv : pv = q
    · subst hpv
      rw [if_pos rfl, hc.injective hrt k p.PublicKey pv h hq]
      exact peerView_apply_Shows _ _
    · rw [if_neg hpv]
      exact hc.shown k pv h
  parent := by
    intro k pv h
    rw [peerUpdate_peers] at h
    rw [peerUpdate_views]
    by_cases hpv : pv = q
    · subst hpv
      rw [if_pos rfl, peerView_apply_parent]
      exact hc.parent k pv h
    · rw [if_neg hpv]
      exact hc.parent k pv h
  fresh := hc.fresh
  child := hc.child
  children_nodup := hc.children_nodup
  children_fresh := hc.children_fresh

theorem peerCreate_Consistent (r : Run σ) (inv : List (Nat × Bool)) (p : Peer σ)
    (hc : Consistent r.cv) : Consistent (peerCreate r inv p).1.cv where
  keys_nodup := by
    rw [peerCreate_peers]
    exact mapSet_nodup _ _ _ hc.keys_nodup
  shown := by
    intro k pv h
    rw [peerCreate_peers, mapGet_mapSet] at h
    rw [peerCreate_views]
    by_cases hk : p.PublicKey = k
    · simp only [hk, if_true, Option.some.injEq] at h
      rw [if_pos h.symm, ← hk]
      exact peerView_apply_Shows _ _
    · simp only [hk, if_false] at h
      rw [if_neg (Nat.ne_of_lt (hc.fresh k pv h))]
      exact hc.shown k pv h
  parent := by
    intro k pv h
    rw [peerCreate_peers, mapGet_mapSet] at h
    rw [peerCreate_views]
    by_cases hk : p.PublicKey = k
    · simp only [hk, if_true, Option.some.injEq] at h
      rw [if_pos h.symm, peerView_apply_parent]
      exact h
    · simp only [hk, if_false] at h
      rw [if_neg (Nat.ne_of_lt (hc.fresh k pv h))]
      exact hc.parent k pv h
  fresh := by
    intro k pv h
    rw [peerCreate_peers, mapGet_mapSet] at h
    rw [peerCreate_nextId]
    by_cases hk : p.PublicKey = k
    · simp only [hk, if_true, Option.some.injEq] at h
      omega
    · simp only [hk, if_false] at h
      exact Nat.lt_succ_of_lt (hc.fresh k pv h)
  child := by
    intro k pv h
    rw [peerCreate_peers, mapGet_mapSet] at h
    rw [peerCreate_children]
    by_cases hk : p.PublicKey = k
    · simp only [hk, if_true, Option.some.injEq] at h
      simp [h]
    · simp only [hk, if_false] at h
      exact List.mem_append_left _ (hc.child k pv h)
  children_nodup := by
    rw [peerCreate_children]
    refine List.Nodup.append hc.children_nodup (List.nodup_singleton _) ?_
    intro g hg hg'
    rw [List.mem_singleton] at hg'
    exact Nat.lt_irrefl _ (hg' ▸ hc.children_fresh g hg)
  children_fresh := by
    intro g hg
    rw [peerCreate_children, List.mem_append, List.mem_singleton] at hg
    rw [peerCreate_nextId]
    rcases hg with hg | hg
    · exact Nat.lt_succ_of_lt (hc.children_fresh g hg)
    · omega

theorem peerStep_Consistent (hrt : RoundTrip σ) (st : Run σ × List (Nat × Bool)) (p : Peer σ)
    (hc : Consistent st.1.cv) : Consistent (peerStep st p).1.cv := by
  cases hp : mapGet st.1.cv.peers p.PublicKey with
  | some q => rw [peerStep_found st p q hp]; exact peerUpdate_Consistent hrt _ _ q p hp hc
  | none => rw [peerStep_new st p hp]; exact peerCreate_Consistent _ _ p hc

theorem peerLoop_Consistent (hrt : RoundTrip σ) (ps : List (Peer σ))
    (st : Run σ × List (Nat × Bool)) (hc : Consistent st.1.cv) :
    Consistent (ps.foldl peerStep st).1.cv := by
  induction ps generalizing st with
  | nil => exact hc
  | cons p ps ih => exact ih _ (peerStep_Consistent hrt st p hc)

/-! ## The loop over the peers: what a section displays afterwards -/

theorem lastWithKey_cons (p : Peer σ) (ps : List (Peer σ)) (k : σ.Key) :
    lastWithKey (p :: ps) k =
      match lastWithKey ps k with
      | some q => some q
      | none => if p.PublicKey = k then some p else none := by
  unfold lastWithKey
  by_cases h : p.PublicKey = k
  · simp only [List.filter_cons, h, decide_True, if_true]
    cases hl : List.filter (fun p => decide (p.PublicKey = k)) ps with
    | nil => simp
    | cons a l =>
      rw [List.getLast?_cons_cons, List.getLast?_eq_getLast _ (List.cons_ne_nil a l)]
  · simp only [List.filter_cons, h, decide_False, Bool.false_eq_true, if_false]
    cases List.getLast? (List.filter (fun p => decide (p.PublicKey = k)) ps) <;> rfl

theorem lastWithKey_none (ps : List (Peer σ)) (k : σ.Key) (h : lastWithKey ps k = none) :
    k ∉ keysOf ps := by
  unfold lastWithKey at h
  rw [List.getLast?_eq_none_iff, List.filter_eq_nil_iff] at h
  intro hk
  simp only [keysOf, List.mem_map] at hk
  obtain ⟨p, hp, rfl⟩ := hk
  simpa using h p hp

theorem lastWithKey_some (ps : List (Peer σ)) (k : σ.Key) (p : Peer σ)
    (h : lastWithKey ps k = some p) : p ∈ ps ∧ p.PublicKey = k := by
  unfold lastWithKey at h
  have := List.mem_of_getLast?_eq_some h
  simpa using this

/-- With distinct keys the last peer carrying the key of `p` is `p`. -/
theorem lastWithKey_of_nodup (ps : List (Peer σ)) (hnd : (keysOf ps).Nodup) (p : Peer σ)
    (hp : p ∈ ps) : lastWithKey ps p.PublicKey = some p := by
  induction ps with
  | nil => simp at hp
  | cons a ps ih =>
    simp only [keysOf, List.map_cons, List.nodup_cons] at hnd
    rw [lastWithKey_cons]
    rcases List.mem_cons.1 hp with rfl | hp'
    · cases hl : lastWithKey ps p.PublicKey with
      | none => simp
      | some q =>
        obtain ⟨hq, hqk⟩ := lastWithKey_some ps _ q hl
        exact absurd (List.mem_map.2 ⟨q, hq, hqk⟩) hnd.1
    · rw [ih hnd.2 hp']

theorem peerStep_applied (st : Run σ × List (Nat × Bool)) (p : Peer σ) :
    ∃ pv v0, mapGet (peerStep st p).1.cv.peers p.PublicKey = some pv ∧
      (peerStep st p).1.cv.views pv = peerView.apply σ v0 p := by
  cases hp : mapGet st.1.cv.peers p.PublicKey with
  | some q =>
    refine ⟨q, st.1.cv.views q, ?_, ?_⟩
    · rw [peerStep_found st p q hp]; exact hp
    · rw [peerStep_found st p q hp, peerUpdate_views, if_pos rfl]
  | none =>
    refine ⟨st.1.cv.nextId, newPeerView st.1.cv.nextId, ?_, ?_⟩
    · rw [peerStep_new st p hp, peerCreate_peers, mapGet_mapSet, if_pos rfl]
    · rw [peerStep_new st p hp, peerCreate_views, if_pos rfl]

/-- After the loop the section of a key of the list is in the state `apply`
leaves for the last peer of the list with that key. -/
theorem peerLoop_last (hrt : RoundTrip σ) (ps : List (Peer σ))
    (st : Run σ × List (Nat × Bool)) (hc : Consistent st.1.cv) (k : σ.Key) (p : Peer σ)
    (h : lastWithKey ps k = some p) :
    ∃ pv v0, mapGet (ps.foldl peerStep st).1.cv.peers k = some pv ∧
      (ps.foldl peerStep st).1.cv.views pv = peerView.apply σ v0 p := by
  induction ps generalizing st with
  | nil => simp [lastWithKey] at h
  | cons a ps ih =>
    rw [lastWithKey_cons] at h
    rw [List.foldl_cons]
    have hc1 := peerStep_Consistent hrt st a hc
    cases hl : lastWithKey ps k with
    | some q =>
      rw [hl] at h
      simp only [Option.some.injEq] at h
      subst h
      exact ih _ hc1 hl
    | none =>
      rw [hl] at h
      by_cases hak : a.PublicKey = k
      · simp only [hak, if_true, Option.some.injEq] at h
        subst h
        obtain ⟨pv, v0, h1, h2⟩ := peerStep_applied st a
        rw [hak] at h1
        refine ⟨pv, v0, peerLoop_get_some ps _ k pv h1, ?_⟩
        rw [peerLoop_views_frame ps _ pv (hc1.fresh k pv h1), h2]
        intro k' hk' hget
        have := hc1.injective hrt k' k pv hget h1
        exact lastWithKey_none ps k hl (this ▸ hk')
      · simp [hak] at h

/-! ## The loop over `inverse` -/

@[simp] theorem removeSection_peers (r : Run σ) (pv : Nat) (k : σ.Key) :
    (removeSection r pv k).cv.peers = mapDelete r.cv.peers k := by
  simp [removeSection]

@[simp] theorem removeSection_views (r : Run σ) (pv : Nat) (k : σ.Key) :
    (removeSection r pv k).cv.views = r.cv.views := by
  simp [removeSection]

@[simp] theorem removeSection_nextId (r : Run σ) (pv : Nat) (k : σ.Key) :
    (removeSection r pv k).cv.nextId = r.cv.nextId := by
  simp [removeSection]

@[simp] theorem removeSection_children (r : Run σ) (pv : Nat) (k : σ.Key) :
    (removeSection r pv k).cv.children = r.cv.children.erase (groupBoxOf (r.cv.views pv)) := by
  simp [removeSection, groupBoxOf]

@[simp] theorem removeSection_disposed (r : Run σ) (pv : Nat) (k : σ.Key) :
    (removeSection r pv k).cv.disposed = r.cv.disposed ++ [groupBoxOf (r.cv.views pv)] := by
  simp [removeSection, groupBoxOf]

theorem removeSection_log (r : Run σ) (pv : Nat) (k : σ.Key) :
    (removeSection r pv k).log =
      r.suspend.log ++
        [Event.delete k, Event.Remove (groupBoxOf (r.cv.views pv)),
         Event.Dispose (groupBoxOf (r.cv.views pv))] := by
  simp [removeSection, groupBoxOf]

theorem removeStep_false (r : Run σ) (pv : Nat) : removeStep r (pv, false) = r := by
  simp [removeStep]

theorem removeStep_none (r : Run σ) (pv : Nat) (b : Bool)
    (h : σ.NewPrivateKeyFromString (r.cv.views pv).publicKey.text.Text = none) :
    removeStep r (pv, b) = r := by
  unfold removeStep
  cases b
  · rfl
  · simp [h]

theorem removeStep_some (r : Run σ) (pv : Nat) (k : σ.Key)
    (h : σ.NewPrivateKeyFromString (r.cv.views pv).publicKey.text.Text = some k) :
    removeStep r (pv, true) = removeSection r pv k := by
  unfold removeStep
  simp [h]

/-- One step either leaves the run as it is or removes the section under the
key its text parses to. -/
theorem removeStep_cases (r : Run σ) (e : Nat × Bool) :
    removeStep r e = r ∧
      (e.2 = false ∨ σ.NewPrivateKeyFromString (r.cv.views e.1).publicKey.text.Text = none) ∨
    ∃ k, e.2 = true ∧ σ.NewPrivateKeyFromString (r.cv.views e.1).publicKey.text.Text = some k ∧
      removeStep r e = removeSection r e.1 k := by
  obtain ⟨pv, b⟩ := e
  cases b
  · exact Or.inl ⟨removeStep_false r pv, Or.inl rfl⟩
  · rcases Option.eq_none_or_eq_some
      (σ.NewPrivateKeyFromString (r.cv.views pv).publicKey.text.Text) with h | ⟨k, h⟩
    · exact Or.inl ⟨removeStep_none r pv true h, Or.inr h⟩
    · exact Or.inr ⟨k, rfl, h, removeStep_some r pv k h⟩

theorem removeStep_views (r : Run σ) (e : Nat × Bool) :
    (removeStep r e).cv.views = r.cv.views := by
  rcases removeStep_cases r e with ⟨h, _⟩ | ⟨k, _, _, h⟩
  · rw [h]
  · rw [h, removeSection_views]

theorem removeLoop_views (es : List (Nat × Bool)) (r : Run σ) :
    (es.foldl removeStep r).cv.views = r.cv.views := by
  induction es generalizing r with
  | nil => rfl
  | cons e es ih => rw [List.foldl_cons, ih, removeStep_views]

theorem removeStep_nextId (r : Run σ) (e : Nat × Bool) :
    (removeStep r e).cv.nextId = r.cv.nextId := by
  rcases removeStep_cases r e with ⟨h, _⟩ | ⟨k, _, _, h⟩
  · rw [h]
  · rw [h, removeSection_nextId]

theorem removeLoop_nextId (es : List (Nat × Bool)) (r : Run σ) :
    (es.foldl removeStep r).cv.nextId = r.cv.nextId := by
  induction es generalizing r with
  | nil => rfl
  | cons e es ih => rw [List.foldl_cons, ih, removeStep_nextId]

theorem Removes_cons (views : Nat → peerView) (e : Nat × Bool) (es : List (Nat × Bool))
    (pv : Nat) (k : σ.Key) :
    Removes views (e :: es) pv k ↔
      (e = (pv, true) ∧ σ.NewPrivateKeyFromString (views pv).publicKey.text.Text = some k) ∨
      Removes views es pv k := by
  unfold Removes
  rw [List.mem_cons]
  constructor
  · rintro ⟨h | h, h'⟩
    · exact Or.inl ⟨h.symm, h'⟩
    · exact Or.inr ⟨h, h'⟩
  · rintro (⟨h, h'⟩ | ⟨h, h'⟩)
    · exact ⟨Or.inl h.symm, h'⟩
    · exact ⟨Or.inr h, h'⟩

/-- A key that the loop removes some section under is not mapped afterwards. -/
theorem removeLoop_get_removed (es : List (Nat × Bool)) (r : Run σ) (pv : Nat) (k : σ.Key)
    (h : Removes r.cv.views es pv k) : mapGet (es.foldl removeStep r).cv.peers k = none := by
  have keep : ∀ (es : List (Nat × Bool)) (r : Run σ), mapGet r.cv.peers k = none →
      mapGet (es.foldl removeStep r).cv.peers k = none := by
    intro es
    induction es with
    | nil => exact fun r h => h
    | cons e es ih =>
      intro r hr
      apply ih
      rcases removeStep_cases r e with ⟨h, _⟩ | ⟨k', _, _, h⟩
      · rw [h]; exact hr
      · rw [h, removeSection_peers, mapGet_mapDelete]
        split_ifs
        · rfl
        · exact hr
  induction es generalizing r with
  | nil => simp [Removes] at h
  | cons e es ih =>
    rw [List.foldl_cons]
    rcases (Removes_cons _ e es pv k).1 h with ⟨he, hk⟩ | h'
    · subst he
      apply keep
      rw [removeStep_some r pv k hk, removeSection_peers, mapGet_mapDelete, if_pos rfl]
    · apply ih
      rw [removeStep_views]
      exact h'

/-- A key that the loop removes no section under stays mapped as it was. -/
theorem removeLoop_get_kept (es : List (Nat × Bool)) (r : Run σ) (k : σ.Key)
    (h : ∀ pv, ¬ Removes r.cv.views es pv k) :
    mapGet (es.foldl removeStep r).cv.peers k = mapGet r.cv.peers k := by
  induction es generalizing r with
  | nil => rfl
  | cons e es ih =>
    rw [List.foldl_cons, ih]
    · rcases removeStep_cases r e with ⟨h', _⟩ | ⟨k', hb, hk', h'⟩
      · rw [h']
      · rw [h', removeSection_peers, mapGet_mapDelete]
        have : k' ≠ k := by
          rintro rfl
          apply h e.1
          rw [Removes_cons]
          exact Or.inl ⟨Prod.ext rfl hb, hk'⟩
        rw [if_neg this]
    · intro pv hpv
      rw [removeStep_views] at hpv
      exact h pv ((Removes_cons _ e es pv k).2 (Or.inr hpv))

/-- The loop adds nothing to the map. -/
theorem removeLoop_get_some (es : List (Nat × Bool)) (r : Run σ) (k : σ.Key) (pv : Nat)
    (h : mapGet (es.foldl removeStep r).cv.peers k = some pv) : mapGet r.cv.peers k = some pv := by
  induction es generalizing r with
  | nil => exact h
  | cons e es ih =>
    have h1 := ih _ h
    rcases removeStep_cases r e with ⟨h', _⟩ | ⟨k', _, _, h'⟩
    · rw [h'] at h1; exact h1
    · rw [h', removeSection_peers, mapGet_mapDelete] at h1
      split_ifs at h1
      exact h1

/-- Without an entry that is marked and parses the loop does nothing. -/
theorem removeLoop_noop (es : List (Nat × Bool)) (r : Run σ)
    (h : ∀ (pv : Nat) (k : σ.Key), ¬ Removes r.cv.views es pv k) :
    es.foldl removeStep r = r := by
  induction es generalizing r with
  | nil => rfl
  | cons e es ih =>
    rw [List.foldl_cons]
    rcases removeStep_cases r e with ⟨h', _⟩ | ⟨k', hb, hk', _⟩
    · rw [h']
      exact ih r (fun pv k hr => h pv k ((Removes_cons _ e es pv k).2 (Or.inr hr)))
    · exact absurd ((Removes_cons _ e es e.1 k').2 (Or.inl ⟨Prod.ext rfl hb, hk'⟩)) (h e.1 k')

/-! ## The loop over `inverse`: children, disposed boxes and the log -/

theorem removeStep_children_sub (r : Run σ) (e : Nat × Bool) (g : Nat)
    (h : g ∈ (removeStep r e).cv.children) : g ∈ r.cv.children := by
  rcases removeStep_cases r e with ⟨h', _⟩ | ⟨k, _, _, h'⟩
  · rw [h'] at h; exact h
  · rw [h', removeSection_children] at h
    exact List.mem_of_mem_erase h

theorem removeLoop_children_sub (es : List (Nat × Bool)) (r : Run σ) (g : Nat)
    (h : g ∈ (es.foldl removeStep r).cv.children) : g ∈ r.cv.children := by
  induction es generalizing r with
  | nil => exact h
  | cons e es ih => exact removeStep_children_sub r e g (ih _ h)

theorem removeStep_children_nodup (r : Run σ) (e : Nat × Bool) (h : r.cv.children.Nodup) :
    (removeStep r e).cv.children.Nodup := by
  rcases removeStep_cases r e with ⟨h', _⟩ | ⟨k, _, _, h'⟩
  · rw [h']; exact h
  · rw [h', removeSection_children]
    exact h.erase _

theorem removeLoop_children_nodup (es : List (Nat × Bool)) (r : Run σ)
    (h : r.cv.children.Nodup) : (es.foldl removeStep r).cv.children.Nodup := by
  induction es generalizing r with
  | nil => exact h
  | cons e es ih => exact ih _ (removeStep_children_nodup r e h)

/-- The group box of a removed section is no child afterwards. -/
theorem removeLoop_children_removed (es : List (Nat × Bool)) (r : Run σ)
    (hnd : r.cv.children.Nodup) (pv : Nat) (k : σ.Key) (h : Removes r.cv.views es pv k) :
    groupBoxOf (r.cv.views pv) ∉ (es.foldl removeStep r).cv.children := by
  induction es generalizing r with
  | nil => simp [Removes] at h
  | cons e es ih =>
    rw [List.foldl_cons]
    rcases (Removes_cons _ e es pv k).1 h with ⟨he, hk⟩ | h'
    · subst he
      intro hmem
      have := removeLoop_children_sub es _ _ hmem
      rw [removeStep_some r pv k hk, removeSection_children] at this
      exact (List.Nodup.mem_erase_iff hnd).1 this |>.1 rfl
    · have := ih (removeStep r e) (removeStep_children_nodup r e hnd)
        (by rw [removeStep_views]; exact h')
      rw [removeStep_views] at this
      exact this

/-- A child that is the group box of no removed section stays a child. -/
theorem removeLoop_children_kept (es : List (Nat × Bool)) (r : Run σ) (g : Nat)
    (hg : g ∈ r.cv.children)
    (h : ∀ (pv : Nat) (k : σ.Key), Removes r.cv.views es pv k → groupBoxOf (r.cv.views pv) ≠ g) :
    g ∈ (es.foldl removeStep r).cv.children := by
  induction es generalizing r with
  | nil => exact hg
  | cons e es ih =>
    rw [List.foldl_cons]
    apply ih
    · rcases removeStep_cases r e with ⟨h', _⟩ | ⟨k, hb, hk, h'⟩
      · rw [h']; exact hg
      · rw [h', removeSection_children]
        have hne := h e.1 k ((Removes_cons _ e es e.1 k).2 (Or.inl ⟨Prod.ext rfl hb, hk⟩))
        exact (List.mem_erase_of_ne hne.symm).2 hg
    · intro pv k hr
      rw [removeStep_views] at hr ⊢
      exact h pv k ((Removes_cons _ e es pv k).2 (Or.inr hr))

/-- The group box of a removed section is disposed. -/
theorem removeLoop_disposed_removed (es : List (Nat × Bool)) (r : Run σ) (pv : Nat)
    (k : σ.Key) (h : Removes r.cv.views es pv k) :
    groupBoxOf (r.cv.views pv) ∈ (es.foldl removeStep r).cv.disposed := by
  have keep : ∀ (es : List (Nat × Bool)) (r : Run σ) (g : Nat), g ∈ r.cv.disposed →
      g ∈ (es.foldl removeStep r).cv.disposed := by
    intro es
    induction es with
    | nil => exact fun r g h => h
    | cons e es ih =>
      intro r g hg
      apply ih
      rcases removeStep_cases r e with ⟨h', _⟩ | ⟨k', _, _, h'⟩
      · rw [h']; exact hg
      · rw [h', removeSection_disposed]
        exact List.mem_append_left _ hg
  induction es generalizing r with
  | nil => simp [Removes] at h
  | cons e es ih =>
    rw [List.foldl_cons]
    rcases (Removes_cons _ e es pv k).1 h with ⟨he, hk⟩ | h'
    · subst he
      apply keep
      rw [removeStep_some r pv k hk, removeSection_disposed]
      simp
    · have := ih (removeStep r e) (by rw [removeStep_views]; exact h')
      rw [removeStep_views] at this
      exact this

/-- What the loop disposes is what was disposed before or the group box of a
removed section. -/
theorem removeLoop_disposed_cases (es : List (Nat × Bool)) (r : Run σ) (g : Nat)
    (h : g ∈ (es.foldl removeStep r).cv.disposed) :
    g ∈ r.cv.disposed ∨
      ∃ (pv : Nat) (k : σ.Key), Removes r.cv.views es pv k ∧ groupBoxOf (r.cv.views pv) = g := by
  induction es generalizing r with
  | nil => exact Or.inl h
  | cons e es ih =>
    rw [List.foldl_cons] at h
    rcases ih _ h with h1 | ⟨pv, k, hr, hg⟩
    · rcases removeStep_cases r e with ⟨h', _⟩ | ⟨k, hb, hk, h'⟩
      · rw [h'] at h1; exact Or.inl h1
      · rw [h', removeSection_disposed, List.mem_append, List.mem_singleton] at h1
        rcases h1 with h1 | h1
        · exact Or.inl h1
        · exact Or.inr ⟨e.1, k, (Removes_cons _ e es e.1 k).2 (Or.inl ⟨Prod.ext rfl hb, hk⟩),
            h1.symm⟩
    · rw [removeStep_views] at hr hg
      exact Or.inr ⟨pv, k, (Removes_cons _ e es pv k).2 (Or.inr hr), hg⟩

/-- The events the loop adds to the log: at most `SetSuspended(true)` and, for
a removed section, the map deletion, the detaching and the disposal. -/
theorem removeLoop_log (es : List (Nat × Bool)) (r : Run σ) (ev : Event σ)
    (h : ev ∈ (es.foldl removeStep r).log) :
    ev ∈ r.log ∨ ev = Event.SetSuspended true ∨
      ∃ (pv : Nat) (k : σ.Key), Removes r.cv.views es pv k ∧
        (ev = Event.delete k ∨ ev = Event.Remove (groupBoxOf (r.cv.views pv)) ∨
          ev = Event.Dispose (groupBoxOf (r.cv.views pv))) := by
  induction es generalizing r with
  | nil => exact Or.inl h
  | cons e es ih =>
    rw [List.foldl_cons] at h
    rcases ih _ h with h1 | h1 | ⟨pv, k, hr, hev⟩
    · rcases removeStep_cases r e with ⟨h', _⟩ | ⟨k, hb, hk, h'⟩
      · rw [h'] at h1; exact Or.inl h1
      · rw [h', removeSection_log, suspend_log] at h1
        have hrem := (Removes_cons _ e es e.1 k).2 (Or.inl ⟨Prod.ext rfl hb, hk⟩)
        simp only [List.mem_append, List.mem_cons, List.mem_singleton, List.not_mem_nil,
          or_false] at h1
        rcases h1 with h1 | h1 | h1 | h1
        · split_ifs at h1
          · exact Or.inl h1
          · rw [List.mem_append, List.mem_singleton] at h1
            rcases h1 with h1 | h1
            · exact Or.inl h1
            · exact Or.inr (Or.inl h1)
        · exact Or.inr (Or.inr ⟨e.1, k, hrem, Or.inl h1⟩)
        · exact Or.inr (Or.inr ⟨e.1, k, hrem, Or.inr (Or.inl h1)⟩)
        · exact Or.inr (Or.inr ⟨e.1, k, hrem, Or.inr (Or.inr h1)⟩)
    · exact Or.inr (Or.inl h1)
    · rw [removeStep_views] at hr hev
      exact Or.inr (Or.inr ⟨pv, k, (Removes_cons _ e es pv k).2 (Or.inr hr), hev⟩)

/-- A removed section switches the suspension on. -/
theorem removeLoop_removed_hasSuspended (es : List (Nat × Bool)) (r : Run σ) (pv : Nat)
    (k : σ.Key) (h : Removes r.cv.views es pv k) :
    (es.foldl removeStep r).hasSuspended = true := by
  induction es generalizing r with
  | nil => simp [Removes] at h
  | cons e es ih =>
    rw [List.foldl_cons]
    rcases (Removes_cons _ e es pv k).1 h with ⟨he, hk⟩ | h'
    · subst he
      apply removeLoop_hasSuspended
      rw [removeStep_some r pv k hk]
      simp [removeSection]
    · exact ih _ (by rw [removeStep_views]; exact h')

/-! ## The phases of `setConfiguration` -/

theorem setConfiguration_eq (ord : MapOrders σ) (cv : ConfView σ) (c : Config σ) :
    setConfiguration ord cv c =
      ((removalPhase ord cv c).resume.cv, (removalPhase ord cv c).resume.log) := rfl

theorem resume_cv (r : Run σ) :
    r.resume.cv = { r.cv with suspended := r.resume.cv.suspended } := by
  unfold Run.resume
  split_ifs <;> rfl

@[simp] theorem resume_peers (r : Run σ) : r.resume.cv.peers = r.cv.peers := by
  rw [resume_cv]

@[simp] theorem resume_views (r : Run σ) : r.resume.cv.views = r.cv.views := by
  rw [resume_cv]

@[simp] theorem resume_nextId (r : Run σ) : r.resume.cv.nextId = r.cv.nextId := by
  rw [resume_cv]

@[simp] theorem resume_children (r : Run σ) : r.resume.cv.children = r.cv.children := by
  rw [resume_cv]

@[simp] theorem resume_disposed (r : Run σ) : r.resume.cv.disposed = r.cv.disposed := by
  rw [resume_cv]

@[simp] theorem resume_name (r : Run σ) : r.resume.cv.name = r.cv.name := by
  rw [resume_cv]

@[simp] theorem resume_interfaze (r : Run σ) : r.resume.cv.interfaze = r.cv.interfaze := by
  rw [resume_cv]

theorem resume_log (r : Run σ) :
    r.resume.log = if r.hasSuspended then r.log ++ [Event.SetSuspended false] else r.log := by
  unfold Run.resume
  cases r.hasSuspended <;> rfl

theorem applyHeader_cv (r : Run σ) (c : Config σ) :
    (applyHeader r c).cv =
      { r.cv with name := (applyHeader r c).cv.name
                  interfaze := r.cv.interfaze.apply σ c.Interface } := by
  simp only [applyHeader]
  split_ifs <;> rfl

@[simp] theorem applyHeader_peers (r : Run σ) (c : Config σ) :
    (applyHeader r c).cv.peers = r.cv.peers := by
  rw [applyHeader_cv]

@[simp] theorem applyHeader_views (r : Run σ) (c : Config σ) :
    (applyHeader r c).cv.views = r.cv.views := by
  rw [applyHeader_cv]

@[simp] theorem applyHeader_nextId (r : Run σ) (c : Config σ) :
    (applyHeader r c).cv.nextId = r.cv.nextId := by
  rw [applyHeader_cv]

@[simp] theorem applyHeader_children (r : Run σ) (c : Config σ) :
    (applyHeader r c).cv.children = r.cv.children := by
  rw [applyHeader_cv]

@[simp] theorem applyHeader_disposed (r : Run σ) (c : Config σ) :
    (applyHeader r c).cv.disposed = r.cv.disposed := by
  rw [applyHeader_cv]

@[simp] theorem applyHeader_suspended (r : Run σ) (c : Config σ) :
    (applyHeader r c).cv.suspended = r.cv.suspended := by
  rw [applyHeader_cv]

@[simp] theorem applyHeader_interfaze (r : Run σ) (c : Config σ) :
    (applyHeader r c).cv.interfaze = r.cv.interfaze.apply σ c.Interface := by
  rw [applyHeader_cv]

@[simp] theorem applyHeader_hasSuspended (r : Run σ) (c : Config σ) :
    (applyHeader r c).hasSuspended = r.hasSuspended := by
  simp only [applyHeader]
  split_ifs <;> rfl

theorem applyHeader_title (r : Run σ) (c : Config σ) :
    (applyHeader r c).cv.name.title = "Interface: " ++ c.Name := by
  simp only [applyHeader]
  split_ifs with h
  · rfl
  · simpa using h

theorem applyHeader_name_id (r : Run σ) (c : Config σ) :
    (applyHeader r c).cv.name.id = r.cv.name.id := by
  simp only [applyHeader]
  split_ifs <;> rfl

theorem applyHeader_log (r : Run σ) (c : Config σ) :
    (applyHeader r c).log =
      if r.cv.name.title ≠ "Interface: " ++ c.Name then
        r.log ++ [Event.SetTitle r.cv.name.id ("Interface: " ++ c.Name)]
      else r.log := by
  simp only [applyHeader]
  split_ifs <;> rfl

theorem applyHeader_Consistent (r : Run σ) (c : Config σ) (hc : Consistent r.cv) :
    Consistent (applyHeader r c).cv where
  keys_nodup := by rw [applyHeader_peers]; exact hc.keys_nodup
  shown := by
    intro k pv h
    rw [applyHeader_peers] at h
    rw [applyHeader_views]
    exact hc.shown k pv h
  parent := by
    intro k pv h
    rw [applyHeader_peers] at h
    rw [applyHeader_views]
    exact hc.parent k pv h
  fresh := by
    intro k pv h
    rw [applyHeader_peers] at h
    rw [applyHeader_nextId]
    exact hc.fresh k pv h
  child := by
    intro k pv h
    rw [applyHeader_peers] at h
    rw [applyHeader_children]
    exact hc.child k pv h
  children_nodup := by rw [applyHeader_children]; exact hc.children_nodup
  children_fresh := by
    intro g hg
    rw [applyHeader_children] at hg
    rw [applyHeader_nextId]
    exact hc.children_fresh g hg

/-! ## Which sections are stale -/

theorem mapGet_mapDelete_some {K V : Type} [DecidableEq K] (m : List (K × V)) (k k' : K)
    (v : V) : mapGet (mapDelete m k) k' = some v ↔ k ≠ k' ∧ mapGet m k' = some v := by
  rw [mapGet_mapDelete]
  by_cases h : k = k'
  · simp [h]
  · simp [h]

/-- The map `inverse` as first built marks exactly the sections some key is
mapped to. -/
theorem buildInverse_true (ord : MapOrders σ) (peers : List (σ.Key × Nat))
    (hnd : (peers.map Prod.fst).Nodup) (pv : Nat) :
    mapGet (buildInverse (ord.peers peers)) pv = some true ↔
      ∃ k, mapGet peers k = some pv := by
  rw [mapGet_buildInverse]
  have hperm := ord.peers_perm peers
  constructor
  · intro h
    split_ifs at h with hmem
    obtain ⟨e, he, rfl⟩ := List.mem_map.1 hmem
    exact ⟨e.1, mem_mapGet peers hnd e.1 e.2 (hperm.mem_iff.1 he)⟩
  · rintro ⟨k, hk⟩
    have : pv ∈ (ord.peers peers).map Prod.snd :=
      List.mem_map.2 ⟨(k, pv), hperm.mem_iff.2 (mapGet_mem peers k pv hk), rfl⟩
    rw [if_pos this]

/-- When the loop over the peers has ended a section is marked for removal
exactly when some key was mapped to it and no key of the snapshot was. -/
theorem peersPhase_inverse_true (ord : MapOrders σ) (cv : ConfView σ) (c : Config σ)
    (hc : Consistent cv) (pv : Nat) :
    (pv, true) ∈ ord.inverse (peersPhase ord cv c).2 ↔
      (∃ k, mapGet cv.peers k = some pv) ∧
        ∀ k ∈ keysOf c.Peers, mapGet cv.peers k ≠ some pv := by
  have hnd : ((peersPhase ord cv c).2.map Prod.fst).Nodup := by
    unfold peersPhase
    exact peerLoop_inverse_nodup _ _ (buildInverse_nodup _)
  rw [(ord.inverse_perm _).mem_iff]
  have hget : (pv, true) ∈ (peersPhase ord cv c).2 ↔
      mapGet (peersPhase ord cv c).2 pv = some true :=
    ⟨mem_mapGet _ hnd pv true, mapGet_mem _ pv true⟩
  rw [hget]
  unfold peersPhase
  simp only []
  rw [peerLoop_inverse_true]
  · simp only [applyHeader_peers]
    rw [buildInverse_true ord cv.peers hc.keys_nodup]
  · intro q hq
    simp only [applyHeader_peers, applyHeader_nextId] at hq ⊢
    obtain ⟨k, hk⟩ := (buildInverse_true ord cv.peers hc.keys_nodup q).1 hq
    exact hc.fresh k q hk

theorem peersPhase_Consistent (hrt : RoundTrip σ) (ord : MapOrders σ) (cv : ConfView σ)
    (c : Config σ) (hc : Consistent cv) : Consistent (peersPhase ord cv c).1.cv := by
  unfold peersPhase
  exact peerLoop_Consistent hrt _ _ (applyHeader_Consistent _ c hc)

/-- A stale section still is in the state it had before the call. -/
theorem peersPhase_views_stale (ord : MapOrders σ) (cv : ConfView σ) (c : Config σ)
    (hc : Consistent cv) (pv : Nat) (k0 : σ.Key) (hk0 : mapGet cv.peers k0 = some pv)
    (hno : ∀ k ∈ keysOf c.Peers, mapGet cv.peers k ≠ some pv) :
    (peersPhase ord cv c).1.cv.views pv = cv.views pv := by
  unfold peersPhase
  simp only []
  rw [peerLoop_views_frame]
  · simp
  · simp only [applyHeader_nextId]
    exact hc.fresh k0 pv hk0
  · simpa using hno

/-- The loop over `inverse` removes section `pv` under key `k` exactly when
`k` was mapped to `pv` before the call and is no key of the snapshot. -/
theorem Removes_iff (hrt : RoundTrip σ) (ord : MapOrders σ) (cv : ConfView σ) (c : Config σ)
    (hc : Consistent cv) (pv : Nat) (k : σ.Key) :
    Removes (peersPhase ord cv c).1.cv.views (ord.inverse (peersPhase ord cv c).2) pv k ↔
      mapGet cv.peers k = some pv ∧ k ∉ keysOf c.Peers := by
  unfold Removes
  rw [peersPhase_inverse_true ord cv c hc pv]
  constructor
  · rintro ⟨⟨⟨k0, hk0⟩, hno⟩, hparse⟩
    rw [peersPhase_views_stale ord cv c hc pv k0 hk0 hno,
      Shows_text _ _ (hc.shown k0 pv hk0), hrt k0] at hparse
    have : k0 = k := Option.some.inj hparse
    subst this
    exact ⟨hk0, fun hmem => hno k0 hmem hk0⟩
  · rintro ⟨hk, hnot⟩
    have hno : ∀ k' ∈ keysOf c.Peers, mapGet cv.peers k' ≠ some pv := by
      intro k' hk' hget
      exact hnot (hc.injective hrt k' k pv hget hk ▸ hk')
    refine ⟨⟨⟨k, hk⟩, hno⟩, ?_⟩
    rw [peersPhase_views_stale ord cv c hc pv k hk hno, Shows_text _ _ (hc.shown k pv hk)]
    exact hrt k

/-! ## Consistency is kept by `setConfiguration` -/

theorem removeSection_Consistent (hrt : RoundTrip σ) (r : Run σ) (pv : Nat) (k : σ.Key)
    (hc : Consistent r.cv) (hk : mapGet r.cv.peers k = some pv) :
    Consistent (removeSection r pv k).cv where
  keys_nodup := by
    rw [removeSection_peers]
    exact mapDelete_nodup _ _ hc.keys_nodup
  shown := by
    intro k' pv' h
    rw [removeSection_peers, mapGet_mapDelete_some] at h
    rw [removeSection_views]
    exact hc.shown k' pv' h.2
  parent := by
    intro k' pv' h
    rw [removeSection_peers, mapGet_mapDelete_some] at h
    rw [removeSection_views]
    exact hc.parent k' pv' h.2
  fresh := by
    intro k' pv' h
    rw [removeSection_peers, mapGet_mapDelete_some] at h
    rw [removeSection_nextId]
    exact hc.fresh k' pv' h.2
  child := by
    intro k' pv' h
    rw [removeSection_peers, mapGet_mapDelete_some] at h
    rw [removeSection_children]
    have hg : groupBoxOf (r.cv.views pv) = pv := hc.parent k pv hk
    rw [hg]
    have hne : pv' ≠ pv := by
      rintro rfl
      exact h.1 (hc.injective hrt k k' pv' hk h.2)
    exact (List.mem_erase_of_ne hne).2 (hc.child k' pv' h.2)
  children_nodup := by
    rw [removeSection_children]
    exact hc.children_nodup.erase _
  children_fresh := by
    intro g hg
    rw [removeSection_children] at hg
    rw [removeSection_nextId]
    exact hc.children_fresh g (List.mem_of_mem_erase hg)

theorem removeLoop_Consistent (hrt : RoundTrip σ) (es : List (Nat × Bool)) (r : Run σ)
    (hc : Consistent r.cv) (hnd : (es.map Prod.fst).Nodup)
    (htr : ∀ pv, (pv, true) ∈ es → ∃ k, mapGet r.cv.peers k = some pv) :
    Consistent (es.foldl removeStep r).cv := by
  induction es generalizing r with
  | nil => exact hc
  | cons e es ih =>
    rw [List.foldl_cons]
    simp only [List.map_cons, List.nodup_cons] at hnd
    rcases removeStep_cases r e with ⟨h', _⟩ | ⟨k, hb, hk, h'⟩
    · rw [h']
      exact ih r hc hnd.2 (fun pv hpv => htr pv (List.mem_cons_of_mem _ hpv))
    · rw [h']
      have he : e = (e.1, true) := Prod.ext rfl hb
      obtain ⟨k0, hk0⟩ := htr e.1 (by rw [← he]; exact List.mem_cons_self _ _)
      rw [Shows_text _ _ (hc.shown k0 e.1 hk0), hrt k0] at hk
      have hkk : k0 = k := Option.some.inj hk
      subst hkk
      apply ih _ (removeSection_Consistent hrt r e.1 k0 hc hk0) hnd.2
      intro pv hpv
      obtain ⟨k', hk'⟩ := htr pv (List.mem_cons_of_mem _ hpv)
      refine ⟨k', ?_⟩
      rw [removeSection_peers, mapGet_mapDelete_some]
      refine ⟨?_, hk'⟩
      rintro rfl
      rw [hk0] at hk'
      have : e.1 = pv := Option.some.inj hk'
      exact hnd.1 (List.mem_map.2 ⟨(pv, true), hpv, this.symm⟩)

theorem removalPhase_Consistent (hrt : RoundTrip σ) (ord : MapOrders σ) (cv : ConfView σ)
    (c : Config σ) (hc : Consistent cv) : Consistent (removalPhase ord cv c).cv := by
  unfold removalPhase
  apply removeLoop_Consistent hrt _ _ (peersPhase_Consistent hrt ord cv c hc)
  · have hnd : ((peersPhase ord cv c).2.map Prod.fst).Nodup := by
      unfold peersPhase
      exact peerLoop_inverse_nodup _ _ (buildInverse_nodup _)
    exact ((ord.inverse_perm _).map Prod.fst).nodup_iff.2 hnd
  · intro pv hpv
    obtain ⟨⟨k, hk⟩, _⟩ := (peersPhase_inverse_true ord cv c hc pv).1 hpv
    refine ⟨k, ?_⟩
    unfold peersPhase
    exact peerLoop_get_some _ _ k pv (by simpa using hk)

theorem resume_Consistent (r : Run σ) (hc : Consistent r.cv) : Consistent r.resume.cv where
  keys_nodup := by rw [resume_peers]; exact hc.keys_nodup
  shown := by
    intro k pv h
    rw [resume_peers] at h
    rw [resume_views]
    exact hc.shown k pv h
  parent := by
    intro k pv h
    rw [resume_peers] at h
    rw [resume_views]
    exact hc.parent k pv h
  fresh := by
    intro k pv h
    rw [resume_peers] at h
    rw [resume_nextId]
    exact hc.fresh k pv h
  child := by
    intro k pv h
    rw [resume_peers] at h
    rw [resume_children]
    exact hc.child k pv h
  children_nodup := by rw [resume_children]; exact hc.children_nodup
  children_fresh := by
    intro g hg
    rw [resume_children] at hg
    rw [resume_nextId]
    exact hc.children_fresh g hg

theorem setConfiguration_Consistent (hrt : RoundTrip σ) (ord : MapOrders σ)
    (cv : ConfView σ) (c : Config σ) (hc : Consistent cv) :
    Consistent (setConfiguration ord cv c).1 := by
  rw [setConfiguration_eq]
  exact resume_Consistent _ (removalPhase_Consistent hrt ord cv c hc)

/-- Every reachable view is consistent. -/
theorem Reachable.consistent (hrt : RoundTrip σ) {cv : ConfView σ} (h : Reachable cv) :
    Consistent cv := by
  induction h with
  | init thread prevWndProc => exact NewConfView_Consistent thread prevWndProc
  | step ord cv c _ ih => exact setConfiguration_Consistent hrt ord cv c ih

/-! ## The map after `setConfiguration` -/

theorem setConfiguration_peers (ord : MapOrders σ) (cv : ConfView σ) (c : Config σ) :
    (setConfiguration ord cv c).1.peers = (removalPhase ord cv c).cv.peers := by
  rw [setConfiguration_eq]
  exact resume_peers _

theorem setConfiguration_views (ord : MapOrders σ) (cv : ConfView σ) (c : Config σ) :
    (setConfiguration ord cv c).1.views = (peersPhase ord cv c).1.cv.views := by
  rw [setConfiguration_eq]
  simp only [resume_views]
  unfold removalPhase
  exact removeLoop_views _ _

/-- A key of the snapshot is mapped after the call to what the loop over the
peers mapped it to. -/
theorem setConfiguration_get_of_mem (hrt : RoundTrip σ) (ord : MapOrders σ) (cv : ConfView σ)
    (c : Config σ) (hc : Consistent cv) (k : σ.Key) (hk : k ∈ keysOf c.Peers) :
    mapGet (setConfiguration ord cv c).1.peers k = mapGet (peersPhase ord cv c).1.cv.peers k := by
  rw [setConfiguration_peers]
  unfold removalPhase
  apply removeLoop_get_kept
  intro pv hr
  exact ((Removes_iff hrt ord cv c hc pv k).1 hr).2 hk

/-- A key that is not in the snapshot is not mapped after the call. -/
theorem setConfiguration_get_of_not_mem (hrt : RoundTrip σ) (ord : MapOrders σ)
    (cv : ConfView σ) (c : Config σ) (hc : Consistent cv) (k : σ.Key)
    (hk : k ∉ keysOf c.Peers) : mapGet (setConfiguration ord cv c).1.peers k = none := by
  rw [setConfiguration_peers]
  cases h0 : mapGet cv.peers k with
  | some pv =>
    unfold removalPhase
    exact removeLoop_get_removed _ _ pv k ((Removes_iff hrt ord cv c hc pv k).2 ⟨h0, hk⟩)
  | none =>
    cases h1 : mapGet (removalPhase ord cv c).cv.peers k with
    | none => rfl
    | some pv =>
      unfold removalPhase at h1
      have h2 := removeLoop_get_some _ _ k pv h1
      unfold peersPhase at h2
      rcases peerLoop_get_cases _ _ k pv h2 with h3 | ⟨_, h3, _⟩
      · simp only [applyHeader_peers] at h3
        rw [h0] at h3
        exact Option.noConfusion h3
      · exact absurd h3 hk

/-- The key set of `cv.peers` after the call is the set of keys of the snapshot. -/
theorem setConfiguration_keys (hrt : RoundTrip σ) (ord : MapOrders σ) (cv : ConfView σ)
    (c : Config σ) (hc : Consistent cv) (k : σ.Key) :
    (∃ pv, mapGet (setConfiguration ord cv c).1.peers k = some pv) ↔ k ∈ keysOf c.Peers := by
  constructor
  · rintro ⟨pv, h⟩
    by_contra hk
    rw [setConfiguration_get_of_not_mem hrt ord cv c hc k hk] at h
    exact Option.noConfusion h
  · intro hk
    rw [setConfiguration_get_of_mem hrt ord cv c hc k hk]
    unfold peersPhase
    exact peerLoop_get_key _ _ k hk

/-- A key that was mapped and is in the snapshot stays mapped to the same
section. -/
theorem setConfiguration_get_old (hrt : RoundTrip σ) (ord : MapOrders σ) (cv : ConfView σ)
    (c : Config σ) (hc : Consistent cv) (k : σ.Key) (pv : Nat) (hk : k ∈ keysOf c.Peers)
    (h : mapGet cv.peers k = some pv) :
    mapGet (setConfiguration ord cv c).1.peers k = some pv := by
  rw [setConfiguration_get_of_mem hrt ord cv c hc k hk]
  unfold peersPhase
  exact peerLoop_get_some _ _ k pv (by simpa using h)

/-! ## The log of the loop over the peers -/

theorem peerStep_get_none (st : Run σ × List (Nat × Bool)) (p : Peer σ) (k : σ.Key)
    (h : mapGet (peerStep st p).1.cv.peers k = none) : mapGet st.1.cv.peers k = none := by
  cases hk : mapGet st.1.cv.peers k with
  | none => rfl
  | some q =>
    rw [peerStep_get_some st p k q hk] at h
    exact Option.noConfusion h

/-- The events the loop over the peers adds to the log: at most
`SetSuspended(true)` and, for a key of the list that was not mapped, the
creation of its group box and section and the map insertion. -/
theorem peerLoop_log (ps : List (Peer σ)) (st : Run σ × List (Nat × Bool)) (ev : Event σ)
    (h : ev ∈ (ps.foldl peerStep st).1.log) :
    ev ∈ st.1.log ∨ ev = Event.SetSuspended true ∨
      ∃ (k : σ.Key) (g : Nat), k ∈ keysOf ps ∧ mapGet st.1.cv.peers k = none ∧
        st.1.cv.nextId ≤ g ∧ mapGet (ps.foldl peerStep st).1.cv.peers k = some g ∧
        (ev = Event.newPaddedGroupGrid g ∨ ev = Event.SetTitle g "Peer" ∨
          ev = Event.newPeerView g ∨ ev = Event.insert k g) := by
  induction ps generalizing st with
  | nil => exact Or.inl h
  | cons p ps ih =>
    rw [List.foldl_cons] at h ⊢
    rcases ih _ h with h1 | h1 | ⟨k, g, hk, hnone, hle, hget, hev⟩
    · cases hp : mapGet st.1.cv.peers p.PublicKey with
      | some q =>
        rw [peerStep_found st p q hp] at h1
        exact Or.inl h1
      | none =>
        rw [peerStep_new st p hp, peerCreate_log, suspend_log] at h1
        have hfin : mapGet (ps.foldl peerStep (peerStep st p)).1.cv.peers p.PublicKey =
            some st.1.cv.nextId := by
          apply peerLoop_get_some
          rw [peerStep_new st p hp, peerCreate_peers, mapGet_mapSet, if_pos rfl]
        have hmem : p.PublicKey ∈ keysOf (p :: ps) := by simp [keysOf]
        simp only [List.mem_append, List.mem_cons, List.mem_singleton, List.not_mem_nil,
          or_false] at h1
        rcases h1 with h1 | h1 | h1 | h1 | h1
        · split_ifs at h1
          · exact Or.inl h1
          · rw [List.mem_append, List.mem_singleton] at h1
            rcases h1 with h1 | h1
            · exact Or.inl h1
            · exact Or.inr (Or.inl h1)
        · exact Or.inr (Or.inr ⟨_, _, hmem, hp, le_refl _, hfin, Or.inl h1⟩)
        · exact Or.inr (Or.inr ⟨_, _, hmem, hp, le_refl _, hfin, Or.inr (Or.inl h1)⟩)
        · exact Or.inr (Or.inr ⟨_, _, hmem, hp, le_refl _, hfin, Or.inr (Or.inr (Or.inl h1))⟩)
        · exact Or.inr (Or.inr ⟨_, _, hmem, hp, le_refl _, hfin, Or.inr (Or.inr (Or.inr h1))⟩)
    · exact Or.inr (Or.inl h1)
    · refine Or.inr (Or.inr ⟨k, g, ?_, peerStep_get_none st p k hnone,
        le_trans (peerStep_nextId_le st p) hle, hget, hev⟩)
      simp only [keysOf, List.map_cons, List.mem_cons] at hk ⊢
      exact Or.inr hk

/-- A key of the list that is not mapped switches the suspension on. -/
theorem peerLoop_new_hasSuspended (ps : List (Peer σ)) (st : Run σ × List (Nat × Bool))
    (k : σ.Key) (hk : k ∈ keysOf ps) (hnone : mapGet st.1.cv.peers k = none) :
    (ps.foldl peerStep st).1.hasSuspended = true := by
  induction ps generalizing st with
  | nil => simp [keysOf] at hk
  | cons p ps ih =>
    rw [List.foldl_cons]
    cases hp : mapGet st.1.cv.peers p.PublicKey with
    | none =>
      apply peerLoop_hasSuspended
      rw [peerStep_new st p hp]
      exact peerCreate_hasSuspended _ _ _
    | some q =>
      simp only [keysOf, List.map_cons, List.mem_cons] at hk
      rcases hk with rfl | hk
      · rw [hp] at hnone
        exact Option.noConfusion hnone
      · apply ih _ hk
        rw [peerStep_found st p q hp]
        exact hnone

/-- When every key of the list is mapped the loop changes nothing but the
states of sections. -/
theorem peerLoop_all_found (ps : List (Peer σ)) (st : Run σ × List (Nat × Bool))
    (h : ∀ k ∈ keysOf ps, ∃ pv, mapGet st.1.cv.peers k = some pv) :
    (ps.foldl peerStep st).1 =
      { st.1 with cv := { st.1.cv with views := (ps.foldl peerStep st).1.cv.views } } := by
  induction ps generalizing st with
  | nil => rfl
  | cons p ps ih =>
    rw [List.foldl_cons]
    obtain ⟨q, hq⟩ := h p.PublicKey (by simp [keysOf])
    have hstep : (peerStep st p).1 =
        { st.1 with cv := { st.1.cv with views := (peerStep st p).1.cv.views } } := by
      rw [peerStep_found st p q hq]
      rfl
    have := ih (peerStep st p) (by
      intro k hk
      obtain ⟨pv, hpv⟩ := h k (by simp only [keysOf, List.map_cons, List.mem_cons] at hk ⊢
                                  exact Or.inr hk)
      exact ⟨pv, peerStep_get_some st p k pv hpv⟩)
    rw [this]
    conv_lhs => rw [hstep]

/-! ## The log of `setConfiguration` -/

/-- Every event of a call from a consistent view is the title update of the
interface group box, a suspension call, part of the creation of a section for
a key of the snapshot that was not mapped, or part of the removal of a
section whose key was mapped and is not in the snapshot. -/
theorem setConfiguration_log (hrt : RoundTrip σ) (ord : MapOrders σ) (cv : ConfView σ)
    (c : Config σ) (hc : Consistent cv) (ev : Event σ)
    (h : ev ∈ (setConfiguration ord cv c).2) :
    ev = Event.SetTitle cv.name.id ("Interface: " ++ c.Name) ∨
    ev = Event.SetSuspended true ∨ ev = Event.SetSuspended false ∨
    (∃ (k : σ.Key) (g : Nat), k ∈ keysOf c.Peers ∧ mapGet cv.peers k = none ∧
      cv.nextId ≤ g ∧ mapGet (setConfiguration ord cv c).1.peers k = some g ∧
      (ev = Event.newPaddedGroupGrid g ∨ ev = Event.SetTitle g "Peer" ∨
        ev = Event.newPeerView g ∨ ev = Event.insert k g)) ∨
    (∃ (k : σ.Key) (pv : Nat), mapGet cv.peers k = some pv ∧ k ∉ keysOf c.Peers ∧
      (ev = Event.delete k ∨ ev = Event.Remove pv ∨ ev = Event.Dispose pv)) := by
  rw [setConfiguration_eq] at h
  simp only [resume_log] at h
  have hrem : ev ∈ (removalPhase ord cv c).log ∨ ev = Event.SetSuspended false := by
    split_ifs at h
    · rw [List.mem_append, List.mem_singleton] at h
      exact h
    · exact Or.inl h
  rcases hrem with hrem | hrem
  swap
  · exact Or.inr (Or.inr (Or.inl hrem))
  unfold removalPhase at hrem
  rcases removeLoop_log _ _ ev hrem with h1 | h1 | ⟨pv, k, hr, hev⟩
  · unfold peersPhase at h1
    rcases peerLoop_log _ _ ev h1 with h2 | h2 | ⟨k, g, hk, hnone, hle, hget, hev⟩
    · simp only [applyHeader_log] at h2
      split_ifs at h2
      · simp only [List.nil_append, List.mem_singleton] at h2
        exact Or.inl h2
      · simp at h2
    · exact Or.inr (Or.inl h2)
    · refine Or.inr (Or.inr (Or.inr (Or.inl ⟨k, g, hk, by simpa using hnone,
        by simpa using hle, ?_, hev⟩)))
      rw [setConfiguration_get_of_mem hrt ord cv c hc k hk]
      exact hget
  · exact Or.inr (Or.inl h1)
  · have hiff := (Removes_iff hrt ord cv c hc pv k).1 hr
    have hno : ∀ k' ∈ keysOf c.Peers, mapGet cv.peers k' ≠ some pv := by
      intro k' hk' hget
      exact hiff.2 (hc.injective hrt k' k pv hget hiff.1 ▸ hk')
    have hg : groupBoxOf ((peersPhase ord cv c).1.cv.views pv) = pv := by
      rw [peersPhase_views_stale ord cv c hc pv k hiff.1 hno]
      exact hc.parent k pv hiff.1
    rw [hg] at hev
    exact Or.inr (Or.inr (Or.inr (Or.inr ⟨k, pv, hiff.1, hiff.2, hev⟩)))

/-! ## Reconciliation -/

theorem setConfiguration_children (ord : MapOrders σ) (cv : ConfView σ) (c : Config σ) :
    (setConfiguration ord cv c).1.children = (removalPhase ord cv c).cv.children := by
  rw [setConfiguration_eq]
  exact resume_children _

theorem setConfiguration_disposed (ord : MapOrders σ) (cv : ConfView σ) (c : Config σ) :
    (setConfiguration ord cv c).1.disposed = (removalPhase ord cv c).cv.disposed := by
  rw [setConfiguration_eq]
  exact resume_disposed _

/-- After the call the section of a key of the snapshot is in the state
`apply` leaves for the last peer of the snapshot with that key. -/
theorem setConfiguration_last (hrt : RoundTrip σ) (ord : MapOrders σ) (cv : ConfView σ)
    (c : Config σ) (hc : Consistent cv) (k : σ.Key) (p : Peer σ)
    (h : lastWithKey c.Peers k = some p) :
    ∃ pv v0, mapGet (setConfiguration ord cv c).1.peers k = some pv ∧
      (setConfiguration ord cv c).1.views pv = peerView.apply σ v0 p := by
  have hk : k ∈ keysOf c.Peers := by
    obtain ⟨hp, hpk⟩ := lastWithKey_some c.Peers k p h
    exact List.mem_map.2 ⟨p, hp, hpk⟩
  have hc0 : Consistent (applyHeader { cv := cv, hasSuspended := false, log := [] } c).cv :=
    applyHeader_Consistent _ c hc
  obtain ⟨pv, v0, h1, h2⟩ := peerLoop_last hrt c.Peers
    (applyHeader { cv := cv, hasSuspended := false, log := [] } c,
      buildInverse (ord.peers
        (applyHeader { cv := cv, hasSuspended := false, log := [] } c).cv.peers)) hc0 k p h
  refine ⟨pv, v0, ?_, ?_⟩
  · rw [setConfiguration_get_of_mem hrt ord cv c hc k hk]
    exact h1
  · rw [setConfiguration_views]
    exact h2

/-- C1: from a reachable view, with a key codec that reads back what it
prints and a snapshot `S` whose peers have pairwise distinct keys: after
`setConfiguration(S)` a key is mapped in `cv.peers` exactly when it is a key of
`S`; the section of every peer `p` of `S` displays, row by row, what
`peerView.apply(p)` displays; a group box or section is created only for a
key of `S` that was not mapped before; a group box is disposed only for a
key that was mapped before and is not in `S`. -/
theorem setConfiguration_reconciles (σ : ConfSig) (ord : MapOrders σ) (cv : ConfView σ)
    (S : Config σ) (hrt : RoundTrip σ) (hreach : Reachable cv)
    (hnd : (keysOf S.Peers).Nodup) :
    (∀ k, (∃ pv, mapGet (setConfiguration ord cv S).1.peers k = some pv) ↔
      k ∈ keysOf S.Peers) ∧
    (∀ p ∈ S.Peers, ∃ pv, mapGet (setConfiguration ord cv S).1.peers p.PublicKey = some pv ∧
      ∀ v0 : peerView,
        ((setConfiguration ord cv S).1.views pv).display = (peerView.apply σ v0 p).display) ∧
    (∀ g, Event.newPaddedGroupGrid g ∈ (setConfiguration ord cv S).2 ∨
        Event.newPeerView g ∈ (setConfiguration ord cv S).2 →
      ∃ k ∈ keysOf S.Peers, mapGet cv.peers k = none ∧
        mapGet (setConfiguration ord cv S).1.peers k = some g) ∧
    (∀ g, Event.Dispose g ∈ (setConfiguration ord cv S).2 →
      ∃ k, mapGet cv.peers k = some g ∧ k ∉ keysOf S.Peers) := by
  have hc := hreach.consistent hrt
  refine ⟨setConfiguration_keys hrt ord cv S hc, ?_, ?_, ?_⟩
  · intro p hp
    obtain ⟨pv, v1, h1, h2⟩ := setConfiguration_last hrt ord cv S hc p.PublicKey p
      (lastWithKey_of_nodup S.Peers hnd p hp)
    refine ⟨pv, h1, fun v0 => ?_⟩
    rw [h2]
    exact peerView_apply_display v1 v0 p
  · intro g hg
    rcases hg with hg | hg
    · rcases setConfiguration_log hrt ord cv S hc _ hg with h | h | h | h | h
      · cases h
      · cases h
      · cases h
      · obtain ⟨k, g', hk, hnone, _, hget, hev⟩ := h
        rcases hev with hev | hev | hev | hev <;> cases hev
        exact ⟨k, hk, hnone, hget⟩
      · obtain ⟨k, pv, _, _, hev⟩ := h
        rcases hev with hev | hev | hev <;> cases hev
    · rcases setConfiguration_log hrt ord cv S hc _ hg with h | h | h | h | h
      · cases h
      · cases h
      · cases h
      · obtain ⟨k, g', hk, hnone, _, hget, hev⟩ := h
        rcases hev with hev | hev | hev | hev <;> cases hev
        exact ⟨k, hk, hnone, hget⟩
      · obtain ⟨k, pv, _, _, hev⟩ := h
        rcases hev with hev | hev | hev <;> cases hev
  · intro g hg
    rcases setConfiguration_log hrt ord cv S hc _ hg with h | h | h | h | h
    · cases h
    · cases h
    · cases h
    · obtain ⟨k, g', _, _, _, _, hev⟩ := h
      rcases hev with hev | hev | hev | hev <;> cases hev
    · obtain ⟨k, pv, hget, hk, hev⟩ := h
      rcases hev with hev | hev | hev <;> cases hev
      exact ⟨k, hget, hk⟩

/-- C2: from a reachable view, with a key codec that reads back what it
prints: a key `k` of `S1` that is no key of `S2` is mapped to a section after
`setConfiguration(S1)`, that section sits in its own group box, which is a
child of the scroll view; after `setConfiguration(S2)` the key is not mapped,
the group box is no child any more and it is disposed. -/
theorem setConfiguration_removes_stale (σ : ConfSig) (ord1 ord2 : MapOrders σ)
    (cv : ConfView σ) (S1 S2 : Config σ) (k : σ.Key) (hrt : RoundTrip σ)
    (hreach : Reachable cv) (hk1 : k ∈ keysOf S1.Peers) (hk2 : k ∉ keysOf S2.Peers) :
    mapGet (setConfiguration ord2 (setConfiguration ord1 cv S1).1 S2).1.peers k = none ∧
    ∃ pv, mapGet (setConfiguration ord1 cv S1).1.peers k = some pv ∧
      groupBoxOf ((setConfiguration ord1 cv S1).1.views pv) = pv ∧
      pv ∈ (setConfiguration ord1 cv S1).1.children ∧
      pv ∉ (setConfiguration ord2 (setConfiguration ord1 cv S1).1 S2).1.children ∧
      pv ∈ (setConfiguration ord2 (setConfiguration ord1 cv S1).1 S2).1.disposed := by
  have hc := hreach.consistent hrt
  have hc1 := setConfiguration_Consistent hrt ord1 cv S1 hc
  obtain ⟨pv, hpv⟩ := (setConfiguration_keys hrt ord1 cv S1 hc k).2 hk1
  refine ⟨setConfiguration_get_of_not_mem hrt ord2 _ S2 hc1 k hk2, pv, hpv,
    hc1.parent k pv hpv, hc1.child k pv hpv, ?_, ?_⟩
  · have hr := (Removes_iff hrt ord2 _ S2 hc1 pv k).2 ⟨hpv, hk2⟩
    have hno : ∀ k' ∈ keysOf S2.Peers,
        mapGet (setConfiguration ord1 cv S1).1.peers k' ≠ some pv := by
      intro k' hk' hget
      exact hk2 (hc1.injective hrt k' k pv hget hpv ▸ hk')
    have := removeLoop_children_removed _ _
      (peersPhase_Consistent hrt ord2 _ S2 hc1).children_nodup pv k hr
    have hg : groupBoxOf ((setConfiguration ord1 cv S1).1.views pv) = pv := hc1.parent k pv hpv
    rw [peersPhase_views_stale ord2 _ S2 hc1 pv k hpv hno, hg] at this
    rw [setConfiguration_children]
    exact this
  · have hr := (Removes_iff hrt ord2 _ S2 hc1 pv k).2 ⟨hpv, hk2⟩
    have hno : ∀ k' ∈ keysOf S2.Peers,
        mapGet (setConfiguration ord1 cv S1).1.peers k' ≠ some pv := by
      intro k' hk' hget
      exact hk2 (hc1.injective hrt k' k pv hget hpv ▸ hk')
    have := removeLoop_disposed_removed _ _ pv k hr
    have hg : groupBoxOf ((setConfiguration ord1 cv S1).1.views pv) = pv := hc1.parent k pv hpv
    rw [peersPhase_views_stale ord2 _ S2 hc1 pv k hpv hno, hg] at this
    rw [setConfiguration_disposed]
    exact this

/-- C3: from a reachable view, with a key codec that reads back what it
prints: a key `k` of both `S1` and `S2` is mapped after
`setConfiguration(S1); setConfiguration(S2)` to the section it was mapped to
after `setConfiguration(S1)`; the second call creates no group box and no
section of that number, inserts no entry for `k`, deletes no entry for `k`,
neither detaches nor disposes the group box, which still is a child. -/
theorem setConfiguration_keeps_instance (σ : ConfSig) (ord1 ord2 : MapOrders σ)
    (cv : ConfView σ) (S1 S2 : Config σ) (k : σ.Key) (hrt : RoundTrip σ)
    (hreach : Reachable cv) (hk1 : k ∈ keysOf S1.Peers) (hk2 : k ∈ keysOf S2.Peers) :
    ∃ pv, mapGet (setConfiguration ord1 cv S1).1.peers k = some pv ∧
      mapGet (setConfiguration ord2 (setConfiguration ord1 cv S1).1 S2).1.peers k = some pv ∧
      Event.newPaddedGroupGrid pv ∉ (setConfiguration ord2 (setConfiguration ord1 cv S1).1 S2).2 ∧
      Event.newPeerView pv ∉ (setConfiguration ord2 (setConfiguration ord1 cv S1).1 S2).2 ∧
      (∀ q, Event.insert k q ∉ (setConfiguration ord2 (setConfiguration ord1 cv S1).1 S2).2) ∧
      Event.delete k ∉ (setConfiguration ord2 (setConfiguration ord1 cv S1).1 S2).2 ∧
      Event.Remove pv ∉ (setConfiguration ord2 (setConfiguration ord1 cv S1).1 S2).2 ∧
      Event.Dispose pv ∉ (setConfiguration ord2 (setConfiguration ord1 cv S1).1 S2).2 ∧
      pv ∈ (setConfiguration ord2 (setConfiguration ord1 cv S1).1 S2).1.children := by
  have hc := hreach.consistent hrt
  have hc1 := setConfiguration_Consistent hrt ord1 cv S1 hc
  have hc2 := setConfiguration_Consistent hrt ord2 _ S2 hc1
  obtain ⟨pv, hpv⟩ := (setConfiguration_keys hrt ord1 cv S1 hc k).2 hk1
  have hpv2 := setConfiguration_get_old hrt ord2 _ S2 hc1 k pv hk2 hpv
  have hfresh := hc1.fresh k pv hpv
  refine ⟨pv, hpv, hpv2, ?_, ?_, ?_, ?_, ?_, ?_, hc2.child k pv hpv2⟩
  · intro hev
    rcases setConfiguration_log hrt ord2 _ S2 hc1 _ hev with h | h | h | h | h
    · cases h
    · cases h
    · cases h
    · obtain ⟨k', g, _, _, hle, _, h⟩ := h
      rcases h with h | h | h | h <;> cases h
      omega
    · obtain ⟨k', q, _, _, h⟩ := h
      rcases h with h | h | h <;> cases h
  · intro hev
    rcases setConfiguration_log hrt ord2 _ S2 hc1 _ hev with h | h | h | h | h
    · cases h
    · cases h
    · cases h
    · obtain ⟨k', g, _, _, hle, _, h⟩ := h
      rcases h with h | h | h | h <;> cases h
      omega
    · obtain ⟨k', q, _, _, h⟩ := h
      rcases h with h | h | h <;> cases h
  · intro q hev
    rcases setConfiguration_log hrt ord2 _ S2 hc1 _ hev with h | h | h | h | h
    · cases h
    · cases h
    · cases h
    · obtain ⟨k', g, _, hnone, _, _, h⟩ := h
      rcases h with h | h | h | h <;> cases h
      rw [hpv] at hnone
      exact Option.noConfusion hnone
    · obtain ⟨k', q, _, _, h⟩ := h
      rcases h with h | h | h <;> cases h
  · intro hev
    rcases setConfiguration_log hrt ord2 _ S2 hc1 _ hev with h | h | h | h | h
    · cases h
    · cases h
    · cases h
    · obtain ⟨k', g, _, _, _, _, h⟩ := h
      rcases h with h | h | h | h <;> cases h
    · obtain ⟨k', q, _, hnot, h⟩ := h
      rcases h with h | h | h <;> cases h
      exact hnot hk2
  · intro hev
    rcases setConfiguration_log hrt ord2 _ S2 hc1 _ hev with h | h | h | h | h
    · cases h
    · cases h
    · cases h
    · obtain ⟨k', g, _, _, _, _, h⟩ := h
      rcases h with h | h | h | h <;> cases h
    · obtain ⟨k', q, hget, hnot, h⟩ := h
      rcases h with h | h | h <;> cases h
      exact hnot (hc1.injective hrt k k' pv hpv hget ▸ hk2)
  · intro hev
    rcases setConfiguration_log hrt ord2 _ S2 hc1 _ hev with h | h | h | h | h
    · cases h
    · cases h
    · cases h
    · obtain ⟨k', g, _, _, _, _, h⟩ := h
      rcases h with h | h | h | h <;> cases h
    · obtain ⟨k', q, hget, hnot, h⟩ := h
      rcases h with h | h | h <;> cases h
      exact hnot (hc1.injective hrt k k' pv hpv hget ▸ hk2)

theorem textSig_RoundTrip : RoundTrip textSig := fun _ => rfl

theorem textViewABC_Reachable : Reachable textViewABC :=
  Reachable.step _ _ _ (Reachable.init 1 _)

/-- C1, witness: the view after the snapshot with peers A, B, C receives the
snapshot with peers B, C, D. -/
theorem setConfiguration_reconciles_witness :
    (∀ k, (∃ pv, mapGet
        (setConfiguration (MapOrders.reversed textSig) textViewABC snapshotBCD).1.peers k =
          some pv) ↔ k ∈ keysOf snapshotBCD.Peers) ∧
    (∀ p ∈ snapshotBCD.Peers, ∃ pv,
      mapGet (setConfiguration (MapOrders.reversed textSig) textViewABC snapshotBCD).1.peers
        p.PublicKey = some pv ∧
      ∀ v0 : peerView,
        ((setConfiguration (MapOrders.reversed textSig) textViewABC snapshotBCD).1.views
          pv).display = (peerView.apply textSig v0 p).display) ∧
    (∀ g, Event.newPaddedGroupGrid g ∈
          (setConfiguration (MapOrders.reversed textSig) textViewABC snapshotBCD).2 ∨
        Event.newPeerView g ∈
          (setConfiguration (MapOrders.reversed textSig) textViewABC snapshotBCD).2 →
      ∃ k ∈ keysOf snapshotBCD.Peers, mapGet textViewABC.peers k = none ∧
        mapGet (setConfiguration (MapOrders.reversed textSig) textViewABC snapshotBCD).1.peers
          k = some g) ∧
    (∀ g, Event.Dispose g ∈
        (setConfiguration (MapOrders.reversed textSig) textViewABC snapshotBCD).2 →
      ∃ k, mapGet textViewABC.peers k = some g ∧ k ∉ keysOf snapshotBCD.Peers) :=
  setConfiguration_reconciles textSig (MapOrders.reversed textSig) textViewABC snapshotBCD
    textSig_RoundTrip textViewABC_Reachable (by decide)

/-- C1, worked example: the map after the two snapshots. -/
theorem setConfiguration_reconciles_example :
    (setConfiguration (MapOrders.reversed textSig) textViewABC snapshotBCD).1.peers =
      [("B", 2), ("C", 3), ("D", 4)] := by
  decide

/-- C2, witness: key "A" is in the first snapshot and not in the second. -/
theorem setConfiguration_removes_stale_witness :
    mapGet (setConfiguration (MapOrders.reversed textSig)
      (setConfiguration (MapOrders.stored textSig) textView snapshotABC).1 snapshotBCD).1.peers
        "A" = none ∧
    ∃ pv, mapGet (setConfiguration (MapOrders.stored textSig) textView snapshotABC).1.peers
        "A" = some pv ∧
      groupBoxOf ((setConfiguration (MapOrders.stored textSig) textView snapshotABC).1.views pv)
        = pv ∧
      pv ∈ (setConfiguration (MapOrders.stored textSig) textView snapshotABC).1.children ∧
      pv ∉ (setConfiguration (MapOrders.reversed textSig)
        (setConfiguration (MapOrders.stored textSig) textView snapshotABC).1
          snapshotBCD).1.children ∧
      pv ∈ (setConfiguration (MapOrders.reversed textSig)
        (setConfiguration (MapOrders.stored textSig) textView snapshotABC).1
          snapshotBCD).1.disposed :=
  setConfiguration_removes_stale textSig (MapOrders.stored textSig)
    (MapOrders.reversed textSig) textView snapshotABC snapshotBCD "A" textSig_RoundTrip
    (Reachable.init 1 _) (by decide) (by decide)

/-- C2, worked example: children and disposed boxes after the two snapshots. -/
theorem setConfiguration_removes_stale_example :
    (setConfiguration (MapOrders.reversed textSig) textViewABC snapshotBCD).1.children =
      [0, 2, 3, 4] ∧
    (setConfiguration (MapOrders.reversed textSig) textViewABC snapshotBCD).1.disposed = [1] := by
  decide

/-- C3, witness: key "B" is in both snapshots. -/
theorem setConfiguration_keeps_instance_witness :
    ∃ pv, mapGet (setConfiguration (MapOrders.stored textSig) textView snapshotABC).1.peers
        "B" = some pv ∧
      mapGet (setConfiguration (MapOrders.reversed textSig)
        (setConfiguration (MapOrders.stored textSig) textView snapshotABC).1
          snapshotBCD).1.peers "B" = some pv ∧
      Event.newPaddedGroupGrid pv ∉ (setConfiguration (MapOrders.reversed textSig)
        (setConfiguration (MapOrders.stored textSig) textView snapshotABC).1 snapshotBCD).2 ∧
      Event.newPeerView pv ∉ (setConfiguration (MapOrders.reversed textSig)
        (setConfiguration (MapOrders.stored textSig) textView snapshotABC).1 snapshotBCD).2 ∧
      (∀ q, Event.insert "B" q ∉ (setConfiguration (MapOrders.reversed textSig)
        (setConfiguration (MapOrders.stored textSig) textView snapshotABC).1 snapshotBCD).2) ∧
      Event.delete "B" ∉ (setConfiguration (MapOrders.reversed textSig)
        (setConfiguration (MapOrders.stored textSig) textView snapshotABC).1 snapshotBCD).2 ∧
      Event.Remove pv ∉ (setConfiguration (MapOrders.reversed textSig)
        (setConfiguration (MapOrders.stored textSig) textView snapshotABC).1 snapshotBCD).2 ∧
      Event.Dispose pv ∉ (setConfiguration (MapOrders.reversed textSig)
        (setConfiguration (MapOrders.stored textSig) textView snapshotABC).1 snapshotBCD).2 ∧
      pv ∈ (setConfiguration (MapOrders.reversed textSig)
        (setConfiguration (MapOrders.stored textSig) textView snapshotABC).1
          snapshotBCD).1.children :=
  setConfiguration_keeps_instance textSig (MapOrders.stored textSig)
    (MapOrders.reversed textSig) textView snapshotABC snapshotBCD "B" textSig_RoundTrip
    (Reachable.init 1 _) (by decide) (by decide)

/-! ## Title and interface section after `setConfiguration` -/

theorem peerStep_name (st : Run σ × List (Nat × Bool)) (p : Peer σ) :
    (peerStep st p).1.cv.name = st.1.cv.name ∧
      (peerStep st p).1.cv.interfaze = st.1.cv.interfaze := by
  cases hp : mapGet st.1.cv.peers p.PublicKey with
  | some q => rw [peerStep_found st p q hp]; exact ⟨rfl, rfl⟩
  | none => rw [peerStep_new st p hp]; simp [peerCreate]

theorem peerLoop_name (ps : List (Peer σ)) (st : Run σ × List (Nat × Bool)) :
    (ps.foldl peerStep st).1.cv.name = st.1.cv.name ∧
      (ps.foldl peerStep st).1.cv.interfaze = st.1.cv.interfaze := by
  induction ps generalizing st with
  | nil => exact ⟨rfl, rfl⟩
  | cons p ps ih =>
    rw [List.foldl_cons, (ih _).1, (ih _).2]
    exact peerStep_name st p

theorem removeStep_name (r : Run σ) (e : Nat × Bool) :
    (removeStep r e).cv.name = r.cv.name ∧ (removeStep r e).cv.interfaze = r.cv.interfaze := by
  rcases removeStep_cases r e with ⟨h, _⟩ | ⟨k, _, _, h⟩
  · rw [h]; exact ⟨rfl, rfl⟩
  · rw [h]; simp [removeSection]

theorem removeLoop_name (es : List (Nat × Bool)) (r : Run σ) :
    (es.foldl removeStep r).cv.name = r.cv.name ∧
      (es.foldl removeStep r).cv.interfaze = r.cv.interfaze := by
  induction es generalizing r with
  | nil => exact ⟨rfl, rfl⟩
  | cons e es ih =>
    rw [List.foldl_cons, (ih _).1, (ih _).2]
    exact removeStep_name r e

theorem setConfiguration_name (ord : MapOrders σ) (cv : ConfView σ) (c : Config σ) :
    (setConfiguration ord cv c).1.name =
      (applyHeader { cv := cv, hasSuspended := false, log := [] } c).cv.name := by
  rw [setConfiguration_eq]
  simp only [resume_name]
  unfold removalPhase
  rw [(removeLoop_name _ _).1]
  unfold peersPhase
  exact (peerLoop_name _ _).1

theorem setConfiguration_title (ord : MapOrders σ) (cv : ConfView σ) (c : Config σ) :
    (setConfiguration ord cv c).1.name.title = "Interface: " ++ c.Name := by
  rw [setConfiguration_name]
  exact applyHeader_title _ c

theorem setConfiguration_interfaze (ord : MapOrders σ) (cv : ConfView σ) (c : Config σ) :
    (setConfiguration ord cv c).1.interfaze = cv.interfaze.apply σ c.Interface := by
  rw [setConfiguration_eq]
  simp only [resume_interfaze]
  unfold removalPhase
  rw [(removeLoop_name _ _).2]
  unfold peersPhase
  rw [(peerLoop_name _ _).2]
  exact applyHeader_interfaze _ c

/-! ## A second call with the same snapshot -/

theorem applyHeader_same_title (r : Run σ) (c : Config σ)
    (h : r.cv.name.title = "Interface: " ++ c.Name) :
    applyHeader r c =
      { r with cv := { r.cv with interfaze := r.cv.interfaze.apply σ c.Interface } } := by
  simp only [applyHeader]
  rw [if_neg (by simpa using h)]

theorem resume_not_suspended (r : Run σ) (h : r.hasSuspended = false) : r.resume = r := by
  unfold Run.resume
  rw [h]
  rfl

/-- When every key of the list is mapped, a section that no key of the list
is mapped to keeps its state. -/
theorem peerLoop_views_frame_found (ps : List (Peer σ)) (st : Run σ × List (Nat × Bool))
    (pv : Nat) (hall : ∀ k ∈ keysOf ps, ∃ q, mapGet st.1.cv.peers k = some q)
    (hno : ∀ k ∈ keysOf ps, mapGet st.1.cv.peers k ≠ some pv) :
    (ps.foldl peerStep st).1.cv.views pv = st.1.cv.views pv := by
  induction ps generalizing st with
  | nil => rfl
  | cons p ps ih =>
    rw [List.foldl_cons]
    obtain ⟨q, hq⟩ := hall p.PublicKey (by simp [keysOf])
    have hne : pv ≠ q := by
      rintro rfl
      exact hno _ (by simp [keysOf]) hq
    have hsub : ∀ k ∈ keysOf ps, k ∈ keysOf (p :: ps) := by
      intro k hk
      simp only [keysOf, List.map_cons, List.mem_cons] at hk ⊢
      exact Or.inr hk
    rw [ih (peerStep st p)]
    · rw [peerStep_found st p q hq, peerUpdate_views, if_neg hne]
    · intro k hk
      obtain ⟨q', hq'⟩ := hall k (hsub k hk)
      exact ⟨q', peerStep_get_some st p k q' hq'⟩
    · intro k hk
      rw [peerStep_found st p q hq]
      exact hno k (hsub k hk)

/-- C4: from a reachable view, with a key codec that reads back what it
prints: a second `setConfiguration(S)` right after `setConfiguration(S)`
performs no logged call at all (no section created or disposed, no
`SetSuspended`, no `SetTitle`) and leaves `cv.peers`, the children, the
disposed boxes, the suspension flag, the title, what every interface row
displays and what every peer row displays as they were after the first call. -/
theorem setConfiguration_idempotent (σ : ConfSig) (ord1 ord2 : MapOrders σ) (cv : ConfView σ)
    (S : Config σ) (hrt : RoundTrip σ) (hreach : Reachable cv) :
    (setConfiguration ord2 (setConfiguration ord1 cv S).1 S).2 = [] ∧
    (setConfiguration ord2 (setConfiguration ord1 cv S).1 S).1.peers =
      (setConfiguration ord1 cv S).1.peers ∧
    (setConfiguration ord2 (setConfiguration ord1 cv S).1 S).1.children =
      (setConfiguration ord1 cv S).1.children ∧
    (setConfiguration ord2 (setConfiguration ord1 cv S).1 S).1.disposed =
      (setConfiguration ord1 cv S).1.disposed ∧
    (setConfiguration ord2 (setConfiguration ord1 cv S).1 S).1.suspended =
      (setConfiguration ord1 cv S).1.suspended ∧
    (setConfiguration ord2 (setConfiguration ord1 cv S).1 S).1.name =
      (setConfiguration ord1 cv S).1.name ∧
    (setConfiguration ord2 (setConfiguration ord1 cv S).1 S).1.interfaze.display =
      (setConfiguration ord1 cv S).1.interfaze.display ∧
    (∀ pv, ((setConfiguration ord2 (setConfiguration ord1 cv S).1 S).1.views pv).display =
      ((setConfiguration ord1 cv S).1.views pv).display) := by
  have hc := hreach.consistent hrt
  have hc1 := setConfiguration_Consistent hrt ord1 cv S hc
  have hkeys := setConfiguration_keys hrt ord1 cv S hc
  generalize hcv1 : (setConfiguration ord1 cv S).1 = cv1 at hc1 hkeys ⊢
  have htitle : cv1.name.title = "Interface: " ++ S.Name := by
    rw [← hcv1]; exact setConfiguration_title ord1 cv S
  have hhead := applyHeader_same_title { cv := cv1, hasSuspended := false, log := [] } S htitle
  have hall : ∀ k ∈ keysOf S.Peers, ∃ q,
      mapGet (applyHeader { cv := cv1, hasSuspended := false, log := [] } S).cv.peers k =
        some q := by
    intro k hk
    simpa using (hkeys k).2 hk
  have hpeers := peerLoop_all_found S.Peers
    (applyHeader { cv := cv1, hasSuspended := false, log := [] } S,
      buildInverse (ord2.peers
        (applyHeader { cv := cv1, hasSuspended := false, log := [] } S).cv.peers)) hall
  have hnoop : removalPhase ord2 cv1 S = (peersPhase ord2 cv1 S).1 := by
    unfold removalPhase
    apply removeLoop_noop
    intro pv k hr
    have := (Removes_iff hrt ord2 cv1 S hc1 pv k).1 hr
    exact this.2 ((hkeys k).1 ⟨pv, this.1⟩)
  have hphase : (peersPhase ord2 cv1 S).1 =
      { cv := { cv1 with interfaze := cv1.interfaze.apply σ S.Interface
                         views := (peersPhase ord2 cv1 S).1.cv.views }
        hasSuspended := false
        log := [] } := by
    unfold peersPhase
    simp only []
    rw [hpeers, hhead]
  have hres : (removalPhase ord2 cv1 S).resume = (peersPhase ord2 cv1 S).1 := by
    rw [hnoop]
    apply resume_not_suspended
    rw [hphase]
  have hviews : ∀ pv, ((peersPhase ord2 cv1 S).1.cv.views pv).display =
      (cv1.views pv).display := by
    intro pv
    by_cases hex : ∃ k ∈ keysOf S.Peers, mapGet cv1.peers k = some pv
    · obtain ⟨k, hk, hget⟩ := hex
      cases hl : lastWithKey S.Peers k with
      | none => exact absurd hk (lastWithKey_none S.Peers k hl)
      | some p =>
        obtain ⟨pv1, v1, h1, h1'⟩ := setConfiguration_last hrt ord1 cv S hc k p hl
        rw [hcv1] at h1 h1'
        obtain ⟨pv2, v2, h2, h2'⟩ := setConfiguration_last hrt ord2 cv1 S hc1 k p hl
        rw [setConfiguration_views] at h2'
        rw [setConfiguration_get_old hrt ord2 cv1 S hc1 k pv hk hget] at h2
        rw [hget] at h1
        have e1 : pv1 = pv := (Option.some.inj h1).symm
        have e2 : pv2 = pv := (Option.some.inj h2).symm
        subst e1
        subst e2
        rw [h1', h2']
        exact peerView_apply_display v2 v1 p
    · have hno : ∀ k ∈ keysOf S.Peers, mapGet cv1.peers k ≠ some pv :=
        fun k hk hget => hex ⟨k, hk, hget⟩
      unfold peersPhase
      simp only []
      rw [peerLoop_views_frame_found S.Peers _ pv hall (by simpa using hno)]
      simp
  have hcv2 : (setConfiguration ord2 cv1 S).1 = (peersPhase ord2 cv1 S).1.cv := by
    rw [setConfiguration_eq, hres]
  have hlog2 : (setConfiguration ord2 cv1 S).2 = (peersPhase ord2 cv1 S).1.log := by
    rw [setConfiguration_eq, hres]
  refine ⟨?_, ?_, ?_, ?_, ?_, ?_, ?_, ?_⟩
  · rw [hlog2, hphase]
  · rw [hcv2, hphase]
  · rw [hcv2, hphase]
  · rw [hcv2, hphase]
  · rw [hcv2, hphase]
  · rw [hcv2, hphase]
  · rw [hcv2, hphase]
    simp only []
    rw [← hcv1, setConfiguration_interfaze]
    exact interfaceView_apply_display _ _ _
  · intro pv
    rw [hcv2]
    exact hviews pv

/-- C4, witness: the snapshot with peers B, C, D is applied twice to the view
that showed peers A, B, C. -/
theorem setConfiguration_idempotent_witness :
    (setConfiguration (MapOrders.stored textSig)
      (setConfiguration (MapOrders.reversed textSig) textViewABC snapshotBCD).1 snapshotBCD).2 =
        [] ∧
    (setConfiguration (MapOrders.stored textSig)
      (setConfiguration (MapOrders.reversed textSig) textViewABC snapshotBCD).1
        snapshotBCD).1.peers =
      (setConfiguration (MapOrders.reversed textSig) textViewABC snapshotBCD).1.peers ∧
    (setConfiguration (MapOrders.stored textSig)
      (setConfiguration (MapOrders.reversed textSig) textViewABC snapshotBCD).1
        snapshotBCD).1.children =
      (setConfiguration (MapOrders.reversed textSig) textViewABC snapshotBCD).1.children ∧
    (setConfiguration (MapOrders.stored textSig)
      (setConfiguration (MapOrders.reversed textSig) textViewABC snapshotBCD).1
        snapshotBCD).1.disposed =
      (setConfiguration (MapOrders.reversed textSig) textViewABC snapshotBCD).1.disposed ∧
    (setConfiguration (MapOrders.stored textSig)
      (setConfiguration (MapOrders.reversed textSig) textViewABC snapshotBCD).1
        snapshotBCD).1.suspended =
      (setConfiguration (MapOrders.reversed textSig) textViewABC snapshotBCD).1.suspended ∧
    (setConfiguration (MapOrders.stored textSig)
      (setConfiguration (MapOrders.reversed textSig) textViewABC snapshotBCD).1
        snapshotBCD).1.name =
      (setConfiguration (MapOrders.reversed textSig) textViewABC snapshotBCD).1.name ∧
    (setConfiguration (MapOrders.stored textSig)
      (setConfiguration (MapOrders.reversed textSig) textViewABC snapshotBCD).1
        snapshotBCD).1.interfaze.display =
      (setConfiguration (MapOrders.reversed textSig) textViewABC snapshotBCD).1.interfaze.display ∧
    (∀ pv, ((setConfiguration (MapOrders.stored textSig)
      (setConfiguration (MapOrders.reversed textSig) textViewABC snapshotBCD).1
        snapshotBCD).1.views pv).display =
      ((setConfiguration (MapOrders.reversed textSig) textViewABC snapshotBCD).1.views
        pv).display) :=
  setConfiguration_idempotent textSig (MapOrders.reversed textSig) (MapOrders.stored textSig)
    textViewABC snapshotBCD textSig_RoundTrip textViewABC_Reachable

/-! ## Suspension -/

theorem removalPhase_LogOK (ord : MapOrders σ) (cv : ConfView σ) (c : Config σ) :
    (removalPhase ord cv c).LogOK := by
  unfold removalPhase
  apply removeLoop_LogOK
  unfold peersPhase
  apply peerLoop_LogOK
  exact applyHeader_LogOK cv c

/-- A key mapped after the call was mapped before or is a key of the snapshot. -/
theorem setConfiguration_get_cases (ord : MapOrders σ) (cv : ConfView σ) (c : Config σ)
    (k : σ.Key) (pv : Nat) (h : mapGet (setConfiguration ord cv c).1.peers k = some pv) :
    mapGet cv.peers k = some pv ∨ k ∈ keysOf c.Peers := by
  rw [setConfiguration_peers] at h
  unfold removalPhase at h
  have h2 := removeLoop_get_some _ _ k pv h
  unfold peersPhase at h2
  rcases peerLoop_get_cases _ _ k pv h2 with h3 | ⟨_, h3, _⟩
  · exact Or.inl (by simpa using h3)
  · exact Or.inr h3

/-- A key of the snapshot that is not mapped makes the call suspend once. -/
theorem setConfiguration_new_suspends (ord : MapOrders σ) (cv : ConfView σ) (c : Config σ)
    (k : σ.Key) (hk : k ∈ keysOf c.Peers) (hnone : mapGet cv.peers k = none) :
    (setConfiguration ord cv c).2.countP Event.isSuspend = 1 ∧
      (setConfiguration ord cv c).2.countP Event.isResume = 1 := by
  have hs : (removalPhase ord cv c).hasSuspended = true := by
    unfold removalPhase
    apply removeLoop_hasSuspended
    unfold peersPhase
    exact peerLoop_new_hasSuspended _ _ k hk (by simpa using hnone)
  have hcount := resume_counts _ (removalPhase_LogOK ord cv c)
  rw [setConfiguration_eq]
  simp only []
  have h1 : List.countP Event.isSuspend (removalPhase ord cv c).resume.log = 1 := by
    rw [hcount.2.2.2, hs]
    rfl
  exact ⟨h1, (hcount.2.1 h1).1⟩

/-- C5: within one `setConfiguration` call `SetSuspended(true)` is logged at
most once; when it is logged, `SetSuspended(false)` is logged exactly once and
is the last entry of the log; when it is not logged, `SetSuspended(false)` is
not logged either. For a new view that receives peers a, b, c and then peers
with the keys of b and c and a further peer d whose key is none of the three,
the second call logs each of the two exactly once; the same holds from every
reachable view when the key codec reads back what it prints. -/
theorem setConfiguration_suspends_once (σ : ConfSig) (ord : MapOrders σ) (cv : ConfView σ)
    (S : Config σ) :
    (setConfiguration ord cv S).2.countP Event.isSuspend ≤ 1 ∧
    ((setConfiguration ord cv S).2.countP Event.isSuspend = 1 →
      (setConfiguration ord cv S).2.countP Event.isResume = 1 ∧
      (setConfiguration ord cv S).2.getLast? = some (Event.SetSuspended false)) ∧
    ((setConfiguration ord cv S).2.countP Event.isSuspend = 0 →
      (setConfiguration ord cv S).2.countP Event.isResume = 0) ∧
    (∀ (ord1 ord2 : MapOrders σ) (thread : Nat) (prevWndProc : Nat → Nat → Nat → Nat)
      (S1 S2 : Config σ) (a b c b' c' d : Peer σ),
      S1.Peers = [a, b, c] → S2.Peers = [b', c', d] →
      b'.PublicKey = b.PublicKey → c'.PublicKey = c.PublicKey →
      (keysOf [a, b, c, d]).Nodup →
      (setConfiguration ord2
        (setConfiguration ord1 (NewConfView σ thread prevWndProc) S1).1 S2).2.countP
          Event.isSuspend = 1 ∧
      (setConfiguration ord2
        (setConfiguration ord1 (NewConfView σ thread prevWndProc) S1).1 S2).2.countP
          Event.isResume = 1) ∧
    (∀ (ord1 ord2 : MapOrders σ) (cv0 : ConfView σ) (S1 S2 : Config σ)
      (a b c b' c' d : Peer σ),
      RoundTrip σ → Reachable cv0 →
      S1.Peers = [a, b, c] → S2.Peers = [b', c', d] →
      b'.PublicKey = b.PublicKey → c'.PublicKey = c.PublicKey →
      (keysOf [a, b, c, d]).Nodup →
      (setConfiguration ord2 (setConfiguration ord1 cv0 S1).1 S2).2.countP
          Event.isSuspend = 1 ∧
      (setConfiguration ord2 (setConfiguration ord1 cv0 S1).1 S2).2.countP
          Event.isResume = 1) := by
  have hcount := resume_counts _ (removalPhase_LogOK ord cv S)
  refine ⟨?_, ?_, ?_, ?_, ?_⟩
  · rw [setConfiguration_eq]; exact hcount.1
  · rw [setConfiguration_eq]; exact hcount.2.1
  · rw [setConfiguration_eq]; exact hcount.2.2.1
  · intro ord1 ord2 thread prevWndProc S1 S2 a b c b' c' d h1 h2 _ _ hnd
    apply setConfiguration_new_suspends ord2 _ S2 d.PublicKey
    · rw [h2]; simp [keysOf]
    · cases hget : mapGet (setConfiguration ord1 (NewConfView σ thread prevWndProc) S1).1.peers
          d.PublicKey with
      | none => rfl
      | some pv =>
        rcases setConfiguration_get_cases ord1 _ S1 _ pv hget with h | h
        · simp [NewConfView, mapGet] at h
        · rw [h1] at h
          simp only [keysOf, List.map_cons, List.map_nil, List.nodup_cons, List.mem_cons,
            List.mem_singleton, List.not_mem_nil, or_false, not_or] at hnd h
          rcases h with h | h | h
          · exact absurd h.symm hnd.1.2.2
          · exact absurd h.symm hnd.2.1.2
          · exact absurd h.symm hnd.2.2.1
  · intro ord1 ord2 cv0 S1 S2 a b c b' c' d hrt hreach h1 h2 _ _ hnd
    apply setConfiguration_new_suspends ord2 _ S2 d.PublicKey
    · rw [h2]; simp [keysOf]
    · apply setConfiguration_get_of_not_mem hrt ord1 cv0 S1 (hreach.consistent hrt)
      rw [h1]
      simp only [keysOf, List.map_cons, List.map_nil, List.nodup_cons, List.mem_cons,
        List.mem_singleton, List.not_mem_nil, or_false, not_or] at hnd ⊢
      exact ⟨fun h => hnd.1.2.2 h.symm, fun h => hnd.2.1.2 h.symm, fun h => hnd.2.2.1 h.symm⟩

/-- C5, worked example: the log of the call with peers B, C, D on the view
that showed peers A, B, C. -/
theorem setConfiguration_suspends_once_example :
    (setConfiguration (MapOrders.reversed textSig) textViewABC snapshotBCD).2 =
      [Event.SetSuspended true, Event.newPaddedGroupGrid 4, Event.SetTitle 4 "Peer",
       Event.newPeerView 4, Event.insert "D" 4, Event.delete "A", Event.Remove 1,
       Event.Dispose 1, Event.SetSuspended false] := by
  rfl

/-! ## Thread dispatch -/

/-- On the creating thread the call is one stretch: the caller runs
`setConfiguration(c)`. -/
theorem SetConfigurationStretches_same (ord : MapOrders σ) (mem : Nat → Config σ)
    (cv : ConfView σ) (thread : Nat) (c : Nat) (h : thread = cv.creatingThread) :
    SetConfigurationStretches ord mem cv thread c =
      [{ thread := thread
         code := Code.setConfiguration c
         before := cv
         after := (setConfiguration ord cv (mem c)).1
         log := (setConfiguration ord cv (mem c)).2 }] := by
  unfold SetConfigurationStretches
  rw [if_pos h.symm]

/-- On another thread the call is two stretches: the caller sends the message,
the creating thread runs the window procedure. -/
theorem SetConfigurationStretches_other (ord : MapOrders σ) (mem : Nat → Config σ)
    (cv : ConfView σ) (thread : Nat) (c : Nat) (h : thread ≠ cv.creatingThread) :
    SetConfigurationStretches ord mem cv thread c =
      [{ thread := thread
         code := Code.SendMessage crossThreadUpdate c 0
         before := cv
         after := cv
         log := [Event.SendMessage crossThreadUpdate c 0] },
       { thread := cv.creatingThread
         code := Code.crossThreadMessageHijack crossThreadUpdate c 0
         before := cv
         after := (setConfiguration ord cv (mem c)).1
         log := (setConfiguration ord cv (mem c)).2 }] := by
  unfold SetConfigurationStretches
  rw [if_neg (fun h' => h h'.symm)]
  simp only [ConfView.SendMessage, crossThreadMessageHijack, if_true]

theorem SetConfiguration_same (ord : MapOrders σ) (mem : Nat → Config σ)
    (cv : ConfView σ) (thread : Nat) (c : Nat) (h : thread = cv.creatingThread) :
    SetConfiguration ord mem cv thread c =
      ((setConfiguration ord cv (mem c)).1,
        (setConfiguration ord cv (mem c)).2.map (fun e => (thread, e))) := by
  unfold SetConfiguration
  simp only [SetConfigurationStretches_same ord mem cv thread c h]
  simp [finalView, Stretch.tagged]

theorem SetConfiguration_other (ord : MapOrders σ) (mem : Nat → Config σ)
    (cv : ConfView σ) (thread : Nat) (c : Nat) (h : thread ≠ cv.creatingThread) :
    SetConfiguration ord mem cv thread c =
      ((setConfiguration ord cv (mem c)).1,
        (thread, Event.SendMessage crossThreadUpdate c 0) ::
          (setConfiguration ord cv (mem c)).2.map (fun e => (cv.creatingThread, e))) := by
  unfold SetConfiguration
  simp only [SetConfigurationStretches_other ord mem cv thread c h]
  simp [finalView, Stretch.tagged]

/-- C10, counterexample: `SetConfiguration` called on thread 2 for a view
created on thread 1 does not return before thread 1 has set the title. -/
theorem FireAndForget_fails :
    ¬ FireAndForget (MapOrders.stored textSig) (fun _ => textConfig "wg0" []) textView 2 77 := by
  intro h
  exact h (by decide) (1, Event.SetTitle 0 "Interface: wg0")
    (List.Mem.tail _ (List.Mem.head _)) rfl

/-- C10, amended: `SetConfiguration(c)` called on a thread other than the
creating one sends one `SendMessage(crossThreadUpdate, c, 0)` and returns when
the window procedure has run `setConfiguration(c)` on the creating thread:
the view it returns with is the view after `setConfiguration(c)`, and the log
is the message followed by the calls of `setConfiguration(c)`, each performed
by the creating thread. -/
theorem SetConfiguration_waits (σ : ConfSig) (ord : MapOrders σ) (mem : Nat → Config σ)
    (cv : ConfView σ) (thread : Nat) (c : Nat) (h : thread ≠ cv.creatingThread) :
    SetConfiguration ord mem cv thread c =
      ((setConfiguration ord cv (mem c)).1,
        (thread, Event.SendMessage crossThreadUpdate c 0) ::
          (setConfiguration ord cv (mem c)).2.map (fun e => (cv.creatingThread, e))) :=
  SetConfiguration_other ord mem cv thread c h

/-- C10, witness: thread 2 calls `SetConfiguration` for a view of thread 1. -/
theorem SetConfiguration_waits_witness :
    SetConfiguration (MapOrders.stored textSig) (fun _ => snapshotABC) textView 2 77 =
      ((setConfiguration (MapOrders.stored textSig) textView snapshotABC).1,
        (2, Event.SendMessage crossThreadUpdate 77 0) ::
          (setConfiguration (MapOrders.stored textSig) textView snapshotABC).2.map
            (fun e => (textView.creatingThread, e))) :=
  SetConfiguration_waits textSig (MapOrders.stored textSig) (fun _ => snapshotABC) textView 2 77
    (by decide)

/-! ## Field rows -/

theorem RowOp_run_invariant (lt : labelTextLine) : ∀ op : RowOp, RowInvariant (op.run lt)
  | RowOp.show _ => ⟨rfl, fun h => Bool.noConfusion h⟩
  | RowOp.hide => ⟨rfl, fun _ => rfl⟩

theorem runOps_invariant (lt : labelTextLine) (ops : List RowOp) (h : RowInvariant lt) :
    RowInvariant (runOps lt ops) := by
  unfold runOps
  induction ops generalizing lt with
  | nil => exact h
  | cons op ops ih => exact ih _ (RowOp_run_invariant lt op)

/-- C13: a row made by `newLabelTextLine` satisfies, after every finite
sequence of `show` and `hide` calls, that label and value are visible together
and that a row that is not visible has empty content; after `show(t)` a row is
visible with content `t`, after `hide()` it is invisible with content "". -/
theorem labelTextLine_invariant (fieldName : String) (parent : Nat) (ops : List RowOp) :
    RowInvariant (runOps (newLabelTextLine fieldName parent) ops) ∧
    (∀ (lt : labelTextLine) (t : String), (lt.show t).Shows t) ∧
    (∀ lt : labelTextLine, lt.hide.Hidden) :=
  ⟨runOps_invariant _ ops ⟨rfl, fun _ => rfl⟩, show_Shows, hide_Hidden⟩

/-- C13, worked example: a new row is shown, hidden and shown again. -/
theorem labelTextLine_invariant_example :
    (runOps (newLabelTextLine "MTU" 0) [RowOp.show "1420", RowOp.hide]).display =
      (false, false, "") ∧
    (runOps (newLabelTextLine "MTU" 0) [RowOp.show "1420", RowOp.hide, RowOp.show "1280"]).display =
      (true, true, "1280") := by
  decide

/-- What `show(text)` leaves as the selection of the value widget: the two
positions read before the call, each bounded by the length of the new text,
the lower one first. -/
theorem show_selection (lt : labelTextLine) (text : String) :
    (lt.show text).text.TextSelection =
      (min (min lt.text.selStart text.length) (min lt.text.selEnd text.length),
       max (min lt.text.selStart text.length) (min lt.text.selEnd text.length)) := rfl

/-- After `show(text)` the selection of the value widget lies within the new
text, whatever was stored before. -/
theorem show_SelectionWithin (lt : labelTextLine) (text : String) :
    (lt.show text).text.SelectionWithin := by
  show min (min lt.text.selStart text.length) (min lt.text.selEnd text.length) ≤
      max (min lt.text.selStart text.length) (min lt.text.selEnd text.length) ∧
    max (min lt.text.selStart text.length) (min lt.text.selEnd text.length) ≤ text.length
  omega

/-- C14, counterexample: characters 2 to 5 of the text "abcdefgh" are selected,
a range within that text. After `show("ab")` the value widget reports the
range (2, 2), not (2, 5): the new text has two characters only. -/
theorem show_cuts_selection :
    selectedRow.text.Text = "abcdefgh" ∧
    selectedRow.text.TextSelection = (2, 5) ∧
    selectedRow.text.SelectionWithin ∧
    (selectedRow.show "ab").text.TextSelection = (2, 2) ∧
    ¬ ((selectedRow.show "ab").text.TextSelection = selectedRow.text.TextSelection) := by
  decide

/-- C14 (amended): for a row whose value widget has a selection range (s, e)
within its current text, `show(text)` leaves the range (s, e) exactly when the
new text has at least e characters; in every case the range after the call is
(s, e) with both ends bounded by the length of the new text, and it lies
within the new text. -/
theorem show_preserves_selection (lt : labelTextLine) (text : String)
    (hw : lt.text.SelectionWithin) :
    ((lt.show text).text.TextSelection = lt.text.TextSelection ↔
      lt.text.selEnd ≤ text.length) ∧
    (lt.show text).text.TextSelection =
      (min lt.text.selStart text.length, min lt.text.selEnd text.length) ∧
    (lt.show text).text.SelectionWithin := by
  obtain ⟨h1, _⟩ := hw
  have hmin : min (min lt.text.selStart text.length) (min lt.text.selEnd text.length) =
      min lt.text.selStart text.length := by omega
  have hmax : max (min lt.text.selStart text.length) (min lt.text.selEnd text.length) =
      min lt.text.selEnd text.length := by omega
  refine ⟨?_, ?_, show_SelectionWithin lt text⟩
  · rw [show_selection, hmin, hmax]
    show (min lt.text.selStart text.length, min lt.text.selEnd text.length) =
      (lt.text.selStart, lt.text.selEnd) ↔ _
    rw [Prod.mk.injEq]
    constructor
    · rintro ⟨_, h⟩
      omega
    · intro h
      constructor <;> omega
  · rw [show_selection, hmin, hmax]

/-- C14 (amended), witness: the selection (2, 5) is kept when the eight
characters "abcdefgh" are replaced by the six characters "uvwxyz". -/
theorem show_preserves_selection_witness :
    selectedRow.text.SelectionWithin ∧
    (((selectedRow.show "uvwxyz").text.TextSelection = selectedRow.text.TextSelection ↔
      selectedRow.text.selEnd ≤ "uvwxyz".length) ∧
    (selectedRow.show "uvwxyz").text.TextSelection =
      (min selectedRow.text.selStart "uvwxyz".length,
       min selectedRow.text.selEnd "uvwxyz".length) ∧
    (selectedRow.show "uvwxyz").text.SelectionWithin) :=
  ⟨by decide, show_preserves_selection selectedRow "uvwxyz" (by decide)⟩

/-- C14, worked example: characters 2 to 5 of a key are selected while the row
is updated with a text of the same length. -/
theorem show_preserves_selection_example :
    (selectedRow.show "ijklmnop").text.TextSelection = (2, 5) ∧
    (selectedRow.show "ijklmnop").text.Text = "ijklmnop" := by
  decide

/-- C18: `show(t)` after `show(t)` gives the state of a single `show(t)`, and
`hide()` after `hide()` gives the state of a single `hide()`: content, both
visibilities and selection included. -/
theorem show_hide_idempotent (lt : labelTextLine) (t : String) :
    (lt.show t).show t = lt.show t ∧ lt.hide.hide = lt.hide := by
  refine ⟨?_, rfl⟩
  have hs : min (min (min (min lt.text.selStart t.length) (min lt.text.selEnd t.length))
        t.length)
      (min (max (min lt.text.selStart t.length) (min lt.text.selEnd t.length)) t.length) =
      min (min lt.text.selStart t.length) (min lt.text.selEnd t.length) := by omega
  have he : max (min (min (min lt.text.selStart t.length) (min lt.text.selEnd t.length))
        t.length)
      (min (max (min lt.text.selStart t.length) (min lt.text.selEnd t.length)) t.length) =
      max (min lt.text.selStart t.length) (min lt.text.selEnd t.length) := by omega
  show labelTextLine.mk _ (LineEdit.mk _ _ _ _
      (min (min (min (min lt.text.selStart t.length) (min lt.text.selEnd t.length)) t.length)
        (min (max (min lt.text.selStart t.length) (min lt.text.selEnd t.length)) t.length))
      (max (min (min (min lt.text.selStart t.length) (min lt.text.selEnd t.length)) t.length)
        (min (max (min lt.text.selStart t.length) (min lt.text.selEnd t.length)) t.length))) =
    labelTextLine.mk _ (LineEdit.mk _ _ _ _
      (min (min lt.text.selStart t.length) (min lt.text.selEnd t.length))
      (max (min lt.text.selStart t.length) (min lt.text.selEnd t.length)))
  rw [hs, he]
  rfl

/-! ## The window procedure -/

/-- The log of `setConfiguration` holds no window-message call. -/
theorem setConfiguration_no_window_call (ord : MapOrders σ) (cv : ConfView σ) (c : Config σ)
    (ev : Event σ) (h : ev ∈ (setConfiguration ord cv c).2) : ev.isWindowCall = false := by
  rw [setConfiguration_eq] at h
  simp only [resume_log] at h
  have hrem : ev ∈ (removalPhase ord cv c).log ∨ ev = Event.SetSuspended false := by
    split_ifs at h
    · rw [List.mem_append, List.mem_singleton] at h
      exact h
    · exact Or.inl h
  rcases hrem with hrem | hrem
  swap
  · rw [hrem]; rfl
  unfold removalPhase at hrem
  rcases removeLoop_log _ _ ev hrem with h1 | h1 | ⟨pv, k, _, hev⟩
  · unfold peersPhase at h1
    rcases peerLoop_log _ _ ev h1 with h2 | h2 | ⟨k, g, _, _, _, _, hev⟩
    · simp only [applyHeader_log] at h2
      split_ifs at h2
      · simp only [List.nil_append, List.mem_singleton] at h2
        rw [h2]; rfl
      · simp at h2
    · rw [h2]; rfl
    · rcases hev with hev | hev | hev | hev <;> rw [hev] <;> rfl
  · rw [h1]; rfl
  · rcases hev with hev | hev | hev <;> rw [hev] <;> rfl

theorem peerStep_originalWndProc (st : Run σ × List (Nat × Bool)) (p : Peer σ) :
    (peerStep st p).1.cv.originalWndProc = st.1.cv.originalWndProc ∧
      (peerStep st p).1.cv.creatingThread = st.1.cv.creatingThread := by
  cases hp : mapGet st.1.cv.peers p.PublicKey with
  | some q => rw [peerStep_found st p q hp]; exact ⟨rfl, rfl⟩
  | none =>
    rw [peerStep_new st p hp]
    simp only [peerCreate]
    rw [suspend_cv]
    exact ⟨rfl, rfl⟩

theorem peerLoop_originalWndProc (ps : List (Peer σ)) (st : Run σ × List (Nat × Bool)) :
    (ps.foldl peerStep st).1.cv.originalWndProc = st.1.cv.originalWndProc ∧
      (ps.foldl peerStep st).1.cv.creatingThread = st.1.cv.creatingThread := by
  induction ps generalizing st with
  | nil => exact ⟨rfl, rfl⟩
  | cons p ps ih =>
    rw [List.foldl_cons, (ih _).1, (ih _).2]
    exact peerStep_originalWndProc st p

theorem removeStep_originalWndProc (r : Run σ) (e : Nat × Bool) :
    (removeStep r e).cv.originalWndProc = r.cv.originalWndProc ∧
      (removeStep r e).cv.creatingThread = r.cv.creatingThread := by
  rcases removeStep_cases r e with ⟨h, _⟩ | ⟨k, _, _, h⟩
  · rw [h]; exact ⟨rfl, rfl⟩
  · rw [h]
    simp only [removeSection]
    rw [suspend_cv]
    exact ⟨rfl, rfl⟩

theorem removeLoop_originalWndProc (es : List (Nat × Bool)) (r : Run σ) :
    (es.foldl removeStep r).cv.originalWndProc = r.cv.originalWndProc ∧
      (es.foldl removeStep r).cv.creatingThread = r.cv.creatingThread := by
  induction es generalizing r with
  | nil => exact ⟨rfl, rfl⟩
  | cons e es ih =>
    rw [List.foldl_cons, (ih _).1, (ih _).2]
    exact removeStep_originalWndProc r e

theorem resume_originalWndProc (r : Run σ) :
    r.resume.cv.originalWndProc = r.cv.originalWndProc ∧
      r.resume.cv.creatingThread = r.cv.creatingThread := by
  rw [resume_cv]
  exact ⟨rfl, rfl⟩

theorem applyHeader_originalWndProc (r : Run σ) (c : Config σ) :
    (applyHeader r c).cv.originalWndProc = r.cv.originalWndProc ∧
      (applyHeader r c).cv.creatingThread = r.cv.creatingThread := by
  rw [applyHeader_cv]
  exact ⟨rfl, rfl⟩

/-- `setConfiguration` leaves the saved window procedure and the creating
thread as they are. -/
theorem setConfiguration_originalWndProc (ord : MapOrders σ) (cv : ConfView σ) (c : Config σ) :
    (setConfiguration ord cv c).1.originalWndProc = cv.originalWndProc ∧
      (setConfiguration ord cv c).1.creatingThread = cv.creatingThread := by
  have h1 := resume_originalWndProc (removalPhase ord cv c)
  have h2 := removeLoop_originalWndProc (ord.inverse (peersPhase ord cv c).2)
    (peersPhase ord cv c).1
  have h3 := peerLoop_originalWndProc c.Peers
    (applyHeader { cv := cv, hasSuspended := false, log := [] } c,
      buildInverse (ord.peers
        (applyHeader { cv := cv, hasSuspended := false, log := [] } c).cv.peers))
  have h4 := applyHeader_originalWndProc { cv := cv, hasSuspended := false, log := [] } c
  rw [setConfiguration_eq]
  exact ⟨h1.1.trans (h2.1.trans (h3.1.trans h4.1)), h1.2.trans (h2.2.trans (h3.2.trans h4.2))⟩

/-- C15: the installed handler `crossThreadMessageHijack`, for a message
`crossThreadUpdate`, runs `setConfiguration` on the snapshot at address
`wParam`, returns 0 and logs no call of the original window procedure; for
every other message it leaves the view as it is and returns what the original
window procedure returns for the same `msg`, `wParam` and `lParam`, that call
being its only logged call. The original window procedure is the one stored
by `NewConfView`, and `setConfiguration` never replaces it. -/
theorem crossThreadMessageHijack_chains (σ : ConfSig) (ord : MapOrders σ)
    (mem : Nat → Config σ) (cv : ConfView σ) (msg wParam lParam : Nat) :
    (msg = crossThreadUpdate →
      crossThreadMessageHijack ord mem cv msg wParam lParam =
        ((setConfiguration ord cv (mem wParam)).1, (setConfiguration ord cv (mem wParam)).2, 0) ∧
      ∀ e ∈ (crossThreadMessageHijack ord mem cv msg wParam lParam).2.1,
        e.isWindowCall = false) ∧
    (msg ≠ crossThreadUpdate →
      crossThreadMessageHijack ord mem cv msg wParam lParam =
        (cv, [Event.CallWindowProc msg wParam lParam], cv.originalWndProc msg wParam lParam)) ∧
    (∀ (thread : Nat) (prevWndProc : Nat → Nat → Nat → Nat),
      (NewConfView σ thread prevWndProc).originalWndProc = prevWndProc) ∧
    (∀ (c : Config σ), (setConfiguration ord cv c).1.originalWndProc = cv.originalWndProc) := by
  refine ⟨?_, ?_, fun _ _ => rfl, fun c => (setConfiguration_originalWndProc ord cv c).1⟩
  · intro h
    have heq : crossThreadMessageHijack ord mem cv msg wParam lParam =
        ((setConfiguration ord cv (mem wParam)).1,
          (setConfiguration ord cv (mem wParam)).2, 0) := by
      unfold crossThreadMessageHijack
      rw [if_pos h]
    refine ⟨heq, ?_⟩
    rw [heq]
    exact fun e he => setConfiguration_no_window_call ord cv (mem wParam) e he
  · intro h
    unfold crossThreadMessageHijack
    rw [if_neg h]

/-- C15, worked example: the handler of a view whose original window
procedure returns `msg + wParam + lParam` receives an update message for the
snapshot at address 5 and a message of another kind. -/
theorem crossThreadMessageHijack_chains_example :
    (crossThreadMessageHijack (MapOrders.stored textSig) (fun _ => textConfig "wg0" [])
      (NewConfView textSig 1 (fun m w l => m + w + l)) crossThreadUpdate 5 0).2 =
        ([Event.SetTitle 0 "Interface: wg0"], 0) ∧
    (crossThreadMessageHijack (MapOrders.stored textSig) (fun _ => textConfig "wg0" [])
      (NewConfView textSig 1 (fun m w l => m + w + l)) 15 5 2).2 =
        ([Event.CallWindowProc 15 5 2], 22) := by
  constructor <;> rfl

/-! ## The title of the interface group box -/

theorem suspend_title_count (g : Nat) (r : Run σ) :
    r.suspend.log.countP (Event.isSetTitleOf g) = r.log.countP (Event.isSetTitleOf g) := by
  rw [suspend_log]
  split_ifs
  · rfl
  · simp [List.countP_append, Event.isSetTitleOf]

theorem peerStep_title_count (g : Nat) (st : Run σ × List (Nat × Bool)) (p : Peer σ)
    (hg : g < st.1.cv.nextId) :
    (peerStep st p).1.log.countP (Event.isSetTitleOf g) =
      st.1.log.countP (Event.isSetTitleOf g) := by
  cases hp : mapGet st.1.cv.peers p.PublicKey with
  | some q => rw [peerStep_found st p q hp]; rfl
  | none =>
    rw [peerStep_new st p hp, peerCreate_log, List.countP_append, suspend_title_count]
    have hne : ¬ st.1.cv.nextId = g := fun h => Nat.lt_irrefl _ (h ▸ hg)
    simp [Event.isSetTitleOf, hne]

theorem peerLoop_title_count (g : Nat) (ps : List (Peer σ)) (st : Run σ × List (Nat × Bool))
    (hg : g < st.1.cv.nextId) :
    (ps.foldl peerStep st).1.log.countP (Event.isSetTitleOf g) =
      st.1.log.countP (Event.isSetTitleOf g) := by
  induction ps generalizing st with
  | nil => rfl
  | cons p ps ih =>
    rw [List.foldl_cons, ih _ (lt_of_lt_of_le hg (peerStep_nextId_le st p))]
    exact peerStep_title_count g st p hg

theorem removeStep_title_count (g : Nat) (r : Run σ) (e : Nat × Bool) :
    (removeStep r e).log.countP (Event.isSetTitleOf g) =
      r.log.countP (Event.isSetTitleOf g) := by
  rcases removeStep_cases r e with ⟨h, _⟩ | ⟨k, _, _, h⟩
  · rw [h]
  · rw [h, removeSection_log, List.countP_append, suspend_title_count]
    simp [Event.isSetTitleOf]

theorem removeLoop_title_count (g : Nat) (es : List (Nat × Bool)) (r : Run σ) :
    (es.foldl removeStep r).log.countP (Event.isSetTitleOf g) =
      r.log.countP (Event.isSetTitleOf g) := by
  induction es generalizing r with
  | nil => rfl
  | cons e es ih => rw [List.foldl_cons, ih, removeStep_title_count]

theorem resume_title_count (g : Nat) (r : Run σ) :
    r.resume.log.countP (Event.isSetTitleOf g) = r.log.countP (Event.isSetTitleOf g) := by
  rw [resume_log]
  split_ifs
  · simp [List.countP_append, Event.isSetTitleOf]
  · rfl

theorem setConfiguration_name_id (ord : MapOrders σ) (cv : ConfView σ) (c : Config σ) :
    (setConfiguration ord cv c).1.name.id = cv.name.id := by
  rw [setConfiguration_name]
  exact applyHeader_name_id _ c

/-- Every reachable view has the interface group box 0 and a larger `nextId`. -/
theorem Reachable.name_fresh {cv : ConfView σ} (h : Reachable cv) :
    cv.name.id = 0 ∧ 0 < cv.nextId := by
  induction h with
  | init thread prevWndProc => exact ⟨rfl, Nat.one_pos⟩
  | step ord cv c _ ih =>
    refine ⟨by rw [setConfiguration_name_id]; exact ih.1, ?_⟩
    rw [setConfiguration_eq]
    simp only [resume_nextId]
    unfold removalPhase
    rw [removeLoop_nextId]
    unfold peersPhase
    exact lt_of_lt_of_le (by simpa using ih.2) (peerLoop_nextId_le _ _)

/-- C17: for a view whose interface group box was handed out before `nextId`
(every reachable view is such a view), `setConfiguration(c)` logs `SetTitle`
on the interface group box once when the title differs from
`"Interface: " ++ c.Name` and not at all when it does not; a logged `SetTitle`
on that box carries that title; after the call the title is
`"Interface: " ++ c.Name`. -/
theorem setConfiguration_title_update (σ : ConfSig) (ord : MapOrders σ) (cv : ConfView σ)
    (c : Config σ) (hid : cv.name.id < cv.nextId) :
    (setConfiguration ord cv c).2.countP (Event.isSetTitleOf cv.name.id) =
      (if cv.name.title = "Interface: " ++ c.Name then 0 else 1) ∧
    (∀ t, Event.SetTitle cv.name.id t ∈ (setConfiguration ord cv c).2 →
      t = "Interface: " ++ c.Name) ∧
    (setConfiguration ord cv c).1.name.title = "Interface: " ++ c.Name ∧
    (setConfiguration ord cv c).1.name.id = cv.name.id := by
  refine ⟨?_, ?_, setConfiguration_title ord cv c, setConfiguration_name_id ord cv c⟩
  · rw [setConfiguration_eq]
    simp only []
    rw [resume_title_count]
    unfold removalPhase
    rw [removeLoop_title_count]
    unfold peersPhase
    simp only []
    rw [peerLoop_title_count _ _ _ (by simpa using hid), applyHeader_log]
    by_cases h : cv.name.title = "Interface: " ++ c.Name
    · simp [h]
    · simp [h, Event.isSetTitleOf]
  · intro t ht
    rw [setConfiguration_eq] at ht
    simp only [resume_log] at ht
    have hrem : Event.SetTitle cv.name.id t ∈ (removalPhase ord cv c).log := by
      split_ifs at ht
      · rw [List.mem_append, List.mem_singleton] at ht
        rcases ht with ht | ht
        · exact ht
        · cases ht
      · exact ht
    unfold removalPhase at hrem
    rcases removeLoop_log _ _ _ hrem with h1 | h1 | ⟨pv, k, _, hev⟩
    · unfold peersPhase at h1
      rcases peerLoop_log _ _ _ h1 with h2 | h2 | ⟨k, g, _, _, hle, _, hev⟩
      · simp only [applyHeader_log] at h2
        split_ifs at h2
        · simp only [List.nil_append, List.mem_singleton] at h2
          cases h2
          rfl
        · simp at h2
      · cases h2
      · rcases hev with hev | hev | hev | hev <;> cases hev
        simp only [applyHeader_nextId] at hle
        omega
    · cases h1
    · rcases hev with hev | hev | hev <;> cases hev

/-- C17, witness: a new view receives the snapshot named "wg0". -/
theorem setConfiguration_title_update_witness :
    (setConfiguration (MapOrders.stored textSig) textView snapshotABC).2.countP
        (Event.isSetTitleOf textView.name.id) =
      (if textView.name.title = "Interface: " ++ snapshotABC.Name then 0 else 1) ∧
    (∀ t, Event.SetTitle textView.name.id t ∈
        (setConfiguration (MapOrders.stored textSig) textView snapshotABC).2 →
      t = "Interface: " ++ snapshotABC.Name) ∧
    (setConfiguration (MapOrders.stored textSig) textView snapshotABC).1.name.title =
      "Interface: " ++ snapshotABC.Name ∧
    (setConfiguration (MapOrders.stored textSig) textView snapshotABC).1.name.id =
      textView.name.id :=
  setConfiguration_title_update textSig (MapOrders.stored textSig) textView snapshotABC
    (by decide)

/-- C17, worked example: the first call sets the title once, a second call
with the same name does not set it. -/
theorem setConfiguration_title_update_example :
    (setConfiguration (MapOrders.stored textSig) textView snapshotABC).2.countP
        (Event.isSetTitleOf 0) = 1 ∧
    (setConfiguration (MapOrders.stored textSig) textViewABC snapshotBCD).2.countP
        (Event.isSetTitleOf 0) = 0 ∧
    (setConfiguration (MapOrders.stored textSig) textViewABC snapshotBCD).1.name.title =
      "Interface: wg0" := by
  decide

/-! ## Structural changes happen under suspension -/

/-- A step that calls `suspend` and then logs events that are no suspension
calls, one of them structural, keeps the shape of the log. -/
theorem Batched_suspend_append (b : Bool) (log es : List (Event σ)) (h : Batched b log)
    (hes : ∀ e ∈ es, e.isSuspend = false ∧ e.isResume = false)
    (hstr : ∃ e ∈ es, e.isStructural = true) :
    Batched true ((if b then log else log ++ [Event.SetSuspended true]) ++ es) := by
  cases b with
  | true =>
    simp only [Batched, if_true] at h ⊢
    obtain ⟨pre, mid, hlog, hpre, hmid, e, he, hs⟩ := h
    refine ⟨pre, mid ++ es, by rw [hlog]; simp, hpre, ?_, e, List.mem_append_left _ he, hs⟩
    intro e' he'
    rcases List.mem_append.1 he' with h' | h'
    · exact hmid e' h'
    · exact hes e' h'
  | false =>
    simp only [Batched, Bool.false_eq_true, if_false, if_true] at h ⊢
    exact ⟨log, es, by simp, h, hes, hstr⟩

theorem peerStep_Batched (st : Run σ × List (Nat × Bool)) (p : Peer σ)
    (h : Batched st.1.hasSuspended st.1.log) :
    Batched (peerStep st p).1.hasSuspended (peerStep st p).1.log := by
  cases hp : mapGet st.1.cv.peers p.PublicKey with
  | some q => rw [peerStep_found st p q hp]; exact h
  | none =>
    rw [peerStep_new st p hp, peerCreate_hasSuspended, peerCreate_log, suspend_log]
    apply Batched_suspend_append _ _ _ h
    · intro e he
      simp only [List.mem_cons, List.mem_singleton, List.not_mem_nil, or_false] at he
      rcases he with rfl | rfl | rfl | rfl <;> exact ⟨rfl, rfl⟩
    · exact ⟨_, List.mem_cons_self _ _, rfl⟩

theorem peerLoop_Batched (ps : List (Peer σ)) (st : Run σ × List (Nat × Bool))
    (h : Batched st.1.hasSuspended st.1.log) :
    Batched (ps.foldl peerStep st).1.hasSuspended (ps.foldl peerStep st).1.log := by
  induction ps generalizing st with
  | nil => exact h
  | cons p ps ih => exact ih _ (peerStep_Batched st p h)

theorem removeSection_hasSuspended (r : Run σ) (pv : Nat) (k : σ.Key) :
    (removeSection r pv k).hasSuspended = true := by
  simp [removeSection]

theorem removeStep_Batched (r : Run σ) (e : Nat × Bool) (h : Batched r.hasSuspended r.log) :
    Batched (removeStep r e).hasSuspended (removeStep r e).log := by
  rcases removeStep_cases r e with ⟨h', _⟩ | ⟨k, _, _, h'⟩
  · rw [h']; exact h
  · rw [h', removeSection_hasSuspended, removeSection_log, suspend_log]
    apply Batched_suspend_append _ _ _ h
    · intro e he
      simp only [List.mem_cons, List.mem_singleton, List.not_mem_nil, or_false] at he
      rcases he with rfl | rfl | rfl <;> exact ⟨rfl, rfl⟩
    · exact ⟨_, List.mem_cons_self _ _, rfl⟩

theorem removeLoop_Batched (es : List (Nat × Bool)) (r : Run σ)
    (h : Batched r.hasSuspended r.log) :
    Batched (es.foldl removeStep r).hasSuspended (es.foldl removeStep r).log := by
  induction es generalizing r with
  | nil => exact h
  | cons e es ih => exact ih _ (removeStep_Batched r e h)

theorem applyHeader_Batched (cv : ConfView σ) (c : Config σ) :
    Batched (applyHeader { cv := cv, hasSuspended := false, log := [] } c).hasSuspended
      (applyHeader { cv := cv, hasSuspended := false, log := [] } c).log := by
  rw [applyHeader_hasSuspended, applyHeader_log]
  simp only [Batched, Bool.false_eq_true, if_false]
  intro e he
  split_ifs at he
  · simp only [List.nil_append, List.mem_singleton] at he
    rw [he]; rfl
  · simp at he

theorem removalPhase_Batched (ord : MapOrders σ) (cv : ConfView σ) (c : Config σ) :
    Batched (removalPhase ord cv c).hasSuspended (removalPhase ord cv c).log := by
  unfold removalPhase
  apply removeLoop_Batched
  unfold peersPhase
  apply peerLoop_Batched
  exact applyHeader_Batched cv c

/-! The suspension flag of the scroll view while `hasSuspended` is not set. -/

theorem peerStep_suspended (st : Run σ × List (Nat × Bool)) (p : Peer σ)
    (h : (peerStep st p).1.hasSuspended = false) :
    st.1.hasSuspended = false ∧ (peerStep st p).1.cv.suspended = st.1.cv.suspended := by
  cases hp : mapGet st.1.cv.peers p.PublicKey with
  | some q =>
    rw [peerStep_found st p q hp] at h ⊢
    exact ⟨h, rfl⟩
  | none =>
    rw [peerStep_new st p hp, peerCreate_hasSuspended] at h
    exact Bool.noConfusion h

theorem peerLoop_suspended (ps : List (Peer σ)) (st : Run σ × List (Nat × Bool))
    (h : (ps.foldl peerStep st).1.hasSuspended = false) :
    st.1.hasSuspended = false ∧ (ps.foldl peerStep st).1.cv.suspended = st.1.cv.suspended := by
  induction ps generalizing st with
  | nil => exact ⟨h, rfl⟩
  | cons p ps ih =>
    rw [List.foldl_cons] at h ⊢
    obtain ⟨h1, h2⟩ := ih _ h
    obtain ⟨h3, h4⟩ := peerStep_suspended st p h1
    exact ⟨h3, h2.trans h4⟩

theorem removeStep_suspended (r : Run σ) (e : Nat × Bool)
    (h : (removeStep r e).hasSuspended = false) :
    r.hasSuspended = false ∧ (removeStep r e).cv.suspended = r.cv.suspended := by
  rcases removeStep_cases r e with ⟨h', _⟩ | ⟨k, _, _, h'⟩
  · rw [h'] at h ⊢
    exact ⟨h, rfl⟩
  · rw [h', removeSection_hasSuspended] at h
    exact Bool.noConfusion h

theorem removeLoop_suspended (es : List (Nat × Bool)) (r : Run σ)
    (h : (es.foldl removeStep r).hasSuspended = false) :
    r.hasSuspended = false ∧ (es.foldl removeStep r).cv.suspended = r.cv.suspended := by
  induction es generalizing r with
  | nil => exact ⟨h, rfl⟩
  | cons e es ih =>
    rw [List.foldl_cons] at h ⊢
    obtain ⟨h1, h2⟩ := ih _ h
    obtain ⟨h3, h4⟩ := removeStep_suspended r e h1
    exact ⟨h3, h2.trans h4⟩

theorem setConfiguration_suspended (ord : MapOrders σ) (cv : ConfView σ) (c : Config σ)
    (h : (removalPhase ord cv c).hasSuspended = false) :
    (setConfiguration ord cv c).1.suspended = cv.suspended := by
  rw [setConfiguration_eq]
  simp only []
  rw [resume_not_suspended _ h]
  unfold removalPhase at h ⊢
  obtain ⟨h1, h2⟩ := removeLoop_suspended _ _ h
  rw [h2]
  unfold peersPhase at h1 ⊢
  obtain ⟨_, h4⟩ := peerLoop_suspended _ _ h1
  rw [h4]
  exact applyHeader_suspended _ c

/-- C16: the log of a `setConfiguration` call either holds no structural
change and no suspension call, and then the suspension flag of the view is
left as it was; or it is a part without structural change and suspension
call, then `SetSuspended(true)`, then a part that holds a structural change
and no suspension call, then `SetSuspended(false)` as last entry. So every
creation of a group box or section, every map insertion or deletion and every
detaching or disposal lies after `SetSuspended(true)` and before
`SetSuspended(false)`, and `SetSuspended(true)` is logged exactly when the log
holds a structural change. -/
theorem setConfiguration_batched (σ : ConfSig) (ord : MapOrders σ) (cv : ConfView σ)
    (c : Config σ) :
    (((∀ e ∈ (setConfiguration ord cv c).2,
          e.isStructural = false ∧ e.isSuspend = false ∧ e.isResume = false) ∧
        (setConfiguration ord cv c).1.suspended = cv.suspended) ∨
      ∃ pre mid,
        (setConfiguration ord cv c).2 =
          pre ++ Event.SetSuspended true :: mid ++ [Event.SetSuspended false] ∧
        (∀ e ∈ pre, e.isStructural = false ∧ e.isSuspend = false ∧ e.isResume = false) ∧
        (∀ e ∈ mid, e.isSuspend = false ∧ e.isResume = false) ∧
        ∃ e ∈ mid, e.isStructural = true) ∧
    ((setConfiguration ord cv c).2.countP Event.isSuspend = 1 ↔
      ∃ e ∈ (setConfiguration ord cv c).2, e.isStructural = true) := by
  have hb := removalPhase_Batched ord cv c
  have hcount := (resume_counts _ (removalPhase_LogOK ord cv c)).2.2.2
  have hquiet : ∀ e : Event σ, e.isQuiet = true →
      e.isStructural = false ∧ e.isSuspend = false ∧ e.isResume = false := by
    intro e he
    simp only [Event.isQuiet, Bool.and_eq_true, Bool.not_eq_true'] at he
    exact ⟨he.1.1, he.1.2, he.2⟩
  have hlog : (setConfiguration ord cv c).2 = (removalPhase ord cv c).resume.log := by
    rw [setConfiguration_eq]
  rw [hlog, hcount]
  cases hs : (removalPhase ord cv c).hasSuspended with
  | false =>
    rw [hs] at hb
    simp only [Batched, Bool.false_eq_true, if_false] at hb
    have hres : (removalPhase ord cv c).resume.log = (removalPhase ord cv c).log := by
      rw [resume_log, hs]
      rfl
    rw [hres]
    refine ⟨Or.inl ⟨fun e he => hquiet e (hb e he), setConfiguration_suspended ord cv c hs⟩, ?_⟩
    constructor
    · intro h
      simp at h
    · rintro ⟨e, he, hstr⟩
      rw [(hquiet e (hb e he)).1] at hstr
      exact Bool.noConfusion hstr
  | true =>
    rw [hs] at hb
    simp only [Batched, if_true] at hb
    obtain ⟨pre, mid, hl, hpre, hmid, e, he, hstr⟩ := hb
    have hres : (removalPhase ord cv c).resume.log =
        pre ++ Event.SetSuspended true :: mid ++ [Event.SetSuspended false] := by
      rw [resume_log, hs, if_pos rfl, hl]
    rw [hres]
    refine ⟨Or.inr ⟨pre, mid, rfl, fun e' he' => hquiet e' (hpre e' he'), hmid, e, he, hstr⟩, ?_⟩
    constructor
    · intro _
      exact ⟨e, by simp [he], hstr⟩
    · intro _
      rfl

/-- C16, worked example: a call that only updates sections in place logs
nothing and leaves the flag; a call that creates and removes logs both inside
one suspension. -/
theorem setConfiguration_batched_example :
    (setConfiguration (MapOrders.stored textSig) textViewABC snapshotABC).2 = [] ∧
    (setConfiguration (MapOrders.stored textSig) textViewABC snapshotBCD).2 =
      [] ++ Event.SetSuspended true ::
        [Event.newPaddedGroupGrid 4, Event.SetTitle 4 "Peer", Event.newPeerView 4,
         Event.insert "D" 4, Event.delete "A", Event.Remove 1, Event.Dispose 1] ++
        [Event.SetSuspended false] := by
  constructor <;> rfl

/-! ## The map/display invariant, for any key codec -/

theorem NewConfView_MapDisplay (thread : Nat) (prevWndProc : Nat → Nat → Nat → Nat) :
    MapDisplay (NewConfView σ thread prevWndProc) where
  keys_nodup := by simp [NewConfView]
  shown := by intro k pv h; simp [NewConfView, mapGet] at h
  injective := by intro k k' pv h; simp [NewConfView, mapGet] at h
  fresh := by intro k pv h; simp [NewConfView, mapGet] at h

theorem applyHeader_MapDisplay (r : Run σ) (c : Config σ) (h : MapDisplay r.cv) :
    MapDisplay (applyHeader r c).cv where
  keys_nodup := by rw [applyHeader_peers]; exact h.keys_nodup
  shown := by
    intro k pv hk
    rw [applyHeader_peers] at hk
    rw [applyHeader_views]
    exact h.shown k pv hk
  injective := by
    intro k k' pv hk hk'
    rw [applyHeader_peers] at hk hk'
    exact h.injective k k' pv hk hk'
  fresh := by
    intro k pv hk
    rw [applyHeader_peers] at hk
    rw [applyHeader_nextId]
    exact h.fresh k pv hk

theorem peerUpdate_MapDisplay (r : Run σ) (inv : List (Nat × Bool)) (q : Nat) (p : Peer σ)
    (hq : mapGet r.cv.peers p.PublicKey = some q) (h : MapDisplay r.cv) :
    MapDisplay (peerUpdate r inv q p).1.cv where
  keys_nodup := h.keys_nodup
  shown := by
    intro k pv hk
    rw [peerUpdate_peers] at hk
    rw [peerUpdate_views]
    by_cases hpv : pv = q
    · subst hpv
      rw [if_pos rfl, h.injective k p.PublicKey pv hk hq]
      exact peerView_apply_Shows _ _
    · rw [if_neg hpv]
      exact h.shown k pv hk
  injective := h.injective
  fresh := h.fresh

theorem peerCreate_MapDisplay (r : Run σ) (inv : List (Nat × Bool)) (p : Peer σ)
    (h : MapDisplay r.cv) : MapDisplay (peerCreate r inv p).1.cv where
  keys_nodup := by
    rw [peerCreate_peers]
    exact mapSet_nodup _ _ _ h.keys_nodup
  shown := by
    intro k pv hk
    rw [peerCreate_peers, mapGet_mapSet] at hk
    rw [peerCreate_views]
    by_cases hkp : p.PublicKey = k
    · simp only [hkp, if_true, Option.some.injEq] at hk
      rw [if_pos hk.symm, ← hkp]
      exact peerView_apply_Shows _ _
    · simp only [hkp, if_false] at hk
      rw [if_neg (Nat.ne_of_lt (h.fresh k pv hk))]
      exact h.shown k pv hk
  injective := by
    intro k k' pv hk hk'
    rw [peerCreate_peers, mapGet_mapSet] at hk hk'
    by_cases hkp : p.PublicKey = k
    · by_cases hkp' : p.PublicKey = k'
      · exact hkp.symm.trans hkp'
      · simp only [hkp, if_true, Option.some.injEq] at hk
        simp only [hkp', if_false] at hk'
        exact absurd (h.fresh k' pv hk') (by omega)
    · by_cases hkp' : p.PublicKey = k'
      · simp only [hkp', if_true, Option.some.injEq] at hk'
        simp only [hkp, if_false] at hk
        exact absurd (h.fresh k pv hk) (by omega)
      · simp only [hkp, if_false] at hk
        simp only [hkp', if_false] at hk'
        exact h.injective k k' pv hk hk'
  fresh := by
    intro k pv hk
    rw [peerCreate_peers, mapGet_mapSet] at hk
    rw [peerCreate_nextId]
    by_cases hkp : p.PublicKey = k
    · simp only [hkp, if_true, Option.some.injEq] at hk
      omega
    · simp only [hkp, if_false] at hk
      exact Nat.lt_succ_of_lt (h.fresh k pv hk)

theorem peerStep_MapDisplay (st : Run σ × List (Nat × Bool)) (p : Peer σ)
    (h : MapDisplay st.1.cv) : MapDisplay (peerStep st p).1.cv := by
  cases hp : mapGet st.1.cv.peers p.PublicKey with
  | some q => rw [peerStep_found st p q hp]; exact peerUpdate_MapDisplay _ _ q p hp h
  | none => rw [peerStep_new st p hp]; exact peerCreate_MapDisplay _ _ p h

theorem peerLoop_MapDisplay (ps : List (Peer σ)) (st : Run σ × List (Nat × Bool))
    (h : MapDisplay st.1.cv) : MapDisplay (ps.foldl peerStep st).1.cv := by
  induction ps generalizing st with
  | nil => exact h
  | cons p ps ih => exact ih _ (peerStep_MapDisplay st p h)

theorem removeSection_MapDisplay (r : Run σ) (pv : Nat) (k : σ.Key) (h : MapDisplay r.cv) :
    MapDisplay (removeSection r pv k).cv where
  keys_nodup := by
    rw [removeSection_peers]
    exact mapDelete_nodup _ _ h.keys_nodup
  shown := by
    intro k' pv' hk
    rw [removeSection_peers, mapGet_mapDelete_some] at hk
    rw [removeSection_views]
    exact h.shown k' pv' hk.2
  injective := by
    intro k1 k2 pv' h1 h2
    rw [removeSection_peers, mapGet_mapDelete_some] at h1 h2
    exact h.injective k1 k2 pv' h1.2 h2.2
  fresh := by
    intro k' pv' hk
    rw [removeSection_peers, mapGet_mapDelete_some] at hk
    rw [removeSection_nextId]
    exact h.fresh k' pv' hk.2

theorem removeStep_MapDisplay (r : Run σ) (e : Nat × Bool) (h : MapDisplay r.cv) :
    MapDisplay (removeStep r e).cv := by
  rcases removeStep_cases r e with ⟨h', _⟩ | ⟨k, _, _, h'⟩
  · rw [h']; exact h
  · rw [h']; exact removeSection_MapDisplay r e.1 k h

theorem removeLoop_MapDisplay (es : List (Nat × Bool)) (r : Run σ) (h : MapDisplay r.cv) :
    MapDisplay (es.foldl removeStep r).cv := by
  induction es generalizing r with
  | nil => exact h
  | cons e es ih => exact ih _ (removeStep_MapDisplay r e h)

theorem resume_MapDisplay (r : Run σ) (h : MapDisplay r.cv) : MapDisplay r.resume.cv where
  keys_nodup := by rw [resume_peers]; exact h.keys_nodup
  shown := by
    intro k pv hk
    rw [resume_peers] at hk
    rw [resume_views]
    exact h.shown k pv hk
  injective := by
    intro k k' pv hk hk'
    rw [resume_peers] at hk hk'
    exact h.injective k k' pv hk hk'
  fresh := by
    intro k pv hk
    rw [resume_peers] at hk
    rw [resume_nextId]
    exact h.fresh k pv hk

theorem setConfiguration_MapDisplay (ord : MapOrders σ) (cv : ConfView σ) (c : Config σ)
    (h : MapDisplay cv) : MapDisplay (setConfiguration ord cv c).1 := by
  rw [setConfiguration_eq]
  apply resume_MapDisplay
  unfold removalPhase
  apply removeLoop_MapDisplay
  unfold peersPhase
  apply peerLoop_MapDisplay
  exact applyHeader_MapDisplay _ c h

theorem Reachable.mapDisplay {cv : ConfView σ} (h : Reachable cv) : MapDisplay cv := by
  induction h with
  | init thread prevWndProc => exact NewConfView_MapDisplay thread prevWndProc
  | step ord cv c _ ih => exact setConfiguration_MapDisplay ord cv c ih

/-- C19: in every view reachable from `NewConfView` by `setConfiguration`
calls, whatever the key codec, the section of every entry `(k, pv)` of
`cv.peers` shows the string of `k` in its visible public-key row and distinct
keys are mapped to distinct sections; `setConfiguration` keeps the invariant;
and when the key codec reads back what it prints, the loop over `inverse`
removes a section `pv` under a key `k` exactly when `k` was mapped to `pv`
before the call and is no key of the snapshot: it deletes the own entry of
each stale section and no other entry. -/
theorem map_display_invariant (σ : ConfSig) (ord : MapOrders σ) (cv : ConfView σ)
    (c : Config σ) :
    (Reachable cv →
      (∀ k pv, mapGet cv.peers k = some pv →
        (cv.views pv).publicKey.Shows (σ.KeyString k)) ∧
      (∀ k k' pv, mapGet cv.peers k = some pv → mapGet cv.peers k' = some pv → k = k')) ∧
    (MapDisplay cv → MapDisplay (setConfiguration ord cv c).1) ∧
    (RoundTrip σ → Reachable cv →
      (∀ pv k,
        Removes (peersPhase ord cv c).1.cv.views (ord.inverse (peersPhase ord cv c).2) pv k ↔
          mapGet cv.peers k = some pv ∧ k ∉ keysOf c.Peers) ∧
      (∀ k, Event.delete k ∈ (setConfiguration ord cv c).2 →
        ∃ pv, mapGet cv.peers k = some pv ∧ k ∉ keysOf c.Peers) ∧
      (∀ k pv, mapGet cv.peers k = some pv → k ∈ keysOf c.Peers →
        mapGet (setConfiguration ord cv c).1.peers k = some pv)) := by
  refine ⟨fun h => ⟨h.mapDisplay.shown, h.mapDisplay.injective⟩,
    setConfiguration_MapDisplay ord cv c, ?_⟩
  intro hrt hreach
  have hc := hreach.consistent hrt
  refine ⟨fun pv k => Removes_iff hrt ord cv c hc pv k, ?_,
    fun k pv h hk => setConfiguration_get_old hrt ord cv c hc k pv hk h⟩
  intro k hev
  rcases setConfiguration_log hrt ord cv c hc _ hev with h | h | h | h | h
  · cases h
  · cases h
  · cases h
  · obtain ⟨k', g, _, _, _, _, h⟩ := h
    rcases h with h | h | h | h <;> cases h
  · obtain ⟨k', pv, hget, hnot, h⟩ := h
    rcases h with h | h | h <;> cases h
    exact ⟨pv, hget, hnot⟩

/-- C19, worked example: the entries of the map after two snapshots and the
text each mapped section shows. -/
theorem map_display_invariant_example :
    (setConfiguration (MapOrders.reversed textSig) textViewABC snapshotBCD).1.peers =
      [("B", 2), ("C", 3), ("D", 4)] ∧
    ((setConfiguration (MapOrders.reversed textSig) textViewABC snapshotBCD).1.views
      2).publicKey.display = (true, true, "B") ∧
    ((setConfiguration (MapOrders.reversed textSig) textViewABC snapshotBCD).1.views
      3).publicKey.display = (true, true, "C") ∧
    ((setConfiguration (MapOrders.reversed textSig) textViewABC snapshotBCD).1.views
      4).publicKey.display = (true, true, "D") := by
  decide

/-! ## Several peers with one key in a snapshot -/

theorem suspend_insert_count (k : σ.Key) (r : Run σ) :
    r.suspend.log.countP (Event.isInsertOf k) = r.log.countP (Event.isInsertOf k) := by
  rw [suspend_log]
  split_ifs
  · rfl
  · simp [List.countP_append, Event.isInsertOf]

/-- The loop over the peers logs one map insertion for a key of the list that
is not mapped and none for any other key. -/
theorem peerLoop_insert_count (k : σ.Key) (ps : List (Peer σ))
    (st : Run σ × List (Nat × Bool)) :
    (ps.foldl peerStep st).1.log.countP (Event.isInsertOf k) =
      st.1.log.countP (Event.isInsertOf k) +
        (if mapGet st.1.cv.peers k = none ∧ k ∈ keysOf ps then 1 else 0) := by
  induction ps generalizing st with
  | nil => simp [keysOf]
  | cons p ps ih =>
    rw [List.foldl_cons, ih]
    cases hp : mapGet st.1.cv.peers p.PublicKey with
    | some q =>
      rw [peerStep_found st p q hp, peerUpdate_log, peerUpdate_peers]
      by_cases hk : p.PublicKey = k
      · subst hk
        simp [hp]
      · have hk' : ¬ k = p.PublicKey := fun h => hk h.symm
        simp [keysOf, hk']
    | none =>
      rw [peerStep_new st p hp, peerCreate_log, peerCreate_peers, List.countP_append,
        suspend_insert_count, mapGet_mapSet]
      by_cases hk : p.PublicKey = k
      · subst hk
        simp [hp, keysOf, Event.isInsertOf]
      · have hk' : ¬ k = p.PublicKey := fun h => hk h.symm
        simp [keysOf, hk, hk', Event.isInsertOf]

theorem removeStep_insert_count (k : σ.Key) (r : Run σ) (e : Nat × Bool) :
    (removeStep r e).log.countP (Event.isInsertOf k) = r.log.countP (Event.isInsertOf k) := by
  rcases removeStep_cases r e with ⟨h, _⟩ | ⟨k', _, _, h⟩
  · rw [h]
  · rw [h, removeSection_log, List.countP_append, suspend_insert_count]
    simp [Event.isInsertOf]

theorem removeLoop_insert_count (k : σ.Key) (es : List (Nat × Bool)) (r : Run σ) :
    (es.foldl removeStep r).log.countP (Event.isInsertOf k) =
      r.log.countP (Event.isInsertOf k) := by
  induction es generalizing r with
  | nil => rfl
  | cons e es ih => rw [List.foldl_cons, ih, removeStep_insert_count]

/-- The number of map insertions for key `k` in the log of a call: one when
`k` is a key of the snapshot that was not mapped, none otherwise. -/
theorem setConfiguration_insert_count (ord : MapOrders σ) (cv : ConfView σ) (c : Config σ)
    (k : σ.Key) :
    (setConfiguration ord cv c).2.countP (Event.isInsertOf k) =
      if mapGet cv.peers k = none ∧ k ∈ keysOf c.Peers then 1 else 0 := by
  have hres : (removalPhase ord cv c).resume.log.countP (Event.isInsertOf k) =
      (removalPhase ord cv c).log.countP (Event.isInsertOf k) := by
    rw [resume_log]
    split_ifs
    · simp [List.countP_append, Event.isInsertOf]
    · rfl
  have hhead : (applyHeader { cv := cv, hasSuspended := false, log := [] } c).log.countP
      (Event.isInsertOf k) = 0 := by
    rw [applyHeader_log]
    split_ifs <;> simp [Event.isInsertOf]
  rw [setConfiguration_eq]
  simp only []
  rw [hres]
  unfold removalPhase
  rw [removeLoop_insert_count]
  unfold peersPhase
  simp only []
  rw [peerLoop_insert_count, hhead, applyHeader_peers, Nat.zero_add]

/-- C20: from a reachable view, with a key codec that reads back what it
prints: for a key `k` of the snapshot that is not mapped, however often it
occurs in `S.Peers`, `setConfiguration(S)` logs exactly one map insertion for
`k`; the section inserted is created in this call, is the one `k` is mapped to
afterwards, and displays what `apply` displays for the last peer of `S.Peers`
with key `k`. -/
theorem setConfiguration_duplicate_keys (σ : ConfSig) (ord : MapOrders σ) (cv : ConfView σ)
    (S : Config σ) (k : σ.Key) (hrt : RoundTrip σ) (hreach : Reachable cv)
    (hk : k ∈ keysOf S.Peers) (hnew : mapGet cv.peers k = none) :
    (setConfiguration ord cv S).2.countP (Event.isInsertOf k) = 1 ∧
    ∃ pv p, lastWithKey S.Peers k = some p ∧
      Event.insert k pv ∈ (setConfiguration ord cv S).2 ∧
      cv.nextId ≤ pv ∧
      mapGet (setConfiguration ord cv S).1.peers k = some pv ∧
      ∀ v0 : peerView,
        ((setConfiguration ord cv S).1.views pv).display = (peerView.apply σ v0 p).display := by
  have hc := hreach.consistent hrt
  have hcount : (setConfiguration ord cv S).2.countP (Event.isInsertOf k) = 1 := by
    rw [setConfiguration_insert_count, if_pos ⟨hnew, hk⟩]
  refine ⟨hcount, ?_⟩
  cases hl : lastWithKey S.Peers k with
  | none => exact absurd hk (lastWithKey_none S.Peers k hl)
  | some p =>
    obtain ⟨pv, v1, h1, h2⟩ := setConfiguration_last hrt ord cv S hc k p hl
    have hpos : 0 < (setConfiguration ord cv S).2.countP (Event.isInsertOf k) := by
      rw [hcount]; exact Nat.one_pos
    obtain ⟨ev, hev, hins⟩ := List.countP_pos_iff.1 hpos
    have hform : ∃ g, ev = Event.insert k g := by
      cases ev <;> simp [Event.isInsertOf] at hins
      exact ⟨_, by rw [hins]⟩
    obtain ⟨g, rfl⟩ := hform
    have hg : mapGet (setConfiguration ord cv S).1.peers k = some g ∧ cv.nextId ≤ g := by
      rcases setConfiguration_log hrt ord cv S hc _ hev with h | h | h | h | h
      · cases h
      · cases h
      · cases h
      · obtain ⟨k', g', _, _, hle, hget, h⟩ := h
        rcases h with h | h | h | h <;> cases h
        exact ⟨hget, hle⟩
      · obtain ⟨k', q, _, _, h⟩ := h
        rcases h with h | h | h <;> cases h
    have hpv : pv = g := by
      have := h1.symm.trans hg.1
      exact Option.some.inj this
    subst hpv
    refine ⟨pv, p, rfl, hev, hg.2, h1, fun v0 => ?_⟩
    rw [h2]
    exact peerView_apply_display v1 v0 p

/-- C20, witness: a new view receives a snapshot with keys A, B, A. -/
theorem setConfiguration_duplicate_keys_witness :
    (setConfiguration (MapOrders.stored textSig) textView snapshotABA).2.countP
        (Event.isInsertOf "A") = 1 ∧
    ∃ pv p, lastWithKey snapshotABA.Peers "A" = some p ∧
      Event.insert "A" pv ∈ (setConfiguration (MapOrders.stored textSig) textView snapshotABA).2 ∧
      textView.nextId ≤ pv ∧
      mapGet (setConfiguration (MapOrders.stored textSig) textView snapshotABA).1.peers "A" =
        some pv ∧
      ∀ v0 : peerView,
        ((setConfiguration (MapOrders.stored textSig) textView snapshotABA).1.views pv).display =
          (peerView.apply textSig v0 p).display :=
  setConfiguration_duplicate_keys textSig (MapOrders.stored textSig) textView snapshotABA "A"
    textSig_RoundTrip (Reachable.init 1 _) (by decide) (by decide)

/-- C20, worked example: the map and the transfer row of the section of "A"
after the snapshot with keys A, B, A. -/
theorem setConfiguration_duplicate_keys_example :
    (setConfiguration (MapOrders.stored textSig) textView snapshotABA).1.peers =
      [("A", 1), ("B", 2)] ∧
    ((setConfiguration (MapOrders.stored textSig) textView snapshotABA).1.views
      1).transfer.display = (true, true, "0 B received, 7 B sent") := by
  decide

/-! ## Stale sections whose key text does not parse -/

theorem peerStep_children_mono (st : Run σ × List (Nat × Bool)) (p : Peer σ) (g : Nat)
    (h : g ∈ st.1.cv.children) : g ∈ (peerStep st p).1.cv.children := by
  cases hp : mapGet st.1.cv.peers p.PublicKey with
  | some q => rw [peerStep_found st p q hp]; exact h
  | none =>
    rw [peerStep_new st p hp, peerCreate_children]
    exact List.mem_append_left _ h

theorem peerLoop_children_mono (ps : List (Peer σ)) (st : Run σ × List (Nat × Bool)) (g : Nat)
    (h : g ∈ st.1.cv.children) : g ∈ (ps.foldl peerStep st).1.cv.children := by
  induction ps generalizing st with
  | nil => exact h
  | cons p ps ih => exact ih _ (peerStep_children_mono st p g h)

theorem peerStep_children_nodup (st : Run σ × List (Nat × Bool)) (p : Peer σ)
    (h : st.1.cv.children.Nodup ∧ ∀ g ∈ st.1.cv.children, g < st.1.cv.nextId) :
    (peerStep st p).1.cv.children.Nodup ∧
      ∀ g ∈ (peerStep st p).1.cv.children, g < (peerStep st p).1.cv.nextId := by
  cases hp : mapGet st.1.cv.peers p.PublicKey with
  | some q => rw [peerStep_found st p q hp]; exact h
  | none =>
    rw [peerStep_new st p hp, peerCreate_children, peerCreate_nextId]
    constructor
    · refine List.Nodup.append h.1 (List.nodup_singleton _) ?_
      intro g hg hg'
      rw [List.mem_singleton] at hg'
      exact Nat.lt_irrefl _ (hg' ▸ h.2 g hg)
    · intro g hg
      rw [List.mem_append, List.mem_singleton] at hg
      rcases hg with hg | hg
      · exact Nat.lt_succ_of_lt (h.2 g hg)
      · omega

theorem peerLoop_children_nodup (ps : List (Peer σ)) (st : Run σ × List (Nat × Bool))
    (h : st.1.cv.children.Nodup ∧ ∀ g ∈ st.1.cv.children, g < st.1.cv.nextId) :
    (ps.foldl peerStep st).1.cv.children.Nodup ∧
      ∀ g ∈ (ps.foldl peerStep st).1.cv.children, g < (ps.foldl peerStep st).1.cv.nextId := by
  induction ps generalizing st with
  | nil => exact h
  | cons p ps ih => exact ih _ (peerStep_children_nodup st p h)

/-- Every event of a call, for any view and any key codec: the title update,
a suspension call, part of the creation of a section handed out in this call,
or part of a removal performed by the loop over `inverse`. -/
theorem setConfiguration_log_raw (ord : MapOrders σ) (cv : ConfView σ) (c : Config σ)
    (ev : Event σ) (h : ev ∈ (setConfiguration ord cv c).2) :
    ev = Event.SetTitle cv.name.id ("Interface: " ++ c.Name) ∨
    ev = Event.SetSuspended true ∨ ev = Event.SetSuspended false ∨
    (∃ (k : σ.Key) (g : Nat), cv.nextId ≤ g ∧
      (ev = Event.newPaddedGroupGrid g ∨ ev = Event.SetTitle g "Peer" ∨
        ev = Event.newPeerView g ∨ ev = Event.insert k g)) ∨
    (∃ (pv : Nat) (k : σ.Key),
      Removes (peersPhase ord cv c).1.cv.views (ord.inverse (peersPhase ord cv c).2) pv k ∧
      (ev = Event.delete k ∨ ev = Event.Remove (groupBoxOf ((peersPhase ord cv c).1.cv.views pv)) ∨
        ev = Event.Dispose (groupBoxOf ((peersPhase ord cv c).1.cv.views pv)))) := by
  rw [setConfiguration_eq] at h
  simp only [resume_log] at h
  have hrem : ev ∈ (removalPhase ord cv c).log ∨ ev = Event.SetSuspended false := by
    split_ifs at h
    · rw [List.mem_append, List.mem_singleton] at h
      exact h
    · exact Or.inl h
  rcases hrem with hrem | hrem
  swap
  · exact Or.inr (Or.inr (Or.inl hrem))
  unfold removalPhase at hrem
  rcases removeLoop_log _ _ ev hrem with h1 | h1 | ⟨pv, k, hr, hev⟩
  · unfold peersPhase at h1
    rcases peerLoop_log _ _ ev h1 with h2 | h2 | ⟨k, g, _, _, hle, _, hev⟩
    · simp only [applyHeader_log] at h2
      split_ifs at h2
      · simp only [List.nil_append, List.mem_singleton] at h2
        exact Or.inl h2
      · simp at h2
    · exact Or.inr (Or.inl h2)
    · exact Or.inr (Or.inr (Or.inr (Or.inl ⟨k, g, by simpa using hle, hev⟩)))
  · exact Or.inr (Or.inl h1)
  · exact Or.inr (Or.inr (Or.inr (Or.inr ⟨pv, k, hr, hev⟩)))

/-- What the loop over `inverse` removes in a consistent view, for any key
codec: a section some key was mapped to, that no key of the snapshot is
mapped to, under the key that the string of its own key parses to. -/
theorem Removes_consistent (ord : MapOrders σ) (cv : ConfView σ) (c : Config σ)
    (hc : Consistent cv) (pv : Nat) (k : σ.Key)
    (h : Removes (peersPhase ord cv c).1.cv.views (ord.inverse (peersPhase ord cv c).2) pv k) :
    ∃ k0, mapGet cv.peers k0 = some pv ∧
      (∀ k' ∈ keysOf c.Peers, mapGet cv.peers k' ≠ some pv) ∧
      σ.NewPrivateKeyFromString (σ.KeyString k0) = some k ∧
      groupBoxOf ((peersPhase ord cv c).1.cv.views pv) = pv := by
  obtain ⟨hmem, hparse⟩ := h
  obtain ⟨⟨k0, hk0⟩, hno⟩ := (peersPhase_inverse_true ord cv c hc pv).1 hmem
  have hv := peersPhase_views_stale ord cv c hc pv k0 hk0 hno
  rw [hv, Shows_text _ _ (hc.shown k0 pv hk0)] at hparse
  refine ⟨k0, hk0, hno, hparse, ?_⟩
  rw [hv]
  exact hc.parent k0 pv hk0

theorem Removes_of_stale (ord : MapOrders σ) (cv : ConfView σ) (c : Config σ)
    (hc : Consistent cv) (pv : Nat) (k0 k : σ.Key) (hk0 : mapGet cv.peers k0 = some pv)
    (hno : ∀ k' ∈ keysOf c.Peers, mapGet cv.peers k' ≠ some pv)
    (hparse : σ.NewPrivateKeyFromString (σ.KeyString k0) = some k) :
    Removes (peersPhase ord cv c).1.cv.views (ord.inverse (peersPhase ord cv c).2) pv k := by
  refine ⟨(peersPhase_inverse_true ord cv c hc pv).2 ⟨⟨k0, hk0⟩, hno⟩, ?_⟩
  rw [peersPhase_views_stale ord cv c hc pv k0 hk0 hno, Shows_text _ _ (hc.shown k0 pv hk0)]
  exact hparse

theorem strictView_Consistent : Consistent strictView :=
  peerCreate_Consistent _ _ _ (peerCreate_Consistent _ _ _ (NewConfView_Consistent 1 _))

theorem strictSig_PartialRoundTrip : PartialRoundTrip strictSig := by
  intro k k' h
  simp only [strictSig, textSig] at h
  split_ifs at h
  exact (Option.some.inj h).symm

/-- C12: in a consistent view, with a key codec that may reject the string of
a key but reads back no other key: the body of the loop over `inverse` leaves
the run as it is for an entry whose text does not parse (no deletion, no
detaching, no disposal, no suspension, and the call goes on); a stale section
(one a key was mapped to and no key of the snapshot is mapped to) whose key
string does not parse keeps its entry in `cv.peers` and its group box among
the children, and no deletion of its key, detaching or disposal of its box is
logged; a stale section whose key string parses is unmapped, detached and
disposed in the same call; and when every key of the snapshot is mapped and
no stale section parses, the call logs no `SetSuspended` and leaves the
suspension flag. -/
theorem setConfiguration_skips_unparsable (σ : ConfSig) (ord : MapOrders σ) (cv : ConfView σ)
    (S : Config σ) (hc : Consistent cv) (hpi : PartialRoundTrip σ) :
    (∀ (r : Run σ) (pv : Nat) (b : Bool),
      σ.NewPrivateKeyFromString (r.cv.views pv).publicKey.text.Text = none →
        removeStep r (pv, b) = r) ∧
    (∀ k pv, mapGet cv.peers k = some pv →
      (∀ k' ∈ keysOf S.Peers, mapGet cv.peers k' ≠ some pv) →
      σ.NewPrivateKeyFromString (σ.KeyString k) = none →
        mapGet (setConfiguration ord cv S).1.peers k = some pv ∧
        pv ∈ (setConfiguration ord cv S).1.children ∧
        Event.delete k ∉ (setConfiguration ord cv S).2 ∧
        Event.Remove pv ∉ (setConfiguration ord cv S).2 ∧
        Event.Dispose pv ∉ (setConfiguration ord cv S).2) ∧
    (∀ k pv, mapGet cv.peers k = some pv →
      (∀ k' ∈ keysOf S.Peers, mapGet cv.peers k' ≠ some pv) →
      σ.NewPrivateKeyFromString (σ.KeyString k) = some k →
        mapGet (setConfiguration ord cv S).1.peers k = none ∧
        pv ∉ (setConfiguration ord cv S).1.children ∧
        pv ∈ (setConfiguration ord cv S).1.disposed) ∧
    ((∀ k ∈ keysOf S.Peers, ∃ pv, mapGet cv.peers k = some pv) →
      (∀ k pv, mapGet cv.peers k = some pv →
        (∀ k' ∈ keysOf S.Peers, mapGet cv.peers k' ≠ some pv) →
        σ.NewPrivateKeyFromString (σ.KeyString k) = none) →
      (setConfiguration ord cv S).2.countP Event.isSuspend = 0 ∧
      (setConfiguration ord cv S).1.suspended = cv.suspended) := by
  refine ⟨fun r pv b h => removeStep_none r pv b h, ?_, ?_, ?_⟩
  · intro k pv hk hno hfail
    have hkey : ∀ pv', ¬ Removes (peersPhase ord cv S).1.cv.views
        (ord.inverse (peersPhase ord cv S).2) pv' k := by
      intro pv' hr
      obtain ⟨k0, _, _, hparse, _⟩ := Removes_consistent ord cv S hc pv' k hr
      have := hpi k0 k hparse
      subst this
      rw [hfail] at hparse
      exact Option.noConfusion hparse
    have hbox : ∀ (pv' : Nat) (k' : σ.Key), Removes (peersPhase ord cv S).1.cv.views
        (ord.inverse (peersPhase ord cv S).2) pv' k' →
        groupBoxOf ((peersPhase ord cv S).1.cv.views pv') ≠ pv := by
      intro pv' k' hr hg
      obtain ⟨k0, hk0, _, hparse, hbox⟩ := Removes_consistent ord cv S hc pv' k' hr
      rw [hbox] at hg
      subst hg
      have hstr : σ.KeyString k0 = σ.KeyString k := by
        rw [← Shows_text _ _ (hc.shown k0 pv' hk0), ← Shows_text _ _ (hc.shown k pv' hk)]
      rw [hstr, hfail] at hparse
      exact Option.noConfusion hparse
    have hlog : ∀ ev, ev ∈ (setConfiguration ord cv S).2 →
        ev ≠ Event.delete k ∧ ev ≠ Event.Remove pv ∧ ev ≠ Event.Dispose pv := by
      intro ev hev
      rcases setConfiguration_log_raw ord cv S ev hev with h | h | h | h | h
      · rw [h]; exact ⟨fun x => Event.noConfusion x, fun x => Event.noConfusion x,
          fun x => Event.noConfusion x⟩
      · rw [h]; exact ⟨fun x => Event.noConfusion x, fun x => Event.noConfusion x,
          fun x => Event.noConfusion x⟩
      · rw [h]; exact ⟨fun x => Event.noConfusion x, fun x => Event.noConfusion x,
          fun x => Event.noConfusion x⟩
      · obtain ⟨k', g, _, h⟩ := h
        rcases h with h | h | h | h <;> rw [h] <;>
          exact ⟨fun x => Event.noConfusion x, fun x => Event.noConfusion x,
            fun x => Event.noConfusion x⟩
      · obtain ⟨pv', k', hr, h⟩ := h
        rcases h with h | h | h
        · rw [h]
          refine ⟨fun x => ?_, fun x => Event.noConfusion x, fun x => Event.noConfusion x⟩
          cases x
          exact hkey pv' hr
        · rw [h]
          refine ⟨fun x => Event.noConfusion x, fun x => ?_, fun x => Event.noConfusion x⟩
          exact hbox pv' k' hr (Event.Remove.inj x)
        · rw [h]
          refine ⟨fun x => Event.noConfusion x, fun x => Event.noConfusion x, fun x => ?_⟩
          exact hbox pv' k' hr (Event.Dispose.inj x)
    refine ⟨?_, ?_, fun h => (hlog _ h).1 rfl, fun h => (hlog _ h).2.1 rfl,
      fun h => (hlog _ h).2.2 rfl⟩
    · rw [setConfiguration_peers]
      unfold removalPhase
      rw [removeLoop_get_kept _ _ k hkey]
      unfold peersPhase
      exact peerLoop_get_some _ _ k pv (by simpa using hk)
    · rw [setConfiguration_children]
      unfold removalPhase
      apply removeLoop_children_kept _ _ pv _ hbox
      unfold peersPhase
      exact peerLoop_children_mono _ _ pv (by simpa using hc.child k pv hk)
  · intro k pv hk hno hparse
    have hr := Removes_of_stale ord cv S hc pv k k hk hno hparse
    obtain ⟨_, _, _, _, hbox⟩ := Removes_consistent ord cv S hc pv k hr
    refine ⟨?_, ?_, ?_⟩
    · rw [setConfiguration_peers]
      unfold removalPhase
      exact removeLoop_get_removed _ _ pv k hr
    · have hnd : (peersPhase ord cv S).1.cv.children.Nodup := by
        unfold peersPhase
        exact (peerLoop_children_nodup _ _
          ⟨by simpa using hc.children_nodup, by simpa using hc.children_fresh⟩).1
      have := removeLoop_children_removed _ _ hnd pv k hr
      rw [hbox] at this
      rw [setConfiguration_children]
      exact this
    · have := removeLoop_disposed_removed _ _ pv k hr
      rw [hbox] at this
      rw [setConfiguration_disposed]
      exact this
  · intro hall hfail
    have hnoop : removalPhase ord cv S = (peersPhase ord cv S).1 := by
      unfold removalPhase
      apply removeLoop_noop
      intro pv k hr
      obtain ⟨k0, hk0, hno, hparse, _⟩ := Removes_consistent ord cv S hc pv k hr
      rw [hfail k0 pv hk0 hno] at hparse
      exact Option.noConfusion hparse
    have hpeers := peerLoop_all_found S.Peers
      (applyHeader { cv := cv, hasSuspended := false, log := [] } S,
        buildInverse (ord.peers
          (applyHeader { cv := cv, hasSuspended := false, log := [] } S).cv.peers))
      (by simpa using hall)
    have hs : (removalPhase ord cv S).hasSuspended = false := by
      rw [hnoop]
      unfold peersPhase
      simp only []
      rw [hpeers]
      exact applyHeader_hasSuspended _ S
    refine ⟨?_, setConfiguration_suspended ord cv S hs⟩
    have hcount := (resume_counts _ (removalPhase_LogOK ord cv S)).2.2.2
    rw [setConfiguration_eq]
    simp only []
    rw [hcount, hs]
    rfl

/-- C12, witness: a view with a section for key "A", which parses, and one for
key "xx", which does not, receives a snapshot without peers. -/
theorem setConfiguration_skips_unparsable_witness :
    (∀ (r : Run strictSig) (pv : Nat) (b : Bool),
      strictSig.NewPrivateKeyFromString (r.cv.views pv).publicKey.text.Text = none →
        removeStep r (pv, b) = r) ∧
    (∀ k pv, mapGet strictView.peers k = some pv →
      (∀ k' ∈ keysOf strictEmpty.Peers, mapGet strictView.peers k' ≠ some pv) →
      strictSig.NewPrivateKeyFromString (strictSig.KeyString k) = none →
        mapGet (setConfiguration (MapOrders.stored strictSig) strictView strictEmpty).1.peers k =
          some pv ∧
        pv ∈ (setConfiguration (MapOrders.stored strictSig) strictView strictEmpty).1.children ∧
        Event.delete k ∉ (setConfiguration (MapOrders.stored strictSig) strictView strictEmpty).2 ∧
        Event.Remove pv ∉ (setConfiguration (MapOrders.stored strictSig) strictView strictEmpty).2 ∧
        Event.Dispose pv ∉
          (setConfiguration (MapOrders.stored strictSig) strictView strictEmpty).2) ∧
    (∀ k pv, mapGet strictView.peers k = some pv →
      (∀ k' ∈ keysOf strictEmpty.Peers, mapGet strictView.peers k' ≠ some pv) →
      strictSig.NewPrivateKeyFromString (strictSig.KeyString k) = some k →
        mapGet (setConfiguration (MapOrders.stored strictSig) strictView strictEmpty).1.peers k =
          none ∧
        pv ∉ (setConfiguration (MapOrders.stored strictSig) strictView strictEmpty).1.children ∧
        pv ∈ (setConfiguration (MapOrders.stored strictSig) strictView strictEmpty).1.disposed) ∧
    ((∀ k ∈ keysOf strictEmpty.Peers, ∃ pv, mapGet strictView.peers k = some pv) →
      (∀ k pv, mapGet strictView.peers k = some pv →
        (∀ k' ∈ keysOf strictEmpty.Peers, mapGet strictView.peers k' ≠ some pv) →
        strictSig.NewPrivateKeyFromString (strictSig.KeyString k) = none) →
      (setConfiguration (MapOrders.stored strictSig) strictView strictEmpty).2.countP
        Event.isSuspend = 0 ∧
      (setConfiguration (MapOrders.stored strictSig) strictView strictEmpty).1.suspended =
        strictView.suspended) :=
  setConfiguration_skips_unparsable strictSig (MapOrders.stored strictSig) strictView strictEmpty
    strictView_Consistent strictSig_PartialRoundTrip

/-- C12, worked example: the section of "A" is removed and disposed, the
section of "xx", whose text does not parse, stays mapped and attached. -/
theorem setConfiguration_skips_unparsable_example :
    strictView.peers = [("A", 1), ("xx", 2)] ∧
    (setConfiguration (MapOrders.stored strictSig) strictView strictEmpty).1.peers =
      [("xx", 2)] ∧
    (setConfiguration (MapOrders.stored strictSig) strictView strictEmpty).1.children = [0, 2] ∧
    (setConfiguration (MapOrders.stored strictSig) strictView strictEmpty).1.disposed = [1] ∧
    (setConfiguration (MapOrders.stored strictSig) strictView strictEmpty).2 =
      [Event.SetTitle 0 "Interface: wg0", Event.SetSuspended true, Event.delete "A",
       Event.Remove 1, Event.Dispose 1, Event.SetSuspended false] := by
  refine ⟨by decide, by decide, by decide, by decide, rfl⟩

/-! ## Construction failures -/

/-- C11, the code at a failing input: when `walk.NewGroupBox` fails,
`newPaddedGroupGrid` returns the error, `NewConfView` receives it among the
results it discards, and the error `NewConfView` returns is nil; it is nil
under every combination of failures. -/
theorem NewConfView_drops_errors :
    (newPaddedGroupGrid groupBoxFails 0).err = some "NewGroupBox" ∧
    some "NewGroupBox" ∈ NewConfViewDiscarded groupBoxFails ∧
    NewConfViewError groupBoxFails = none ∧
    (∀ f : Failures, NewConfViewError f = none) :=
  ⟨rfl, by decide, rfl, fun _ => rfl⟩

/-- The named result `err` of `newPaddedGroupGrid` is nil at the end of the
call exactly when none of its three toolkit calls fails. -/
theorem newPaddedGroupGrid_err (f : Failures) (g : Nat) :
    (newPaddedGroupGrid f g).err = none ↔
      f.NewGroupBox = false ∧ f.SetLayout = false ∧ f.NewHSpacerFixed = false := by
  unfold newPaddedGroupGrid
  cases f.NewGroupBox <;> cases f.SetLayout <;> cases f.NewHSpacerFixed <;> simp

/-- The function `newPaddedGroupGrid` hands its error to the caller only when
`walk.NewGroupBox` fails: a failure of `SetLayout` or of
`walk.NewHSpacerFixed` after a created box ends the call in a panic, and in no
case is the created box disposed. -/
theorem newPaddedGroupGrid_panics (f : Failures) (g : Nat) :
    ((newPaddedGroupGrid f g).panics = true ↔
      f.NewGroupBox = false ∧ (f.SetLayout = true ∨ f.NewHSpacerFixed = true)) ∧
    (newPaddedGroupGrid f g).disposed = false ∧
    ((newPaddedGroupGrid f g).group = some g ↔ (newPaddedGroupGrid f g).err = none) := by
  unfold newPaddedGroupGrid
  cases f.NewGroupBox <;> cases f.SetLayout <;> cases f.NewHSpacerFixed <;> simp

/-! ## Thread dispatch, thread by thread -/

/-- C9: `SetConfiguration(c)` called on thread `thread`, thread by thread.
The stretches follow one another from the view `cv`. The calling thread runs
`setConfiguration(c)` directly exactly when it is the creating thread, and
whichever stretch runs `setConfiguration`, directly or in the window
procedure, is executed by the creating thread. On the creating thread the
call is one stretch, `setConfiguration(c)` itself, with every logged call
performed by the caller. On another thread the calling thread executes one
stretch only, the call `SendMessage(crossThreadUpdate, c, 0)` with
`crossThreadUpdate = WM_APP + 17`: that stretch ends with the view it began
with (title, rows and `cv.peers` included), its only logged call is the
message, the message is the only window message of the whole call, and the
view the call returns with is the one the creating thread has produced by
`setConfiguration(c)`. -/
theorem SetConfiguration_dispatch (σ : ConfSig) (ord : MapOrders σ) (mem : Nat → Config σ)
    (cv : ConfView σ) (thread : Nat) (c : Nat) :
    crossThreadUpdate = WM_APP + 17 ∧ WM_APP = 32768 ∧
    Chained cv (SetConfigurationStretches ord mem cv thread c) ∧
    ((∃ s ∈ SetConfigurationStretches ord mem cv thread c,
        s.thread = thread ∧ s.code = Code.setConfiguration c) ↔ thread = cv.creatingThread) ∧
    (∀ s ∈ SetConfigurationStretches ord mem cv thread c,
        s.code.runsSetConfiguration = true → s.thread = cv.creatingThread) ∧
    (thread = cv.creatingThread →
      SetConfigurationStretches ord mem cv thread c =
        [{ thread := thread
           code := Code.setConfiguration c
           before := cv
           after := (setConfiguration ord cv (mem c)).1
           log := (setConfiguration ord cv (mem c)).2 }] ∧
      SetConfiguration ord mem cv thread c =
        ((setConfiguration ord cv (mem c)).1,
          (setConfiguration ord cv (mem c)).2.map (fun e => (thread, e)))) ∧
    (thread ≠ cv.creatingThread →
      SetConfigurationStretches ord mem cv thread c =
        [{ thread := thread
           code := Code.SendMessage crossThreadUpdate c 0
           before := cv
           after := cv
           log := [Event.SendMessage crossThreadUpdate c 0] },
         { thread := cv.creatingThread
           code := Code.crossThreadMessageHijack crossThreadUpdate c 0
           before := cv
           after := (setConfiguration ord cv (mem c)).1
           log := (setConfiguration ord cv (mem c)).2 }] ∧
      (∀ s ∈ SetConfigurationStretches ord mem cv thread c, s.thread = thread →
        s.code = Code.SendMessage crossThreadUpdate c 0 ∧ s.before = cv ∧ s.after = cv ∧
        s.log = [Event.SendMessage crossThreadUpdate c 0]) ∧
      (SetConfiguration ord mem cv thread c).1 = (setConfiguration ord cv (mem c)).1 ∧
      (SetConfiguration ord mem cv thread c).2.filter (fun e => e.2.isWindowCall) =
        [(thread, Event.SendMessage crossThreadUpdate c 0)] ∧
      (SetConfiguration ord mem cv thread c).2.filter (fun e => decide (e.1 = thread)) =
        [(thread, Event.SendMessage crossThreadUpdate c 0)]) := by
  refine ⟨rfl, rfl, ?_, ?_, ?_, ?_, ?_⟩
  · by_cases h : thread = cv.creatingThread
    · rw [SetConfigurationStretches_same ord mem cv thread c h]
      exact ⟨rfl, trivial⟩
    · rw [SetConfigurationStretches_other ord mem cv thread c h]
      exact ⟨rfl, rfl, trivial⟩
  · constructor
    · rintro ⟨s, hs, _, hr⟩
      by_contra h
      rw [SetConfigurationStretches_other ord mem cv thread c h] at hs
      simp only [List.mem_cons, List.mem_singleton, List.not_mem_nil, or_false] at hs
      rcases hs with rfl | rfl
      · exact Code.noConfusion hr
      · exact Code.noConfusion hr
    · intro h
      rw [SetConfigurationStretches_same ord mem cv thread c h]
      exact ⟨_, List.mem_singleton.2 rfl, rfl, rfl⟩
  · intro s hs hr
    by_cases h : thread = cv.creatingThread
    · rw [SetConfigurationStretches_same ord mem cv thread c h] at hs
      rw [List.mem_singleton] at hs
      rw [hs]
      exact h
    · rw [SetConfigurationStretches_other ord mem cv thread c h] at hs
      simp only [List.mem_cons, List.mem_singleton, List.not_mem_nil, or_false] at hs
      rcases hs with rfl | rfl
      · exact Bool.noConfusion hr
      · rfl
  · intro h
    exact ⟨SetConfigurationStretches_same ord mem cv thread c h,
      SetConfiguration_same ord mem cv thread c h⟩
  · intro h
    refine ⟨SetConfigurationStretches_other ord mem cv thread c h, ?_, ?_, ?_, ?_⟩
    · intro s hs ht
      rw [SetConfigurationStretches_other ord mem cv thread c h] at hs
      simp only [List.mem_cons, List.mem_singleton, List.not_mem_nil, or_false] at hs
      rcases hs with rfl | rfl
      · exact ⟨rfl, rfl, rfl, rfl⟩
      · exact absurd ht.symm h
    · rw [SetConfiguration_other ord mem cv thread c h]
    · rw [SetConfiguration_other ord mem cv thread c h]
      rw [List.filter_cons_of_pos (by rfl)]
      congr 1
      rw [List.filter_eq_nil_iff]
      intro e he
      obtain ⟨ev, hev, rfl⟩ := List.mem_map.1 he
      simp [setConfiguration_no_window_call ord cv (mem c) ev hev]
    · rw [SetConfiguration_other ord mem cv thread c h]
      rw [List.filter_cons_of_pos (by simp)]
      congr 1
      rw [List.filter_eq_nil_iff]
      intro e he
      obtain ⟨ev, _, rfl⟩ := List.mem_map.1 he
      simpa using fun h' => h h'.symm

/-- C9, worked example: `SetConfiguration` called on thread 2 for a view
created on thread 1. Thread 2 sends the message and leaves the view as it
was; thread 1 sets the title. -/
theorem SetConfiguration_dispatch_example :
    (SetConfigurationStretches (MapOrders.stored textSig) (fun _ => textConfig "wg0" [])
        textView 2 77).map (fun s => (s.thread, s.code, s.log, s.before.name.title,
          s.after.name.title)) =
      [(2, Code.SendMessage 32785 77 0, [Event.SendMessage 32785 77 0], "", ""),
       (1, Code.crossThreadMessageHijack 32785 77 0, [Event.SetTitle 0 "Interface: wg0"],
        "", "Interface: wg0")] ∧
    (SetConfiguration (MapOrders.stored textSig) (fun _ => textConfig "wg0" []) textView 2 77).2 =
      [(2, Event.SendMessage 32785 77 0), (1, Event.SetTitle 0 "Interface: wg0")] := by
  exact ⟨rfl, rfl⟩

end ui
